import Mathlib

/-!
# blockbucketgo: a single-file key/value bucket

A shallow embedding of `lib.go` and proofs about it.

## Modelling conventions

* A byte is a `Nat`; a byte slice is a `List Nat`; the backing file is a `List Nat`
  (`File`).  `ReadAt` into a freshly made buffer is `readAt` (bytes past the end of the
  file stay zero), `WriteAt` is `writeAt` (a write past the end zero-fills the hole).
  Writes are taken to succeed, so the `(int, error)` results are not part of the model.
  A file is shorter than `2 ^ 63` bytes, so a read at an offset that `int64` turns negative
  finds no byte, in the program (which gets an error) as in the model (past the end).
* `uint` is 64 bits wide.  The decoder `digitsToNumber`, the byte sums and the unsigned
  subtraction of `getListSpace` are reduced modulo `2 ^ 64`; `uint8` counters are reduced
  modulo `2 ^ 8`.  Sums of file offsets and slice lengths are left unreduced: theorems
  about mutations assume that the rewritten file stays below `2 ^ 63` bytes (the largest
  offset `WriteAt` accepts), and then none of these sums can wrap.
* `crypto/md5` followed by `hex.EncodeToString` is the function `md5` below, an executable
  transcription of RFC 1321.
* `sort.Slice` is insertion sort, which is what the Go runtime runs on slices of at most
  twelve elements.  On longer slices the runtime runs pdqsort, which may leave elements
  that compare equal in another order.  The start offsets `getListSpace` sorts are numbers,
  so every sort gives the same slice.  The planning order of `setManyData` is that of the
  program for at most twelve items; for more items it is that of the program up to the
  order of items of equal block size, and theorems that depend on the planning order
  assume at most twelve items.
* `make([]byte, n)` is taken to succeed.  The Go runtime panics when `n` is beyond its
  allocation limit; the sizes concerned are decoded from the file (`sizeKey`, `sizeData`
  in `pullData` and `pullKey`, the index length in `getListConfig`).  In a bucket that
  satisfies the invariants they are lengths of stored byte strings; theorems about
  arbitrary index streams assume that the decoded sizes are at most `cAllocMax`.
* Go maps are association lists (`mapGet`, `mapSet`); a missing key reads as the zero value.
* The file locks and the mutex do not change what a single call computes and are left out.
-/

namespace BlockBucket

/-! ## Constants and types -/

def cMaxDigitGroup : Nat := 249
def cStart : Nat := 250
def cSizeKey : Nat := 251
def cSumKey : Nat := 252
def cSumMd5 : Nat := 253
def cSizeData : Nat := 254
def cEnd : Nat := 255
def cFirstSize : Nat := 128

/-- Number of values of a Go `uint` on a 64-bit target. -/
def uintSize : Nat := 18446744073709551616

structure Item where
  Key : List Nat
  Data : List Nat
deriving DecidableEq

structure block where
  start : Nat
  sizeKey : Nat
  sumKey : Nat
  sumMd5 : Nat
  sizeData : Nat
deriving DecidableEq

def emptyBlock : block :=
  { start := 0, sizeKey := 0, sumKey := 0, sumMd5 := 0, sizeData := 0 }

/-! ## The backing file -/

abbrev File := List Nat

/-- The result buffer of `ReadAt(make([]byte, n), off)` with the error dropped: the bytes of
the file from `off`, zero where the file has ended. -/
def readAt (f : File) (off n : Nat) : List Nat :=
  (List.range n).map (fun i => f.getD (off + i) 0)

/-- Whether `ReadAt` of `n` bytes at `off` reports an error: a non-empty read that the file
cannot fill. -/
def readAtFails (f : File) (off n : Nat) : Bool :=
  decide (0 < n ∧ f.length < off + n)

/-- The file after `WriteAt(data, off)`. An empty write does nothing. -/
def writeAt (f : File) (off : Nat) (data : List Nat) : File :=
  if data = [] then f
  else f.take off ++ List.replicate (off - f.length) 0 ++ data ++ f.drop (off + data.length)

/-! ## MD5 (RFC 1321) and its hex form -/

def md5Shift : List Nat :=
  [7, 12, 17, 22, 7, 12, 17, 22, 7, 12, 17, 22, 7, 12, 17, 22,
   5, 9, 14, 20, 5, 9, 14, 20, 5, 9, 14, 20, 5, 9, 14, 20,
   4, 11, 16, 23, 4, 11, 16, 23, 4, 11, 16, 23, 4, 11, 16, 23,
   6, 10, 15, 21, 6, 10, 15, 21, 6, 10, 15, 21, 6, 10, 15, 21]

def md5Sine : List Nat :=
  [3614090360, 3905402710, 606105819, 3250441966, 4118548399, 1200080426, 2821735955,
   4249261313, 1770035416, 2336552879, 4294925233, 2304563134, 1804603682, 4254626195,
   2792965006, 1236535329, 4129170786, 3225465664, 643717713, 3921069994, 3593408605,
   38016083, 3634488961, 3889429448, 568446438, 3275163606, 4107603335, 1163531501,
   2850285829, 4243563512, 1735328473, 2368359562, 4294588738, 2272392833, 1839030562,
   4259657740, 2763975236, 1272893353, 4139469664, 3200236656, 681279174, 3936430074,
   3572445317, 76029189, 3654602809, 3873151461, 530742520, 3299628645, 4096336452,
   1126891415, 2878612391, 4237533241, 1700485571, 2399980690, 4293915773, 2240044497,
   1873313359, 4264355552, 2734768916, 1309151649, 4149444226, 3174756917, 718787259,
   3951481745]

def word32 : Nat := 4294967296

def rotl32 (x c : Nat) : Nat := ((x <<< c) ||| (x >>> (32 - c))) % word32

def not32 (x : Nat) : Nat := 4294967295 - x % word32

def le32 (x : Nat) : List Nat :=
  [x % 256, (x / 256) % 256, (x / 65536) % 256, (x / 16777216) % 256]

def md5Pad (msg : List Nat) : List Nat :=
  msg ++ [128] ++ List.replicate ((119 - msg.length % 64) % 64) 0
    ++ le32 ((8 * msg.length) % word32) ++ le32 (((8 * msg.length) / word32) % word32)

def md5Words : Nat → List Nat → List Nat
  | 0, _ => []
  | k + 1, bs =>
    (bs.getD 0 0 + 256 * bs.getD 1 0 + 65536 * bs.getD 2 0 + 16777216 * bs.getD 3 0)
      :: md5Words k (bs.drop 4)

def md5Round (m : List Nat) (st : Nat × Nat × Nat × Nat) (i : Nat) : Nat × Nat × Nat × Nat :=
  let fg : Nat × Nat :=
    if i < 16 then ((st.2.1 &&& st.2.2.1) ||| (not32 st.2.1 &&& st.2.2.2), i)
    else if i < 32 then ((st.2.2.2 &&& st.2.1) ||| (not32 st.2.2.2 &&& st.2.2.1), (5 * i + 1) % 16)
    else if i < 48 then (st.2.1 ^^^ st.2.2.1 ^^^ st.2.2.2, (3 * i + 5) % 16)
    else (st.2.2.1 ^^^ (st.2.1 ||| not32 st.2.2.2), (7 * i) % 16)
  let x := (fg.1 + st.1 + md5Sine.getD i 0 + m.getD fg.2 0) % word32
  (st.2.2.2, (st.2.1 + rotl32 x (md5Shift.getD i 0)) % word32, st.2.1, st.2.2.1)

def md5Block (st : Nat × Nat × Nat × Nat) (blk : List Nat) : Nat × Nat × Nat × Nat :=
  let r := (List.range 64).foldl (md5Round (md5Words 16 blk)) st
  ((st.1 + r.1) % word32, (st.2.1 + r.2.1) % word32, (st.2.2.1 + r.2.2.1) % word32,
    (st.2.2.2 + r.2.2.2) % word32)

def md5Blocks : Nat → List Nat → Nat × Nat × Nat × Nat → Nat × Nat × Nat × Nat
  | 0, _, st => st
  | k + 1, bs, st => md5Blocks k (bs.drop 64) (md5Block st (bs.take 64))

/-- The 16 digest bytes of `crypto/md5`. -/
def md5Sum (msg : List Nat) : List Nat :=
  let r := md5Blocks ((md5Pad msg).length / 64) (md5Pad msg)
    (1732584193, 4023233417, 2562383102, 271733878)
  le32 r.1 ++ le32 r.2.1 ++ le32 r.2.2.1 ++ le32 r.2.2.2

def hexDigit (n : Nat) : Nat := if n < 10 then 48 + n else 87 + n

/-- The bytes of `hex.EncodeToString`. -/
def hexEncode : List Nat → List Nat
  | [] => []
  | b :: bs => hexDigit (b / 16) :: hexDigit (b % 16) :: hexEncode bs

/-- Method `(*Bucket).md5`: the lowercase hex digest, as bytes. -/
def md5 (input : List Nat) : List Nat := hexEncode (md5Sum input)

/-- The loop `for i := 0; i < len(key); i++ { sum += uint(key[i]) }`. -/
def sumBytes (key : List Nat) : Nat :=
  key.foldl (fun s b => (s + b) % uintSize) 0

/-! ## Digit-group codec -/

/-- Method `(*Bucket).digitsToNumber`. -/
def digitsToNumber (digits : List Nat) : Nat :=
  digits.foldl
    (fun n x => (n * 10 ^ (if x < 10 then 1 else if x < 100 then 2 else 3) + x) % uintSize) 0

/-- The first loop of `groupDigitsAppend`: decimal digits, least significant first. The
fuel is the size of the `digits` array. -/
def splitDigits : Nat → Nat → List Nat
  | 0, _ => []
  | fuel + 1, n => if n = 0 then [] else (n % 10) :: splitDigits fuel (n / 10)

/-- The last loop of `groupDigitsAppend`: greedy packing of digits into bytes. -/
def packDigits : List Nat → List Nat
  | [] => []
  | [d] => [d]
  | [d, d1] =>
    if d = 0 then 0 :: packDigits [d1]
    else if d * 10 + d1 ≤ cMaxDigitGroup then [d * 10 + d1]
    else d :: packDigits [d1]
  | d :: d1 :: d2 :: rest =>
    if d = 0 then 0 :: packDigits (d1 :: d2 :: rest)
    else if d * 100 + d1 * 10 + d2 ≤ cMaxDigitGroup then
      (d * 100 + d1 * 10 + d2) :: packDigits rest
    else if d * 10 + d1 ≤ cMaxDigitGroup then (d * 10 + d1) :: packDigits (d2 :: rest)
    else d :: packDigits (d1 :: d2 :: rest)

/-- The bytes `groupDigitsAppend` appends for `n`. -/
def groupDigits (n : Nat) : List Nat :=
  if n = 0 then [0] else packDigits (splitDigits 20 n).reverse

/-- Function `groupDigitsAppend(&dst, n)`. -/
def groupDigitsAppend (dst : List Nat) (n : Nat) : List Nat := dst ++ groupDigits n

/-- Function `pushBlockToData`. -/
def pushBlockToData (buf : List Nat) (b : block) : List Nat :=
  let buf := groupDigitsAppend buf b.start
  let buf := buf ++ [cStart]
  let buf := groupDigitsAppend buf b.sizeKey
  let buf := buf ++ [cSizeKey]
  let buf := groupDigitsAppend buf b.sumKey
  let buf := buf ++ [cSumKey]
  let buf := groupDigitsAppend buf b.sumMd5
  let buf := buf ++ [cSumMd5]
  let buf := groupDigitsAppend buf b.sizeData
  buf ++ [cSizeData]

/-! ## Header and index list -/

/-- The header walk of `getListConfig`: bytes before the first `cEnd`, and bytes between the
first and the second. -/
def splitHeader : List Nat → Nat → List Nat → List Nat → List Nat × List Nat
  | [], _, startListData, sizeListData => (startListData, sizeListData)
  | v :: rest, positionListCheck, startListData, sizeListData =>
    if v = cEnd then
      splitHeader rest ((positionListCheck + 1) % 256) startListData sizeListData
    else if positionListCheck = 0 then
      splitHeader rest positionListCheck (startListData ++ [v]) sizeListData
    else if positionListCheck = 1 then
      splitHeader rest positionListCheck startListData (sizeListData ++ [v])
    else (startListData, sizeListData)

/-- Method `(*Bucket).getListConfig`: the index offset and the index bytes. The buffer
`make([]byte, sizeList)` is taken to be allocated: for a header whose index length is beyond
the allocation limit of the runtime the program panics, which is outside this model. -/
def getListConfig (f : File) : Nat × List Nat :=
  let buffer := readAt f 0 cFirstSize
  let hdr := splitHeader buffer 0 [] []
  let startListPoint := digitsToNumber hdr.1
  if startListPoint < cFirstSize then (cFirstSize, [])
  else
    let sizeList := digitsToNumber hdr.2
    let listBlockData := readAt f startListPoint sizeList
    (startListPoint, listBlockData.take (listBlockData.indexOf cEnd))

/-- Method `(*Bucket).updateListBlock`: the index (with a closing `cEnd`) is written at `start`, then
the header at offset 0. -/
def updateListBlock (f : File) (start : Nat) (listBlockData : List Nat) : File :=
  let firstBlockData := groupDigitsAppend [] start
  let firstBlockData := firstBlockData ++ [cEnd]
  let firstBlockData := groupDigitsAppend firstBlockData listBlockData.length
  let firstBlockData := firstBlockData ++ [cEnd]
  writeAt (writeAt f start (listBlockData ++ [cEnd])) 0 firstBlockData

/-- Method `(*Bucket).pullKey`: the read error is dropped. -/
def pullKey (f : File) (info : block) : List Nat :=
  readAt f info.start info.sizeKey

/-- Method `(*Bucket).pullData`: `(nil, nil)` when either read fails. The two buffers are
taken to be allocated: `make([]byte, info.sizeKey)` and `make([]byte, info.sizeData)` panic
for a size beyond the allocation limit of the runtime, which is outside this model. -/
def pullData (f : File) (info : block) : List Nat × List Nat :=
  if readAtFails f info.start info.sizeKey then ([], [])
  else if readAtFails f (info.start + info.sizeKey) info.sizeData then ([], [])
  else (readAt f info.start info.sizeKey, readAt f (info.start + info.sizeKey) info.sizeData)

/-! ## Scanners of the index list -/

/-- The loop of `getNewListNotContainKey`. -/
def getNewListNotContainKeyLoop (f : File) (key : List Nat) (isReturnListInfo : Bool) :
    List Nat → block → List Nat → List Nat → List block → List Nat × List block
  | [], _, _, newListBlockData, newListBlockInfo => (newListBlockData, newListBlockInfo)
  | v :: rest, blockInfo, tmpGroup, newListBlockData, newListBlockInfo =>
    if v = cStart then
      getNewListNotContainKeyLoop f key isReturnListInfo rest
        { blockInfo with start := digitsToNumber tmpGroup } [] newListBlockData newListBlockInfo
    else if v = cSizeKey then
      getNewListNotContainKeyLoop f key isReturnListInfo rest
        { blockInfo with sizeKey := digitsToNumber tmpGroup } [] newListBlockData newListBlockInfo
    else if v = cSumKey then
      getNewListNotContainKeyLoop f key isReturnListInfo rest
        { blockInfo with sumKey := digitsToNumber tmpGroup } [] newListBlockData newListBlockInfo
    else if v = cSumMd5 then
      getNewListNotContainKeyLoop f key isReturnListInfo rest
        { blockInfo with sumMd5 := digitsToNumber tmpGroup } [] newListBlockData newListBlockInfo
    else if v = cSizeData then
      let blockInfo := { blockInfo with sizeData := digitsToNumber tmpGroup }
      if blockInfo.sizeKey = key.length ∧ blockInfo.sumKey = sumBytes key ∧
          blockInfo.sumMd5 = sumBytes (md5 key) ∧ pullKey f blockInfo = key then
        getNewListNotContainKeyLoop f key isReturnListInfo rest blockInfo []
          newListBlockData newListBlockInfo
      else
        getNewListNotContainKeyLoop f key isReturnListInfo rest emptyBlock []
          (pushBlockToData newListBlockData blockInfo)
          (if isReturnListInfo then newListBlockInfo ++ [blockInfo] else newListBlockInfo)
    else if v = cEnd then
      getNewListNotContainKeyLoop f key isReturnListInfo rest blockInfo tmpGroup
        newListBlockData newListBlockInfo
    else
      getNewListNotContainKeyLoop f key isReturnListInfo rest blockInfo (tmpGroup ++ [v])
        newListBlockData newListBlockInfo

/-- Method `(*Bucket).getNewListNotContainKey`. -/
def getNewListNotContainKey (f : File) (listBlockData key : List Nat)
    (isReturnListInfo : Bool) : List Nat × List block :=
  getNewListNotContainKeyLoop f key isReturnListInfo listBlockData emptyBlock [] [] []

/-- The loop of `getOneData`. The `break` after a match leaves the `switch`, not the `for`:
the scan goes on with `blockInfo` kept. -/
def getOneDataLoop (f : File) (key : List Nat) :
    List Nat → block → List Nat → List Nat × List Nat → List Nat × List Nat
  | [], _, _, rs => rs
  | v :: rest, blockInfo, tmpGroup, rs =>
    if v = cStart then
      getOneDataLoop f key rest { blockInfo with start := digitsToNumber tmpGroup } [] rs
    else if v = cSizeKey then
      getOneDataLoop f key rest { blockInfo with sizeKey := digitsToNumber tmpGroup } [] rs
    else if v = cSumKey then
      getOneDataLoop f key rest { blockInfo with sumKey := digitsToNumber tmpGroup } [] rs
    else if v = cSumMd5 then
      getOneDataLoop f key rest { blockInfo with sumMd5 := digitsToNumber tmpGroup } [] rs
    else if v = cSizeData then
      let blockInfo := { blockInfo with sizeData := digitsToNumber tmpGroup }
      if blockInfo.sizeKey = key.length ∧ blockInfo.sumKey = sumBytes key ∧
          blockInfo.sumMd5 = sumBytes (md5 key) ∧ (pullData f blockInfo).1 = key then
        getOneDataLoop f key rest blockInfo [] (pullData f blockInfo)
      else
        getOneDataLoop f key rest emptyBlock [] rs
    else if v = cEnd then
      getOneDataLoop f key rest blockInfo tmpGroup rs
    else
      getOneDataLoop f key rest blockInfo (tmpGroup ++ [v]) rs

/-- Method `(*Bucket).getOneData`. -/
def getOneData (f : File) (listBlockData key : List Nat) : List Nat × List Nat :=
  getOneDataLoop f key listBlockData emptyBlock [] ([], [])

/-- The re-verification shared by the list scans: the stored key has the recorded length,
byte sum and digest sum. -/
def verifyBlock (f : File) (blockInfo : block) : Bool :=
  decide ((pullData f blockInfo).1.length = blockInfo.sizeKey ∧
    sumBytes (pullData f blockInfo).1 = blockInfo.sumKey ∧
    sumBytes (md5 (pullData f blockInfo).1) = blockInfo.sumMd5)

/-- The item `pullData` reads for a descriptor. -/
def pullItem (f : File) (blockInfo : block) : Item :=
  { Key := (pullData f blockInfo).1, Data := (pullData f blockInfo).2 }

/-- The loop of `getListData`. -/
def getListDataLoop (f : File) (limit : Nat) :
    List Nat → block → List Nat → Nat → List Item → List Item
  | [], _, _, _, result => result
  | v :: rest, blockInfo, tmpGroup, current, result =>
    if current ≥ limit then result
    else if v = cStart then
      getListDataLoop f limit rest { blockInfo with start := digitsToNumber tmpGroup } []
        current result
    else if v = cSizeKey then
      getListDataLoop f limit rest { blockInfo with sizeKey := digitsToNumber tmpGroup } []
        current result
    else if v = cSumKey then
      getListDataLoop f limit rest { blockInfo with sumKey := digitsToNumber tmpGroup } []
        current result
    else if v = cSumMd5 then
      getListDataLoop f limit rest { blockInfo with sumMd5 := digitsToNumber tmpGroup } []
        current result
    else if v = cSizeData then
      let blockInfo := { blockInfo with sizeData := digitsToNumber tmpGroup }
      if verifyBlock f blockInfo then
        getListDataLoop f limit rest emptyBlock [] ((current + 1) % 256)
          (result ++ [pullItem f blockInfo])
      else
        getListDataLoop f limit rest emptyBlock [] current result
    else if v = cEnd then
      getListDataLoop f limit rest blockInfo tmpGroup current result
    else
      getListDataLoop f limit rest blockInfo (tmpGroup ++ [v]) current result

/-- Method `(*Bucket).getListData`. -/
def getListData (f : File) (listBlockData : List Nat) (limit : Nat) : List Item :=
  getListDataLoop f limit listBlockData emptyBlock [] 0 []

/-- The loop of `getListNextData`. -/
def getListNextDataLoop (f : File) (limit skip : Nat) :
    List Nat → block → List Nat → Nat → Nat → List Item → List Item
  | [], _, _, _, _, result => result
  | v :: rest, blockInfo, tmpGroup, current, currentSkip, result =>
    if current ≥ limit then result
    else if v = cStart then
      getListNextDataLoop f limit skip rest { blockInfo with start := digitsToNumber tmpGroup }
        [] current currentSkip result
    else if v = cSizeKey then
      getListNextDataLoop f limit skip rest
        { blockInfo with sizeKey := digitsToNumber tmpGroup } [] current currentSkip result
    else if v = cSumKey then
      getListNextDataLoop f limit skip rest { blockInfo with sumKey := digitsToNumber tmpGroup }
        [] current currentSkip result
    else if v = cSumMd5 then
      getListNextDataLoop f limit skip rest { blockInfo with sumMd5 := digitsToNumber tmpGroup }
        [] current currentSkip result
    else if v = cSizeData then
      let blockInfo := { blockInfo with sizeData := digitsToNumber tmpGroup }
      if verifyBlock f blockInfo then
        if currentSkip < skip then
          getListNextDataLoop f limit skip rest emptyBlock [] current
            ((currentSkip + 1) % uintSize) result
        else
          getListNextDataLoop f limit skip rest emptyBlock [] ((current + 1) % 256) currentSkip
            (result ++ [pullItem f blockInfo])
      else
        getListNextDataLoop f limit skip rest emptyBlock [] current currentSkip result
    else if v = cEnd then
      getListNextDataLoop f limit skip rest blockInfo tmpGroup current currentSkip result
    else
      getListNextDataLoop f limit skip rest blockInfo (tmpGroup ++ [v]) current currentSkip
        result

/-- Method `(*Bucket).getListNextData`. -/
def getListNextData (f : File) (listBlockData : List Nat) (limit skip : Nat) : List Item :=
  getListNextDataLoop f limit skip listBlockData emptyBlock [] 0 0 []

/-- The loop of `getFindNextData`. -/
def getFindNextDataLoop (f : File) (key : List Nat) (limit : Nat) (onlyAfterKey : Bool) :
    List Nat → block → List Nat → Bool → Nat → List Item → List Item
  | [], _, _, _, _, result => result
  | v :: rest, blockInfo, tmpGroup, checkIsBegin, current, result =>
    if current ≥ limit then result
    else if v = cStart then
      getFindNextDataLoop f key limit onlyAfterKey rest
        { blockInfo with start := digitsToNumber tmpGroup } [] checkIsBegin current result
    else if v = cSizeKey then
      getFindNextDataLoop f key limit onlyAfterKey rest
        { blockInfo with sizeKey := digitsToNumber tmpGroup } [] checkIsBegin current result
    else if v = cSumKey then
      getFindNextDataLoop f key limit onlyAfterKey rest
        { blockInfo with sumKey := digitsToNumber tmpGroup } [] checkIsBegin current result
    else if v = cSumMd5 then
      getFindNextDataLoop f key limit onlyAfterKey rest
        { blockInfo with sumMd5 := digitsToNumber tmpGroup } [] checkIsBegin current result
    else if v = cSizeData then
      let blockInfo := { blockInfo with sizeData := digitsToNumber tmpGroup }
      let checkIsBegin :=
        if checkIsBegin = false ∧ blockInfo.sizeKey = key.length ∧
            blockInfo.sumKey = sumBytes key ∧ blockInfo.sumMd5 = sumBytes (md5 key) then
          decide (pullKey f blockInfo = key)
        else checkIsBegin
      if checkIsBegin = true ∧ verifyBlock f blockInfo = true then
        getFindNextDataLoop f key limit onlyAfterKey rest emptyBlock [] checkIsBegin
          ((current + 1) % 256)
          (if onlyAfterKey = false ∨ current > 0 then result ++ [pullItem f blockInfo]
            else result)
      else
        getFindNextDataLoop f key limit onlyAfterKey rest emptyBlock [] checkIsBegin current
          result
    else if v = cEnd then
      getFindNextDataLoop f key limit onlyAfterKey rest blockInfo tmpGroup checkIsBegin current
        result
    else
      getFindNextDataLoop f key limit onlyAfterKey rest blockInfo (tmpGroup ++ [v])
        checkIsBegin current result

/-- Method `(*Bucket).getFindNextData`. -/
def getFindNextData (f : File) (listBlockData key : List Nat) (limit : Nat)
    (onlyAfterKey : Bool) : List Item :=
  getFindNextDataLoop f key limit onlyAfterKey listBlockData emptyBlock [] false 0 []

/-- The scan state of `deleteToData`. -/
structure DeleteToScan where
  thisFoundIndex : Nat
  thisFoundFinishIndex : Nat
  lastFoundBlockInfo : block
  blockControlIndexBefore : Nat
deriving DecidableEq

/-- The loop of `deleteToData`; `i` is the index of the byte at the head of the list. -/
def deleteToDataLoop (f : File) (key : List Nat) :
    List Nat → Nat → block → List Nat → DeleteToScan → DeleteToScan
  | [], _, _, _, st => st
  | v :: rest, i, blockInfo, tmpGroup, st =>
    if v = cStart then
      deleteToDataLoop f key rest (i + 1) { blockInfo with start := digitsToNumber tmpGroup }
        [] st
    else if v = cSizeKey then
      deleteToDataLoop f key rest (i + 1) { blockInfo with sizeKey := digitsToNumber tmpGroup }
        [] st
    else if v = cSumKey then
      deleteToDataLoop f key rest (i + 1) { blockInfo with sumKey := digitsToNumber tmpGroup }
        [] st
    else if v = cSumMd5 then
      deleteToDataLoop f key rest (i + 1) { blockInfo with sumMd5 := digitsToNumber tmpGroup }
        [] st
    else if v = cSizeData then
      let blockInfo := { blockInfo with sizeData := digitsToNumber tmpGroup }
      if blockInfo.sizeKey = key.length ∧ blockInfo.sumKey = sumBytes key ∧
          blockInfo.sumMd5 = sumBytes (md5 key) ∧ pullKey f blockInfo = key then
        deleteToDataLoop f key rest (i + 1) emptyBlock []
          { thisFoundIndex := st.blockControlIndexBefore + 1
            thisFoundFinishIndex := i + 1
            lastFoundBlockInfo := blockInfo
            blockControlIndexBefore := i }
      else
        deleteToDataLoop f key rest (i + 1) emptyBlock [] { st with blockControlIndexBefore := i }
    else if v = cEnd then
      deleteToDataLoop f key rest (i + 1) blockInfo tmpGroup st
    else
      deleteToDataLoop f key rest (i + 1) blockInfo (tmpGroup ++ [v]) st

/-- Method `(*Bucket).deleteToData`. -/
def deleteToData (f : File) (startListPoint : Nat) (listBlockData : List Nat)
    (alsoDeleteTheFoundBlock : Bool) (key : List Nat) : File :=
  let st := deleteToDataLoop f key listBlockData 0 emptyBlock []
    { thisFoundIndex := 0, thisFoundFinishIndex := 0, lastFoundBlockInfo := emptyBlock,
      blockControlIndexBefore := 0 }
  if st.thisFoundIndex = 0 ∨ st.lastFoundBlockInfo.start = 0 ∨
      st.lastFoundBlockInfo.sizeKey = 0 ∨ st.lastFoundBlockInfo.sumKey = 0 ∨
      st.lastFoundBlockInfo.sumMd5 = 0 then f
  else if alsoDeleteTheFoundBlock then
    updateListBlock f startListPoint (listBlockData.drop st.thisFoundFinishIndex)
  else
    updateListBlock f startListPoint (listBlockData.drop st.thisFoundIndex)

/-! ## Go maps -/

/-- Reading `m[k]`: the value stored last under `k`, the zero value when there is none. -/
def mapGet {κ ν : Type} [DecidableEq κ] (zero : ν) (m : List (κ × ν)) (k : κ) : ν :=
  match m with
  | [] => zero
  | (k1, v1) :: rest => if k1 = k then v1 else mapGet zero rest k

/-- The map after `m[k] = v`. -/
def mapSet {κ ν : Type} (m : List (κ × ν)) (k : κ) (v : ν) : List (κ × ν) :=
  (k, v) :: m

/-! ## Free-space planner -/

/-- The sweep of `getListSpace` over the sorted start offsets; returns `currentPoint` and
the gaps found. -/
def getListSpaceSweep (mapStartBlock : List (Nat × Nat)) :
    List Nat → Nat → List block → Nat × List block
  | [], currentPoint, listSpace => (currentPoint, listSpace)
  | start :: rest, currentPoint, listSpace =>
    getListSpaceSweep mapStartBlock rest (start + mapGet 0 mapStartBlock start)
      (if currentPoint < start then
        listSpace ++ [{ start := currentPoint, sizeKey := 0, sumKey := 0, sumMd5 := 0,
                        sizeData := start - currentPoint }]
       else listSpace)

/-- Method `(*Bucket).getListSpace`. -/
def getListSpace (startListPoint : Nat) (listBlockInfo : List block) : List block :=
  let listStartBlock := listBlockInfo.map (fun b => b.start)
  let mapStartBlock :=
    listBlockInfo.foldl (fun m b => mapSet m b.start (b.sizeKey + b.sizeData)) []
  let listStartBlock := listStartBlock.insertionSort (fun a b => a ≤ b)
  let sw := getListSpaceSweep mapStartBlock listStartBlock cFirstSize []
  let lastSpaceSize := (startListPoint + uintSize - sw.1 % uintSize) % uintSize
  if lastSpaceSize > 0 then
    sw.2 ++ [{ start := sw.1, sizeKey := 0, sumKey := 1, sumMd5 := 0,
               sizeData := lastSpaceSize }]
  else sw.2

/-- The loop state of `getPerfectSpace`. -/
structure PerfectScan where
  perfectFreeSize : Nat
  startBlock : Nat
  isLastSpace : Bool
deriving DecidableEq

/-- One turn of the loop of `getPerfectSpace`. -/
def getPerfectSpaceStep (startListPoint blockSize : Nat) (st : PerfectScan) (s : block) :
    PerfectScan :=
  if s.sizeData ≥ blockSize ∨ s.sumKey = 1 then
    if s.sizeData > st.perfectFreeSize ∨
        (st.perfectFreeSize > s.sizeData ∧ startListPoint > s.start + s.sizeData) then
      { perfectFreeSize := s.sizeData, startBlock := s.start,
        isLastSpace := decide (s.sumKey = 1) }
    else st
  else st

/-- Method `(*Bucket).getPerfectSpace`: `(startList, startBlock)`. -/
def getPerfectSpace (listSpace : List block) (startListPoint blockSize : Nat) : Nat × Nat :=
  let st := listSpace.foldl (getPerfectSpaceStep startListPoint blockSize)
    { perfectFreeSize := 0, startBlock := startListPoint, isLastSpace := false }
  let perfectBlockSize := if st.perfectFreeSize ≥ blockSize then 0 else blockSize
  let startList :=
    if st.isLastSpace then st.startBlock + blockSize else startListPoint + perfectBlockSize
  (startList, st.startBlock)

/-! ## Point operations -/

/-- Method `(*Bucket).setOneData`: the index and header are rewritten first, the payload last. -/
def setOneData (f : File) (listBlockData key data : List Nat) (startListPoint : Nat) : File :=
  let nl := getNewListNotContainKey f listBlockData key true
  let sizeKey := key.length
  let sizeData := data.length
  let blockSize := sizeKey + sizeData
  let sumKey := sumBytes key
  let sumMd5 := sumBytes (md5 key)
  let listSpace := getListSpace startListPoint nl.2
  let ps := getPerfectSpace listSpace startListPoint blockSize
  let infoData := pushBlockToData []
    { start := ps.2, sizeKey := sizeKey, sumKey := sumKey, sumMd5 := sumMd5,
      sizeData := sizeData }
  let listBlockDataWriter := nl.1 ++ infoData
  writeAt (updateListBlock f ps.1 listBlockDataWriter) ps.2 (key ++ data)

/-- Method `(*Bucket).deleteOneData`. -/
def deleteOneData (f : File) (listBlockData key : List Nat) (startListPoint : Nat) : File :=
  updateListBlock f startListPoint (getNewListNotContainKey f listBlockData key false).1

/-! ## Batch insert -/

/-- The inner loop of `getNewListNotContainListKey` over the items: whether some item not
yet skipped has the key of `blockInfo`, and the skip set afterwards. -/
def findInListKey (f : File) (blockInfo : block) :
    List Item → List (List Nat × Bool) → Bool × List (List Nat × Bool)
  | [], listSkipCheck => (false, listSkipCheck)
  | curKey :: rest, listSkipCheck =>
    if mapGet false listSkipCheck (md5 curKey.Key) then
      findInListKey f blockInfo rest listSkipCheck
    else if blockInfo.sizeKey = curKey.Key.length ∧ blockInfo.sumKey = sumBytes curKey.Key ∧
        blockInfo.sumMd5 = sumBytes (md5 curKey.Key) ∧ pullKey f blockInfo = curKey.Key then
      (true, mapSet listSkipCheck (md5 curKey.Key) true)
    else findInListKey f blockInfo rest listSkipCheck

/-- The loop of `getNewListNotContainListKey`: the filtered stream and descriptor list it
builds. -/
def getNewListNotContainListKeyLoop (f : File) (listData : List Item)
    (isReturnListInfo : Bool) :
    List Nat → block → List Nat → List (List Nat × Bool) → List Nat → List block →
      List Nat × List block
  | [], _, _, _, newListBlockData, newListBlockInfo => (newListBlockData, newListBlockInfo)
  | v :: rest, blockInfo, tmpGroup, listSkipCheck, newListBlockData, newListBlockInfo =>
    if v = cStart then
      getNewListNotContainListKeyLoop f listData isReturnListInfo rest
        { blockInfo with start := digitsToNumber tmpGroup } [] listSkipCheck
        newListBlockData newListBlockInfo
    else if v = cSizeKey then
      getNewListNotContainListKeyLoop f listData isReturnListInfo rest
        { blockInfo with sizeKey := digitsToNumber tmpGroup } [] listSkipCheck
        newListBlockData newListBlockInfo
    else if v = cSumKey then
      getNewListNotContainListKeyLoop f listData isReturnListInfo rest
        { blockInfo with sumKey := digitsToNumber tmpGroup } [] listSkipCheck
        newListBlockData newListBlockInfo
    else if v = cSumMd5 then
      getNewListNotContainListKeyLoop f listData isReturnListInfo rest
        { blockInfo with sumMd5 := digitsToNumber tmpGroup } [] listSkipCheck
        newListBlockData newListBlockInfo
    else if v = cSizeData then
      let blockInfo := { blockInfo with sizeData := digitsToNumber tmpGroup }
      let found := findInListKey f blockInfo listData listSkipCheck
      if found.1 then
        getNewListNotContainListKeyLoop f listData isReturnListInfo rest blockInfo []
          found.2 newListBlockData newListBlockInfo
      else
        getNewListNotContainListKeyLoop f listData isReturnListInfo rest emptyBlock []
          found.2 (pushBlockToData newListBlockData blockInfo)
          (if isReturnListInfo then newListBlockInfo ++ [blockInfo] else newListBlockInfo)
    else if v = cEnd then
      getNewListNotContainListKeyLoop f listData isReturnListInfo rest blockInfo tmpGroup
        listSkipCheck newListBlockData newListBlockInfo
    else
      getNewListNotContainListKeyLoop f listData isReturnListInfo rest blockInfo
        (tmpGroup ++ [v]) listSkipCheck newListBlockData newListBlockInfo

/-- Method `(*Bucket).getNewListNotContainListKey`: whatever the loop has built, the function ends
in `return nil, nil`. -/
def getNewListNotContainListKey (_f : File) (_listBlockData : List Nat) (_listData : List Item)
    (_isReturnListInfo : Bool) : List Nat × List block :=
  ([], [])

/-- The text of `fmt.Sprintf("%d%d%d%d", sizeKey, sumKey, sumMd5, sizeData)`. -/
def insertPosition (sizeKey sumKey sumMd5 sizeData : Nat) : String :=
  toString sizeKey ++ toString sumKey ++ toString sumMd5 ++ toString sizeData

/-- Method `(*Bucket).addToMapSort`. -/
def addToMapSort (mapBlockInsert : List (String × block)) (c : block) (startBlock : Nat) :
    List (String × block) :=
  mapSet mapBlockInsert (insertPosition c.sizeKey c.sumKey c.sumMd5 c.sizeData)
    { start := startBlock, sizeKey := c.sizeKey, sumKey := c.sumKey, sumMd5 := c.sumMd5,
      sizeData := c.sizeData }

/-- A pending payload write of `setManyData`. -/
structure writeDataTemp where
  start : Nat
  key : List Nat
  data : List Nat
deriving DecidableEq

/-- The first loop of `setManyData`: minimum block size, the descriptors to insert (with the
input position in `start`) and their map keys. -/
def setManyCollect :
    List Item → Nat → Nat → List block → List String → Nat × List block × List String
  | [], _, minSizeBlock, listConfigInsert, listBlockInsertPosition =>
    (minSizeBlock, listConfigInsert, listBlockInsertPosition)
  | item :: rest, i, minSizeBlock, listConfigInsert, listBlockInsertPosition =>
    let sizeKey := item.Key.length
    let sizeData := item.Data.length
    let blockSize := sizeKey + sizeData
    setManyCollect rest (i + 1)
      (if minSizeBlock = 0 ∨ blockSize < minSizeBlock then blockSize else minSizeBlock)
      (listConfigInsert ++ [{ start := i, sizeKey := sizeKey, sumKey := sumBytes item.Key,
                              sumMd5 := sumBytes (md5 item.Key), sizeData := sizeData }])
      (listBlockInsertPosition ++
        [insertPosition sizeKey (sumBytes item.Key) (sumBytes (md5 item.Key)) sizeData])

/-- The planning state of `setManyData`. -/
structure SetManyPlan where
  selected : List (Nat × Bool)
  mapBlockInsert : List (String × block)
  listWriteData : List writeDataTemp
  startListBlock : Nat
  totalLastSpaceUsed : Nat
deriving DecidableEq

/-- The item `listData[i]` (the index is always in range in `setManyData`). -/
def itemAt (listData : List Item) (i : Nat) : Item :=
  listData.getD i { Key := [], Data := [] }

/-- The loop over `listConfigInsert` for one gap `s` of `setManyData`. -/
def setManyFillSpace (listData : List Item) (s : block) :
    List block → Nat → SetManyPlan → SetManyPlan
  | [], _, plan => plan
  | c :: rest, thisSpaceUsed, plan =>
    if mapGet false plan.selected c.start then
      setManyFillSpace listData s rest thisSpaceUsed plan
    else
      let blockSize := c.sizeKey + c.sizeData
      let fits : Bool := decide (s.sizeData ≥ blockSize + thisSpaceUsed ∨ s.sumKey = 1)
      let plan1 : SetManyPlan :=
        if fits then
          { plan with
            selected := mapSet plan.selected c.start true
            mapBlockInsert := addToMapSort plan.mapBlockInsert c (s.start + thisSpaceUsed)
            listWriteData := plan.listWriteData ++
              [{ start := s.start + thisSpaceUsed, key := (itemAt listData c.start).Key,
                 data := (itemAt listData c.start).Data }] }
        else plan
      let plan2 : SetManyPlan :=
        if s.sumKey = 1 then
          { plan1 with startListBlock := s.start
                       totalLastSpaceUsed := plan1.totalLastSpaceUsed + blockSize }
        else plan1
      setManyFillSpace listData s rest (if fits then thisSpaceUsed + blockSize else thisSpaceUsed)
        plan2

/-- The loop over the gaps of `setManyData`. -/
def setManyFillSpaces (listData : List Item) (minSizeBlock : Nat)
    (listConfigInsert : List block) : List block → SetManyPlan → SetManyPlan
  | [], plan => plan
  | s :: rest, plan =>
    if s.sizeData < minSizeBlock ∧ s.sumKey = 0 then
      setManyFillSpaces listData minSizeBlock listConfigInsert rest plan
    else
      setManyFillSpaces listData minSizeBlock listConfigInsert rest
        (setManyFillSpace listData s listConfigInsert 0 plan)

/-- The loop of `setManyData` that appends what no gap has taken. -/
def setManyAppendRest (listData : List Item) : List block → SetManyPlan → SetManyPlan
  | [], plan => plan
  | c :: rest, plan =>
    if mapGet false plan.selected c.start then setManyAppendRest listData rest plan
    else
      setManyAppendRest listData rest
        { selected := mapSet plan.selected c.start true
          mapBlockInsert :=
            addToMapSort plan.mapBlockInsert c (plan.startListBlock + plan.totalLastSpaceUsed)
          listWriteData := plan.listWriteData ++
            [{ start := plan.startListBlock + plan.totalLastSpaceUsed,
               key := (itemAt listData c.start).Key, data := (itemAt listData c.start).Data }]
          startListBlock := plan.startListBlock
          totalLastSpaceUsed := plan.totalLastSpaceUsed + (c.sizeKey + c.sizeData) }

/-- The descriptor bytes of `setManyData`, one map lookup per input position. -/
def setManyInfoData (mapBlockInsert : List (String × block)) : List String → List Nat
  | [] => []
  | pos :: rest =>
    pushBlockToData [] (mapGet emptyBlock mapBlockInsert pos) ++ setManyInfoData mapBlockInsert rest

/-- The payload writes of `setManyData`, in planning order. -/
def setManyWrite : File → List writeDataTemp → File
  | f, [] => f
  | f, item :: rest => setManyWrite (writeAt f item.start (item.key ++ item.data)) rest

/-- The plan `setManyData` arrives at before it writes. The call of `sort.Slice` is the
stable insertion sort the runtime runs on at most twelve elements; for a longer input the
runtime runs pdqsort, and the plan is that of the program up to the order in which items
of equal block size are placed. -/
def setManyPlan (f : File) (listBlockData : List Nat) (listData : List Item)
    (startListPoint : Nat) : SetManyPlan :=
  let nl := getNewListNotContainListKey f listBlockData listData true
  let col := setManyCollect listData 0 0 [] []
  let listConfigInsert := col.2.1.insertionSort
    (fun a b => a.sizeKey + a.sizeData ≥ b.sizeKey + b.sizeData)
  let listSpace := getListSpace startListPoint nl.2
  let plan := setManyFillSpaces listData col.1 listConfigInsert listSpace
    { selected := [], mapBlockInsert := [], listWriteData := [],
      startListBlock := startListPoint, totalLastSpaceUsed := 0 }
  setManyAppendRest listData listConfigInsert plan

/-- Method `(*Bucket).setManyData`: the index and header are rewritten first, then the payloads. -/
def setManyData (f : File) (listBlockData : List Nat) (listData : List Item)
    (startListPoint : Nat) : File :=
  let nl := getNewListNotContainListKey f listBlockData listData true
  let col := setManyCollect listData 0 0 [] []
  let plan := setManyPlan f listBlockData listData startListPoint
  let listInfoData := setManyInfoData plan.mapBlockInsert col.2.2
  setManyWrite
    (updateListBlock f (plan.startListBlock + plan.totalLastSpaceUsed) (nl.1 ++ listInfoData))
    plan.listWriteData

/-! ## The exported verbs -/

/-- A byte slice. -/
abbrev Bytes := List Nat

/-- A slice of items. -/
abbrev Items := List Item

/-- Method `(*Bucket).Set`. -/
def Bucket.Set (f : File) (item : Item) : File :=
  setOneData f (getListConfig f).2 item.Key item.Data (getListConfig f).1

/-- Method `(*Bucket).Get`. -/
def Bucket.Get (f : File) (key : Bytes) : Bytes × Bytes :=
  getOneData f (getListConfig f).2 key

/-- Method `(*Bucket).Delete`. -/
def Bucket.Delete (f : File) (key : Bytes) : File :=
  deleteOneData f (getListConfig f).2 key (getListConfig f).1

/-- Method `(*Bucket).SetMany`. -/
def Bucket.SetMany (f : File) (listData : Items) : File :=
  setManyData f (getListConfig f).2 listData (getListConfig f).1

/-- Method `(*Bucket).List`. -/
def Bucket.List (f : File) (limit : Nat) : Items :=
  getListData f (getListConfig f).2 limit

/-- Method `(*Bucket).ListNext`. -/
def Bucket.ListNext (f : File) (limit skip : Nat) : Items :=
  getListNextData f (getListConfig f).2 limit skip

/-- Method `(*Bucket).FindNext`. -/
def Bucket.FindNext (f : File) (key : Bytes) (limit : Nat) (onlyAfterKey : Bool) :
    Items :=
  getFindNextData f (getListConfig f).2 key limit onlyAfterKey

/-- Method `(*Bucket).DeleteTo`. -/
def Bucket.DeleteTo (f : File) (key : Bytes) (alsoDeleteTheFoundBlock : Bool) : File :=
  deleteToData f (getListConfig f).1 (getListConfig f).2 alsoDeleteTheFoundBlock key

/-! ## Auxiliary definitions used in the statements and proofs -/

/-- Number of decimal digits a byte stands for in `digitsToNumber`. -/
def digitCount (x : Nat) : Nat := if x < 10 then 1 else if x < 100 then 2 else 3

/-- The decoder without the reduction modulo `2 ^ 64`. -/
def decodeFrom (n : Nat) (digits : List Nat) : Nat :=
  digits.foldl (fun n x => n * 10 ^ digitCount x + x) n

/-- Value of a digit string, most significant digit first. -/
def digitsValue (a : Nat) (ds : List Nat) : Nat := ds.foldl (fun v d => v * 10 + d) a

/-- The index bytes of a list of descriptors. -/
def encodeBlocks : List block → List Nat
  | [] => []
  | d :: ds => pushBlockToData [] d ++ encodeBlocks ds

/-- Every field of the descriptor is a `uint`. -/
def block.Fits (d : block) : Prop :=
  d.start < uintSize ∧ d.sizeKey < uintSize ∧ d.sumKey < uintSize ∧ d.sumMd5 < uintSize ∧
    d.sizeData < uintSize

instance (d : block) : Decidable d.Fits :=
  inferInstanceAs (Decidable (d.start < uintSize ∧ d.sizeKey < uintSize ∧
    d.sumKey < uintSize ∧ d.sumMd5 < uintSize ∧ d.sizeData < uintSize))

/-- The state machine every scan of `lib.go` repeats, with the reaction to a completed
descriptor (`onBlock`), the loop guard (`stop`) and the per-byte bookkeeping (`tick`) left
open. The loops of `lib.go` are instances of it (`*_eq_scanLoop`). -/
def scanLoop {σ : Type} (stop : σ → Bool) (tick : σ → σ) (onBlock : σ → block → σ × block) :
    List Nat → block → List Nat → σ → σ
  | [], _, _, st => st
  | v :: rest, blockInfo, tmpGroup, st =>
    if stop st then st
    else if v = cStart then
      scanLoop stop tick onBlock rest { blockInfo with start := digitsToNumber tmpGroup } []
        (tick st)
    else if v = cSizeKey then
      scanLoop stop tick onBlock rest { blockInfo with sizeKey := digitsToNumber tmpGroup } []
        (tick st)
    else if v = cSumKey then
      scanLoop stop tick onBlock rest { blockInfo with sumKey := digitsToNumber tmpGroup } []
        (tick st)
    else if v = cSumMd5 then
      scanLoop stop tick onBlock rest { blockInfo with sumMd5 := digitsToNumber tmpGroup } []
        (tick st)
    else if v = cSizeData then
      scanLoop stop tick onBlock rest
        (onBlock st { blockInfo with sizeData := digitsToNumber tmpGroup }).2 []
        (tick (onBlock st { blockInfo with sizeData := digitsToNumber tmpGroup }).1)
    else if v = cEnd then scanLoop stop tick onBlock rest blockInfo tmpGroup (tick st)
    else scanLoop stop tick onBlock rest blockInfo (tmpGroup ++ [v]) (tick st)

/-- The descriptors a scan of the stream completes, in stream order (emit-all mode). -/
def scanBlocksFrom : List Nat → block → List Nat → List block
  | [], _, _ => []
  | v :: rest, blockInfo, tmpGroup =>
    if v = cStart then
      scanBlocksFrom rest { blockInfo with start := digitsToNumber tmpGroup } []
    else if v = cSizeKey then
      scanBlocksFrom rest { blockInfo with sizeKey := digitsToNumber tmpGroup } []
    else if v = cSumKey then
      scanBlocksFrom rest { blockInfo with sumKey := digitsToNumber tmpGroup } []
    else if v = cSumMd5 then
      scanBlocksFrom rest { blockInfo with sumMd5 := digitsToNumber tmpGroup } []
    else if v = cSizeData then
      { blockInfo with sizeData := digitsToNumber tmpGroup } :: scanBlocksFrom rest emptyBlock []
    else if v = cEnd then scanBlocksFrom rest blockInfo tmpGroup
    else scanBlocksFrom rest blockInfo (tmpGroup ++ [v])

/-- The descriptors of an index stream. -/
def scanBlocks (stream : List Nat) : List block := scanBlocksFrom stream emptyBlock []

/-- A fold over descriptors that stops as soon as the guard holds. -/
def foldStop {σ : Type} (stop : σ → Bool) (g : σ → block → σ) : List block → σ → σ
  | [], st => st
  | d :: ds, st => if stop st then st else foldStop stop g ds (g st d)

/-- The entries a list scan accepts: the descriptors of the stream whose stored key passes
the re-verification, each read back with `pullData`. -/
def verifiedEntries (f : File) (stream : List Nat) : List Item :=
  ((scanBlocks stream).filter (verifyBlock f)).map (pullItem f)

/-- The test all key-directed scans apply to a completed descriptor: the fingerprint of
`key`, then the exact compare with the stored key. -/
def keyMatches (f : File) (key : List Nat) (blk : block) : Prop :=
  blk.sizeKey = key.length ∧ blk.sumKey = sumBytes key ∧ blk.sumMd5 = sumBytes (md5 key) ∧
    pullKey f blk = key

instance (f : File) (key : List Nat) (blk : block) : Decidable (keyMatches f key blk) :=
  inferInstanceAs (Decidable (blk.sizeKey = key.length ∧ blk.sumKey = sumBytes key ∧
    blk.sumMd5 = sumBytes (md5 key) ∧ pullKey f blk = key))

/-- The payload interval of `a` ends before that of `b` starts, or the other way round. -/
def block.Disjoint (a b : block) : Prop :=
  a.start + a.sizeKey + a.sizeData ≤ b.start ∨ b.start + b.sizeKey + b.sizeData ≤ a.start

instance (a b : block) : Decidable (a.Disjoint b) :=
  inferInstanceAs (Decidable (a.start + a.sizeKey + a.sizeData ≤ b.start ∨
    b.start + b.sizeKey + b.sizeData ≤ a.start))

/-- The invariants of a bucket file whose live descriptors are `ds`: the index list read
through the header is the encoding of `ds`; every payload interval is non-empty, lies in
`[cFirstSize, indexStart)` and inside the file; the recorded sums are those of the stored
key; the payload intervals are pairwise disjoint. -/
structure BucketInv (f : File) (ds : List block) : Prop where
  index : (getListConfig f).2 = encodeBlocks ds
  inside : ∀ d ∈ ds, cFirstSize ≤ d.start ∧
    d.start + d.sizeKey + d.sizeData ≤ (getListConfig f).1
  stored : ∀ d ∈ ds, d.start + d.sizeKey + d.sizeData ≤ f.length
  nonempty : ∀ d ∈ ds, 0 < d.sizeKey + d.sizeData
  fingerprint : ∀ d ∈ ds, d.sumKey = sumBytes (pullKey f d) ∧
    d.sumMd5 = sumBytes (md5 (pullKey f d))
  disjoint : ds.Pairwise block.Disjoint

/-- What `getFindNextData` lets through: once the scan has begun (`begun`, or from the first
descriptor that matches `key`), the verified entries in stream order. -/
def findNextEntries (f : File) (key : List Nat) (begun : Bool) (blocks : List block) :
    List Item :=
  ((if begun then blocks
    else blocks.dropWhile (fun d => !decide (keyMatches f key d))).filter
      (verifyBlock f)).map (pullItem f)

/-- The reaction of `getFindNextData` to a completed descriptor. -/
def findNextStep (f : File) (key : List Nat) (onlyAfterKey : Bool)
    (st : Bool × Nat × List Item) (blk : block) : Bool × Nat × List Item :=
  if (st.1 || decide (keyMatches f key blk)) = true ∧ verifyBlock f blk = true then
    (true, (st.2.1 + 1) % 256,
      if onlyAfterKey = false ∨ st.2.1 > 0 then st.2.2 ++ [pullItem f blk] else st.2.2)
  else (st.1 || decide (keyMatches f key blk), st.2.1, st.2.2)

/-- The key bytes stored for a descriptor. -/
def storedKey (f : File) (d : block) : List Nat := readAt f d.start d.sizeKey

/-- The data bytes stored for a descriptor. -/
def storedData (f : File) (d : block) : List Nat := readAt f (d.start + d.sizeKey) d.sizeData

/-- The entry stored for a descriptor. -/
def storedItem (f : File) (d : block) : Item :=
  { Key := storedKey f d, Data := storedData f d }

/-- The reaction of `getNewListNotContainKey` to a completed descriptor: a descriptor of
`key` is dropped (and `blockInfo` kept), any other is written back. -/
def filterStep (f : File) (key : List Nat) (isReturnListInfo : Bool)
    (st : List Nat × List block) (blk : block) : (List Nat × List block) × block :=
  if keyMatches f key blk then (st, blk)
  else ((pushBlockToData st.1 blk, if isReturnListInfo then st.2 ++ [blk] else st.2),
    emptyBlock)

/-- The reaction of `getOneData` to a completed descriptor. -/
def getOneStep (f : File) (key : List Nat) (rs : List Nat × List Nat) (blk : block) :
    (List Nat × List Nat) × block :=
  if blk.sizeKey = key.length ∧ blk.sumKey = sumBytes key ∧
      blk.sumMd5 = sumBytes (md5 key) ∧ (pullData f blk).1 = key then (pullData f blk, blk)
  else (rs, emptyBlock)

/-- The reaction of `deleteToData` to a completed descriptor whose last byte has index
`st.1`. -/
def deleteToStep (f : File) (key : List Nat) (st : Nat × DeleteToScan) (blk : block) :
    (Nat × DeleteToScan) × block :=
  if keyMatches f key blk then
    ((st.1, { thisFoundIndex := st.2.blockControlIndexBefore + 1
              thisFoundFinishIndex := st.1 + 1
              lastFoundBlockInfo := blk
              blockControlIndexBefore := st.1 }), emptyBlock)
  else ((st.1, { st.2 with blockControlIndexBefore := st.1 }), emptyBlock)

/-- The scan of `deleteToData` over whole descriptors; `i` is the stream index of the first
byte of the head descriptor. -/
def deleteToFold (f : File) (key : List Nat) : List block → Nat → DeleteToScan → DeleteToScan
  | [], _, st => st
  | d :: ds, i, st =>
    deleteToFold f key ds (i + (pushBlockToData [] d).length)
      (deleteToStep f key (i + (pushBlockToData [] d).length - 1, st) d).1.2

/-- End of the payload interval of a descriptor. -/
def block.stop (d : block) : Nat := d.start + d.sizeKey + d.sizeData

/-- What `getListSpace` promises for a gap `g`, given the index offset and the live
descriptors: it is a non-empty interval of `[cFirstSize, startListPoint)`; an interior gap
meets no live payload, the tail gap ends at the index and lies behind every live payload. -/
def GapOk (startListPoint : Nat) (ds : List block) (g : block) : Prop :=
  cFirstSize ≤ g.start ∧ 0 < g.sizeData ∧ g.start + g.sizeData ≤ startListPoint ∧
    ((g.sumKey = 0 ∧ ∀ d ∈ ds, d.stop ≤ g.start ∨ g.start + g.sizeData ≤ d.start) ∨
      (g.sumKey = 1 ∧ g.start + g.sizeData = startListPoint ∧ ∀ d ∈ ds, d.stop ≤ g.start))

/-- The descriptors are laid out as the invariants demand below `startListPoint`. -/
def Layout (startListPoint : Nat) (ds : List block) : Prop :=
  (∀ d ∈ ds, cFirstSize ≤ d.start ∧ d.stop ≤ startListPoint ∧ 0 < d.sizeKey + d.sizeData) ∧
    ds.Pairwise block.Disjoint

/-- The writes of `Set(item)` stay below offset `2 ^ 63`, the largest `WriteAt` accepts: the
rewritten index starts at most `len(key) + len(data)` bytes behind the old index offset and
is at most one descriptor (105 bytes) and the closing `cEnd` longer than the old index. -/
def setFits (f : File) (item : Item) : Prop :=
  (getListConfig f).1 + item.Key.length + item.Data.length +
    ((getListConfig f).2.length + 106) ≤ 2 ^ 63

instance (f : File) (item : Item) : Decidable (setFits f item) :=
  inferInstanceAs (Decidable ((getListConfig f).1 + item.Key.length + item.Data.length +
    ((getListConfig f).2.length + 106) ≤ 2 ^ 63))

/-- The descriptor `Set(item)` appends to the index. -/
def setBlock (f : File) (item : Item) : block :=
  { start := (getPerfectSpace
      (getListSpace (getListConfig f).1
        (getNewListNotContainKey f (getListConfig f).2 item.Key true).2)
      (getListConfig f).1 (item.Key.length + item.Data.length)).2
    sizeKey := item.Key.length
    sumKey := sumBytes item.Key
    sumMd5 := sumBytes (md5 item.Key)
    sizeData := item.Data.length }

/-- Modelled from the spec: `(*Bucket).ListLockDelete`, which `lib_test.go` and
`example_test.go` call and `lib.go` does not contain. Section 4.6 of the spec: "under the
mutating prelude, take up to `limit` entries from the front of the index, write the
remaining index back, update the header, and return the taken entries to the caller. Later
entries remain in place." The entries are the descriptors of the index stream in stream
order, each read back with `pullData`; the remaining index is the encoding of the
descriptors not taken, written at the existing index offset. Returns the file and the
taken entries. -/
def listLockDeleteData (f : File) (startListPoint : Nat) (listBlockData : List Nat)
    (limit : Nat) : File × List Item :=
  (updateListBlock f startListPoint (encodeBlocks ((scanBlocks listBlockData).drop limit)),
    ((scanBlocks listBlockData).take limit).map (pullItem f))

/-- Modelled from the spec: the exported verb `ListLockDelete(limit)`, see
`listLockDeleteData`. -/
def Bucket.ListLockDelete (f : File) (limit : Nat) : File × Items :=
  listLockDeleteData f (getListConfig f).1 (getListConfig f).2 limit

/-- The index length the header holds, as `getListConfig` decodes it (`sizeList`). -/
def headerIndexLen (f : File) : Nat :=
  digitsToNumber (splitHeader (readAt f 0 cFirstSize) 0 [] []).2

/-- Every `Set` of the sequence, run in order from `f`, keeps its writes below offset
`2 ^ 63`. -/
def SetsFit : File → List Item → Prop
  | _, [] => True
  | f, item :: rest => setFits f item ∧ SetsFit (Bucket.Set f item) rest

/-- `SetsFit` is decidable. -/
def decSetsFit : (f : File) → (items : List Item) → Decidable (SetsFit f items)
  | _, [] => isTrue trivial
  | f, item :: rest =>
    match (inferInstance : Decidable (setFits f item)), decSetsFit (Bucket.Set f item) rest with
    | isTrue h1, isTrue h2 => isTrue ⟨h1, h2⟩
    | isFalse h1, _ => isFalse (fun h => h1 h.1)
    | _, isFalse h2 => isFalse (fun h => h2 h.2)

instance (f : File) (items : List Item) : Decidable (SetsFit f items) := decSetsFit f items

/-- The keys of the live descriptors: the key bytes `pullKey` reads for each descriptor of
the index stream, in stream order. -/
def liveKeys (f : File) : List (List Nat) :=
  (scanBlocks (getListConfig f).2).map (pullKey f)

/-- The keys across the live descriptors are pairwise distinct under byte equality. -/
def KeysUnique (f : File) : Prop := (liveKeys f).Nodup

instance (f : File) : Decidable (KeysUnique f) :=
  inferInstanceAs (Decidable (liveKeys f).Nodup)

/-- The descriptor the first loop of `setManyData` collects for the item at input
position `i`. -/
def manyConfig (i : Nat) (item : Item) : block :=
  { start := i, sizeKey := item.Key.length, sumKey := sumBytes item.Key,
    sumMd5 := sumBytes (md5 item.Key), sizeData := item.Data.length }

/-- The descriptors the first loop of `setManyData` collects for the items from input
position `i` on. -/
def manyConfigs : Nat → List Item → List block
  | _, [] => []
  | i, item :: rest => manyConfig i item :: manyConfigs (i + 1) rest

/-- The map key `addToMapSort` files a descriptor under. -/
def block.position (c : block) : String :=
  insertPosition c.sizeKey c.sumKey c.sumMd5 c.sizeData

/-- The map key `setManyData` looks an input item up with. -/
def Item.position (item : Item) : String :=
  insertPosition item.Key.length (sumBytes item.Key) (sumBytes (md5 item.Key))
    item.Data.length

/-- The planning steps of `setManyData` when every pending descriptor is placed, one
behind the other, from offset `base + used`. -/
def placeAll (listData : List Item) (base : Nat) :
    List block → Nat → SetManyPlan → SetManyPlan
  | [], _, plan => plan
  | c :: rest, used, plan =>
    placeAll listData base rest (used + (c.sizeKey + c.sizeData))
      { selected := mapSet plan.selected c.start true
        mapBlockInsert := addToMapSort plan.mapBlockInsert c (base + used)
        listWriteData := plan.listWriteData ++
          [{ start := base + used, key := (itemAt listData c.start).Key,
             data := (itemAt listData c.start).Data }]
        startListBlock := base
        totalLastSpaceUsed := used + (c.sizeKey + c.sizeData) }

/-- The descriptors of a sequential placement from offset `base + used`. -/
def placed (base : Nat) : List block → Nat → List block
  | [], _ => []
  | c :: rest, used =>
    { start := base + used, sizeKey := c.sizeKey, sumKey := c.sumKey, sumMd5 := c.sumMd5,
      sizeData := c.sizeData } :: placed base rest (used + (c.sizeKey + c.sizeData))

/-- The payload writes of a sequential placement from offset `base + used`. -/
def placedWrites (listData : List Item) (base : Nat) : List block → Nat → List writeDataTemp
  | [], _ => []
  | c :: rest, used =>
    { start := base + used, key := (itemAt listData c.start).Key,
      data := (itemAt listData c.start).Data } ::
      placedWrites listData base rest (used + (c.sizeKey + c.sizeData))

/-- Total payload size of a list of descriptors. -/
def totalSize (cs : List block) : Nat := (cs.map (fun c => c.sizeKey + c.sizeData)).sum

/-- The writes of `SetMany(listData)` stay below offset `2 ^ 63`: the payloads are placed
from `cFirstSize`, the index behind them holds at most 105 bytes per item and the closing
`cEnd`. -/
def setManyFits (listData : List Item) : Prop :=
  cFirstSize + (listData.map (fun it => it.Key.length + it.Data.length)).sum +
    (105 * listData.length + 1) ≤ 2 ^ 63

instance (listData : List Item) : Decidable (setManyFits listData) :=
  inferInstanceAs (Decidable (cFirstSize +
    (listData.map (fun it => it.Key.length + it.Data.length)).sum +
    (105 * listData.length + 1) ≤ 2 ^ 63))

/-- The descriptors of `setManyData` in planning order: by payload size, largest first,
input order among equals. This is the order of the program for at most twelve items (the
insertion sort of `sort.Slice`); for more items the program may place items of equal size
in another order. -/
def sortedConfigs (items : List Item) : List block :=
  (manyConfigs 0 items).insertionSort
    (fun a b => a.sizeKey + a.sizeData ≥ b.sizeKey + b.sizeData)

/-! ## The sequence of writes -/

/-- Which call site a `WriteAt` call comes from: the index write or the header write of
`updateListBlock`, or a payload write of `setOneData` / `setManyData`. -/
inductive WriteKind where
  | index
  | header
  | payload
deriving DecidableEq

/-- A `WriteAt` call: its call site, offset and bytes. -/
structure WriteCall where
  kind : WriteKind
  off : Nat
  bytes : List Nat
deriving DecidableEq

/-- The `WriteAt` calls of `updateListBlock`, in the order they are issued: the index list
with its closing `cEnd` at `start`, then the header at offset 0. -/
def updateListBlockWrites (start : Nat) (listBlockData : List Nat) : List WriteCall :=
  let firstBlockData := groupDigitsAppend [] start
  let firstBlockData := firstBlockData ++ [cEnd]
  let firstBlockData := groupDigitsAppend firstBlockData listBlockData.length
  let firstBlockData := firstBlockData ++ [cEnd]
  [{ kind := WriteKind.index, off := start, bytes := listBlockData ++ [cEnd] },
   { kind := WriteKind.header, off := 0, bytes := firstBlockData }]

/-- The `WriteAt` calls of `setOneData`, in the order they are issued (every call taken to
succeed): those of `updateListBlock`, then the payload. -/
def setOneDataWrites (f : File) (listBlockData key data : List Nat) (startListPoint : Nat) :
    List WriteCall :=
  let nl := getNewListNotContainKey f listBlockData key true
  let sizeKey := key.length
  let sizeData := data.length
  let blockSize := sizeKey + sizeData
  let sumKey := sumBytes key
  let sumMd5 := sumBytes (md5 key)
  let listSpace := getListSpace startListPoint nl.2
  let ps := getPerfectSpace listSpace startListPoint blockSize
  let infoData := pushBlockToData []
    { start := ps.2, sizeKey := sizeKey, sumKey := sumKey, sumMd5 := sumMd5,
      sizeData := sizeData }
  let listBlockDataWriter := nl.1 ++ infoData
  updateListBlockWrites ps.1 listBlockDataWriter ++
    [{ kind := WriteKind.payload, off := ps.2, bytes := key ++ data }]

/-- The `WriteAt` calls of `setManyData`, in the order they are issued (every call taken
to succeed): those of `updateListBlock`, then the payloads in planning order. -/
def setManyDataWrites (f : File) (listBlockData : List Nat) (listData : List Item)
    (startListPoint : Nat) : List WriteCall :=
  let nl := getNewListNotContainListKey f listBlockData listData true
  let col := setManyCollect listData 0 0 [] []
  let plan := setManyPlan f listBlockData listData startListPoint
  let listInfoData := setManyInfoData plan.mapBlockInsert col.2.2
  updateListBlockWrites (plan.startListBlock + plan.totalLastSpaceUsed)
      (nl.1 ++ listInfoData) ++
    plan.listWriteData.map
      (fun item => { kind := WriteKind.payload, off := item.start,
                     bytes := item.key ++ item.data })

/-- The file after a sequence of `WriteAt` calls. -/
def applyWrites (f : File) (ws : List WriteCall) : File :=
  ws.foldl (fun g w => writeAt g w.off w.bytes) f

/-- Every payload write comes before every write of `updateListBlock`: no index or header
write is followed by a payload write. -/
def PayloadsFirst (ws : List WriteCall) : Prop :=
  ws.Pairwise (fun (a b : WriteCall) => b.kind = WriteKind.payload → a.kind = WriteKind.payload)

instance (ws : List WriteCall) : Decidable (PayloadsFirst ws) :=
  inferInstanceAs (Decidable (ws.Pairwise
    (fun (a b : WriteCall) => b.kind = WriteKind.payload → a.kind = WriteKind.payload)))

/-- Every write of `updateListBlock` comes before every payload write: no payload write
is followed by an index or header write. -/
def IndexFirst (ws : List WriteCall) : Prop :=
  ws.Pairwise (fun (a b : WriteCall) => a.kind = WriteKind.payload → b.kind = WriteKind.payload)

instance (ws : List WriteCall) : Decidable (IndexFirst ws) :=
  inferInstanceAs (Decidable (ws.Pairwise
    (fun (a b : WriteCall) => a.kind = WriteKind.payload → b.kind = WriteKind.payload)))

/-- The plan `SetMany(listData)` arrives at before it writes. -/
def manyPlan (f : File) (listData : List Item) : SetManyPlan :=
  setManyPlan f (getListConfig f).2 listData (getListConfig f).1

/-- The descriptors `SetMany(listData)` writes to the index, in input order: one lookup in
`mapBlockInsert` per input item. -/
def manyDescriptors (f : File) (listData : List Item) : List block :=
  listData.map (fun it => mapGet emptyBlock (manyPlan f listData).mapBlockInsert it.position)

/-- What `mapBlockInsert` holds under the map key `k` after a sequential placement from
offset `base + used`: the descriptor placed last under `k`, or `cur` when there is none. -/
def lastPlaced (base : Nat) (k : String) : List block → Nat → block → block
  | [], _, cur => cur
  | c :: rest, used, cur =>
    lastPlaced base k rest (used + (c.sizeKey + c.sizeData))
      (if c.position = k then
        { start := base + used, sizeKey := c.sizeKey, sumKey := c.sumKey,
          sumMd5 := c.sumMd5, sizeData := c.sizeData }
       else cur)

/-- A slice length up to which `make([]byte, n)` is taken to succeed (2 GiB), far below
the length from which the Go runtime panics (`1 << 48` bytes on a 64-bit target). -/
def cAllocMax : Nat := 2 ^ 31

/-- The two buffers `pullData` makes for the descriptor can be allocated. -/
def block.AllocOk (d : block) : Prop := d.sizeKey ≤ cAllocMax ∧ d.sizeData ≤ cAllocMax

instance (d : block) : Decidable d.AllocOk :=
  inferInstanceAs (Decidable (d.sizeKey ≤ cAllocMax ∧ d.sizeData ≤ cAllocMax))

/-! ## Sample buckets -/

/-- The item `k1 -> v1`. -/
def itemK1 : Item := { Key := [107, 49], Data := [118, 49] }

/-- The item `k1 -> v2`. -/
def itemK1new : Item := { Key := [107, 49], Data := [118, 50] }

/-- A fresh file after `Set(k1 -> v1)`. -/
def fileK1 : File := Bucket.Set [] itemK1

/-- The live descriptors of `fileK1`. -/
def blocksK1 : List block :=
  [{ start := 128, sizeKey := 2, sumKey := 156, sumMd5 := 2431, sizeData := 2 }]

/-- The items `a -> 1`, `b -> 2`, `c -> 3`, `d -> 4`. -/
def itemsABCD : List Item :=
  [{ Key := [97], Data := [49] }, { Key := [98], Data := [50] },
   { Key := [99], Data := [51] }, { Key := [100], Data := [52] }]

/-- A fresh file after `Set(a -> 1)`, `Set(b -> 2)`, `Set(c -> 3)`, `Set(d -> 4)`. -/
def fileABCD : File :=
  itemsABCD.foldl Bucket.Set []

/-- The descriptor of `a` in `fileABCD`. -/
def blockA : block := { start := 128, sizeKey := 1, sumKey := 97, sumMd5 := 2104, sizeData := 1 }

/-- The descriptor of `b` in `fileABCD`. -/
def blockB : block := { start := 130, sizeKey := 1, sumKey := 98, sumMd5 := 2404, sizeData := 1 }

/-- The descriptor of `c` in `fileABCD`. -/
def blockC : block := { start := 132, sizeKey := 1, sumKey := 99, sumMd5 := 2017, sizeData := 1 }

/-- The descriptor of `d` in `fileABCD`. -/
def blockD : block := { start := 134, sizeKey := 1, sumKey := 100, sumMd5 := 1968, sizeData := 1 }

/-- Two items whose distinct keys `el` and `fk` have the same length, byte sum and digest
sum, with data of the same length. -/
def itemsCollide : List Item :=
  [{ Key := [101, 108], Data := [65] }, { Key := [102, 107], Data := [66] }]

/-- The queue of the example test: `job-1 -> A`, `job-2 -> B`, `job-3 -> C`. -/
def itemsJobs : List Item :=
  [{ Key := [106, 111, 98, 45, 49], Data := [65] },
   { Key := [106, 111, 98, 45, 50], Data := [66] },
   { Key := [106, 111, 98, 45, 51], Data := [67] }]

/-- A fresh file after `SetMany` of `k -> A` and `k -> BB`: two live descriptors store the
key `k`. -/
def fileTwice : File :=
  Bucket.SetMany [] [{ Key := [107], Data := [65] }, { Key := [107], Data := [66, 66] }]

/-- A fresh file after `Set` of the key `00 00` with data `07`. -/
def fileZeroKey : File := Bucket.Set [] { Key := [0, 0], Data := [7] }

/-- A fresh file after `SetMany` of `k -> A`, `k -> B`, `k -> C`. -/
def fileThrice : File :=
  Bucket.SetMany []
    [{ Key := [107], Data := [65] }, { Key := [107], Data := [66] },
     { Key := [107], Data := [67] }]

/-! # Theorems -/

set_option maxRecDepth 1000000

/-! ## Digit-group codec: facts -/

theorem uintSize_eq : uintSize = 2 ^ 64 := by decide

theorem decodeFrom_mod (digits : List Nat) : ∀ a b : Nat, a % uintSize = b % uintSize →
    (digits.foldl (fun n x => (n * 10 ^ (if x < 10 then 1 else if x < 100 then 2 else 3) + x)
      % uintSize) a) % uintSize = decodeFrom b digits % uintSize := by
  induction digits with
  | nil => intro a b h; simpa [decodeFrom] using h
  | cons x xs ih =>
    intro a b h
    simp only [List.foldl_cons, decodeFrom]
    apply ih
    rw [Nat.mod_mod]
    simp only [digitCount]
    rw [Nat.add_mod, Nat.mul_mod, h, ← Nat.mul_mod, ← Nat.add_mod]

theorem foldl_mod_lt (digits : List Nat) : ∀ a : Nat, a < uintSize →
    (digits.foldl (fun n x => (n * 10 ^ (if x < 10 then 1 else if x < 100 then 2 else 3) + x)
      % uintSize) a) < uintSize := by
  induction digits with
  | nil => intro a h; simpa using h
  | cons x xs ih =>
    intro a _
    simp only [List.foldl_cons]
    apply ih
    exact Nat.mod_lt _ (by decide)

theorem digitsToNumber_lt (digits : List Nat) : digitsToNumber digits < uintSize :=
  foldl_mod_lt digits 0 (by decide)

theorem digitsToNumber_eq_mod (digits : List Nat) :
    digitsToNumber digits = decodeFrom 0 digits % uintSize := by
  have h := decodeFrom_mod digits 0 0 rfl
  rw [Nat.mod_eq_of_lt (foldl_mod_lt digits 0 (by decide))] at h
  exact h

theorem digitsValue_cons (a d : Nat) (ds : List Nat) :
    digitsValue a (d :: ds) = digitsValue (a * 10 + d) ds := rfl

theorem decodeFrom_cons (a x : Nat) (xs : List Nat) :
    decodeFrom a (x :: xs) = decodeFrom (a * 10 ^ digitCount x + x) xs := rfl

theorem decodeFrom_packDigits (ds : List Nat) : ∀ a : Nat, (∀ d ∈ ds, d < 10) →
    decodeFrom a (packDigits ds) = digitsValue a ds := by
  induction ds using packDigits.induct with
  | case1 => intro a _; rfl
  | case2 d =>
    intro a h
    have hd : d < 10 := h d (by simp)
    simp [packDigits, decodeFrom, digitsValue, digitCount, hd]
  | case3 d1 ih =>
    intro a h
    have hd1 : d1 < 10 := h d1 (by simp)
    simp [packDigits, decodeFrom, digitsValue, digitCount, hd1]
  | case4 d d1 hd0 hle =>
    intro a h
    have hd : d < 10 := h d (by simp)
    have hd1 : d1 < 10 := h d1 (by simp)
    have h1 : ¬ d * 10 + d1 < 10 := by omega
    have h2 : d * 10 + d1 < 100 := by omega
    simp only [packDigits, if_neg hd0, if_pos hle, decodeFrom, digitsValue, List.foldl_cons,
      List.foldl_nil, digitCount, if_neg h1, if_pos h2]
    ring
  | case5 d d1 hd0 hle ih =>
    intro a h
    have hd : d < 10 := h d (by simp)
    have hd1 : d1 < 10 := h d1 (by simp)
    simp only [cMaxDigitGroup] at hle
    omega
  | case6 d1 d2 rest ih =>
    intro a h
    rw [packDigits, if_pos rfl, decodeFrom_cons, digitsValue_cons]
    rw [ih _ (fun d hd => h d (List.mem_cons_of_mem _ hd))]
    simp [digitCount]
  | case7 d d1 d2 rest hd0 hle ih =>
    intro a h
    have hd : d < 10 := h d (by simp)
    have hd1 : d1 < 10 := h d1 (by simp)
    have hd2 : d2 < 10 := h d2 (by simp)
    have h1 : ¬ d * 100 + d1 * 10 + d2 < 10 := by omega
    have h2 : ¬ d * 100 + d1 * 10 + d2 < 100 := by omega
    rw [packDigits, if_neg hd0, if_pos hle, decodeFrom_cons]
    rw [ih _ (fun x hx => h x (by simp [hx]))]
    simp only [digitCount, if_neg h1, if_neg h2, digitsValue, List.foldl_cons]
    congr 1
    ring
  | case8 d d1 d2 rest hd0 hnle hle ih =>
    intro a h
    have hd : d < 10 := h d (by simp)
    have hd1 : d1 < 10 := h d1 (by simp)
    have h1 : ¬ d * 10 + d1 < 10 := by omega
    have h2 : d * 10 + d1 < 100 := by omega
    rw [packDigits, if_neg hd0, if_neg hnle, if_pos hle, decodeFrom_cons]
    rw [ih _ (fun x hx => h x (by simp [hx]))]
    simp only [digitCount, if_neg h1, if_pos h2, digitsValue, List.foldl_cons]
    congr 1
    ring
  | case9 d d1 d2 rest hd0 hnle hnle2 ih =>
    intro a h
    have hd : d < 10 := h d (by simp)
    have hd1 : d1 < 10 := h d1 (by simp)
    simp only [cMaxDigitGroup] at hnle2
    omega

theorem packDigits_le (ds : List Nat) : (∀ d ∈ ds, d < 10) →
    ∀ b ∈ packDigits ds, b ≤ cMaxDigitGroup := by
  induction ds using packDigits.induct with
  | case1 => intro _ b hb; simp [packDigits] at hb
  | case2 d =>
    intro h b hb
    have hd : d < 10 := h d (by simp)
    simp only [packDigits, List.mem_singleton] at hb
    simp only [cMaxDigitGroup]; omega
  | case3 d1 ih =>
    intro h b hb
    have hd1 : d1 < 10 := h d1 (by simp)
    simp only [packDigits, if_pos, List.mem_cons, List.mem_singleton, List.not_mem_nil,
      or_false] at hb
    simp only [cMaxDigitGroup]; omega
  | case4 d d1 hd0 hle =>
    intro h b hb
    simp only [packDigits, if_neg hd0, if_pos hle, List.mem_singleton] at hb
    rw [hb]; exact hle
  | case5 d d1 hd0 hle ih =>
    intro h b hb
    have hd : d < 10 := h d (by simp)
    have hd1 : d1 < 10 := h d1 (by simp)
    simp only [cMaxDigitGroup] at hle
    omega
  | case6 d1 d2 rest ih =>
    intro h b hb
    rw [packDigits, if_pos rfl, List.mem_cons] at hb
    rcases hb with hb | hb
    · simp [hb, cMaxDigitGroup]
    · exact ih (fun d hd => h d (List.mem_cons_of_mem _ hd)) b hb
  | case7 d d1 d2 rest hd0 hle ih =>
    intro h b hb
    rw [packDigits, if_neg hd0, if_pos hle, List.mem_cons] at hb
    rcases hb with hb | hb
    · rw [hb]; exact hle
    · exact ih (fun x hx => h x (by simp [hx])) b hb
  | case8 d d1 d2 rest hd0 hnle hle ih =>
    intro h b hb
    rw [packDigits, if_neg hd0, if_neg hnle, if_pos hle, List.mem_cons] at hb
    rcases hb with hb | hb
    · rw [hb]; exact hle
    · exact ih (fun x hx => h x (by simp [hx])) b hb
  | case9 d d1 d2 rest hd0 hnle hnle2 ih =>
    intro h b hb
    have hd : d < 10 := h d (by simp)
    have hd1 : d1 < 10 := h d1 (by simp)
    simp only [cMaxDigitGroup] at hnle2
    omega

theorem packDigits_length_le (ds : List Nat) : (packDigits ds).length ≤ ds.length := by
  induction ds using packDigits.induct with
  | case1 => simp [packDigits]
  | case2 d => simp [packDigits]
  | case3 d1 ih => simp [packDigits]
  | case4 d d1 hd0 hle => simp [packDigits, hd0, hle]
  | case5 d d1 hd0 hle ih => simp [packDigits, hd0, hle]
  | case6 d1 d2 rest ih =>
    rw [packDigits, if_pos rfl]
    simp only [List.length_cons] at ih ⊢
    omega
  | case7 d d1 d2 rest hd0 hle ih =>
    rw [packDigits, if_neg hd0, if_pos hle]
    simp only [List.length_cons] at ih ⊢
    omega
  | case8 d d1 d2 rest hd0 hnle hle ih =>
    rw [packDigits, if_neg hd0, if_neg hnle, if_pos hle]
    simp only [List.length_cons] at ih ⊢
    omega
  | case9 d d1 d2 rest hd0 hnle hnle2 ih =>
    rw [packDigits, if_neg hd0, if_neg hnle, if_neg hnle2]
    simp only [List.length_cons] at ih ⊢
    omega

theorem packDigits_ne_nil (ds : List Nat) (h : ds ≠ []) : packDigits ds ≠ [] := by
  match ds, h with
  | [d], _ => simp [packDigits]
  | [d, d1], _ =>
    simp only [packDigits]
    split_ifs <;> simp
  | d :: d1 :: d2 :: rest, _ =>
    rw [packDigits]
    split_ifs <;> simp

theorem splitDigits_lt (fuel : Nat) : ∀ n : Nat, ∀ d ∈ splitDigits fuel n, d < 10 := by
  induction fuel with
  | zero => intro n d hd; simp [splitDigits] at hd
  | succ k ih =>
    intro n d hd
    simp only [splitDigits] at hd
    split_ifs at hd with h0
    · simp at hd
    · rcases List.mem_cons.1 hd with h | h
      · rw [h]; exact Nat.mod_lt _ (by decide)
      · exact ih _ d h

theorem splitDigits_length_le (fuel : Nat) : ∀ n : Nat, (splitDigits fuel n).length ≤ fuel := by
  induction fuel with
  | zero => intro n; simp [splitDigits]
  | succ k ih =>
    intro n
    simp only [splitDigits]
    split_ifs
    · simp
    · simp only [List.length_cons]
      have := ih (n / 10)
      omega

theorem splitDigits_value (fuel : Nat) : ∀ n : Nat, n < 10 ^ fuel →
    digitsValue 0 (splitDigits fuel n).reverse = n := by
  induction fuel with
  | zero =>
    intro n hn
    simp only [pow_zero, Nat.lt_one_iff] at hn
    simp [splitDigits, digitsValue, hn]
  | succ k ih =>
    intro n hn
    simp only [splitDigits]
    split_ifs with h0
    · simp [digitsValue, h0]
    · have hk : n / 10 < 10 ^ k := by
        rw [Nat.div_lt_iff_lt_mul (by decide)]
        rw [pow_succ] at hn
        exact hn
      have hrec := ih (n / 10) hk
      simp only [digitsValue, List.reverse_cons, List.foldl_append, List.foldl_cons,
        List.foldl_nil] at hrec ⊢
      rw [hrec]
      omega

theorem groupDigits_le (n : Nat) : ∀ b ∈ groupDigits n, b ≤ cMaxDigitGroup := by
  intro b hb
  unfold groupDigits at hb
  split_ifs at hb with h0
  · simp only [List.mem_singleton] at hb
    simp [hb, cMaxDigitGroup]
  · refine packDigits_le _ ?_ b hb
    intro d hd
    exact splitDigits_lt 20 n d (List.mem_reverse.1 hd)

theorem groupDigits_length_le (n : Nat) : (groupDigits n).length ≤ 20 := by
  unfold groupDigits
  split_ifs
  · simp
  · refine le_trans (packDigits_length_le _) ?_
    rw [List.length_reverse]
    exact splitDigits_length_le 20 n

theorem groupDigits_ne_nil (n : Nat) : groupDigits n ≠ [] := by
  unfold groupDigits
  split_ifs with h0
  · simp
  · apply packDigits_ne_nil
    simp only [ne_eq, List.reverse_eq_nil_iff]
    simp [splitDigits, h0]

theorem digitsToNumber_groupDigits (n : Nat) (hn : n < uintSize) :
    digitsToNumber (groupDigits n) = n := by
  rw [digitsToNumber_eq_mod]
  unfold groupDigits
  split_ifs with h0
  · simp [decodeFrom, digitCount, h0]
  · rw [decodeFrom_packDigits _ 0 (fun d hd => splitDigits_lt 20 n d (List.mem_reverse.1 hd))]
    rw [splitDigits_value 20 n (lt_trans hn (by decide))]
    exact Nat.mod_eq_of_lt hn

theorem groupDigits_lt_cStart (n : Nat) : ∀ b ∈ groupDigits n, b < cStart := by
  intro b hb
  have := groupDigits_le n b hb
  simp only [cMaxDigitGroup] at this
  simp only [cStart]
  omega

/-! ## The backing file: facts -/

theorem readAt_length (f : File) (off n : Nat) : (readAt f off n).length = n := by
  simp [readAt]

theorem readAt_getD (f : File) (off n i : Nat) (hi : i < n) :
    (readAt f off n).getD i 0 = f.getD (off + i) 0 := by
  simp [readAt, List.getD_eq_getElem?_getD, List.getElem?_map, List.getElem?_range hi]

theorem readAt_congr (f g : File) (off n : Nat)
    (h : ∀ i, i < n → f.getD (off + i) 0 = g.getD (off + i) 0) :
    readAt f off n = readAt g off n := by
  unfold readAt
  apply List.map_congr_left
  intro i hi
  exact h i (List.mem_range.1 hi)

theorem getD_writeAt (f : File) (off : Nat) (data : List Nat) (i : Nat) :
    (writeAt f off data).getD i 0 =
      if off ≤ i ∧ i < off + data.length then data.getD (i - off) 0 else f.getD i 0 := by
  unfold writeAt
  by_cases hd : data = []
  · subst hd
    simp only [if_true, List.length_nil, Nat.add_zero]
    rw [if_neg (by omega)]
  · rw [if_neg hd]
    simp only [List.getD_eq_getElem?_getD]
    by_cases h1 : i < off
    · rw [if_neg (by omega)]
      by_cases h2 : i < f.length
      · rw [List.append_assoc, List.append_assoc, List.getElem?_append_left
          (by simp only [List.length_take]; omega)]
        rw [List.getElem?_take_of_lt h1]
      · rw [List.append_assoc, List.append_assoc, List.getElem?_append_right
          (by simp only [List.length_take]; omega)]
        rw [List.getElem?_append_left (by simp only [List.length_take, List.length_replicate]; omega)]
        rw [List.getElem?_replicate, if_pos (by simp only [List.length_take]; omega)]
        rw [List.getElem?_eq_none (by omega)]
        rfl
    · have hlen : (List.take off f ++ List.replicate (off - f.length) 0).length = off := by
        simp only [List.length_append, List.length_take, List.length_replicate]; omega
      by_cases h3 : i < off + data.length
      · rw [if_pos ⟨by omega, h3⟩]
        rw [List.getElem?_append_left (by simp only [List.length_append, hlen]; omega)]
        rw [List.getElem?_append_right (by rw [hlen]; omega), hlen]
      · rw [if_neg (by omega)]
        rw [List.getElem?_append_right (by simp only [List.length_append, hlen]; omega)]
        simp only [List.length_append, hlen, List.getElem?_drop]
        congr 2
        omega

theorem length_writeAt (f : File) (off : Nat) (data : List Nat) (hd : data ≠ []) :
    (writeAt f off data).length = max f.length (off + data.length) := by
  unfold writeAt
  rw [if_neg hd]
  simp only [List.length_append, List.length_take, List.length_replicate, List.length_drop]
  omega

theorem length_writeAt_ge (f : File) (off : Nat) (data : List Nat) :
    f.length ≤ (writeAt f off data).length := by
  by_cases hd : data = []
  · simp [writeAt, hd]
  · rw [length_writeAt f off data hd]; exact le_max_left _ _

theorem readAt_eq_of_getD (f : File) (off : Nat) (data : List Nat)
    (h : ∀ i, i < data.length → f.getD (off + i) 0 = data.getD i 0) :
    readAt f off data.length = data := by
  apply List.ext_getElem
  · exact readAt_length _ _ _
  · intro i h1 h2
    have e1 := readAt_getD f off data.length i h2
    rw [h i h2] at e1
    rw [List.getD_eq_getElem _ _ h1, List.getD_eq_getElem _ _ h2] at e1
    exact e1

theorem readAt_writeAt_same (f : File) (off : Nat) (data : List Nat) :
    readAt (writeAt f off data) off data.length = data := by
  apply readAt_eq_of_getD
  intro i hi
  rw [getD_writeAt, if_pos ⟨by omega, by omega⟩]
  congr 1
  omega

/-- A read of a region that a write does not touch sees the bytes as before. -/
theorem readAt_writeAt_disjoint (f : File) (off : Nat) (data : List Nat) (r n : Nat)
    (h : r + n ≤ off ∨ off + data.length ≤ r) :
    readAt (writeAt f off data) r n = readAt f r n := by
  apply readAt_congr
  intro i hi
  rw [getD_writeAt, if_neg (by omega)]

theorem readAt_append (f : File) (off n m : Nat) :
    readAt f off (n + m) = readAt f off n ++ readAt f (off + n) m := by
  apply List.ext_getElem
  · simp [readAt_length]
  · intro i h1 h2
    rw [readAt_length] at h1
    have e1 := readAt_getD f off (n + m) i h1
    rw [List.getD_eq_getElem _ _ (by rw [readAt_length]; exact h1)] at e1
    rw [e1]
    by_cases hin : i < n
    · rw [List.getElem_append_left (by rw [readAt_length]; exact hin)]
      have e2 := readAt_getD f off n i hin
      rw [List.getD_eq_getElem _ _ (by rw [readAt_length]; exact hin)] at e2
      exact e2.symm
    · rw [List.getElem_append_right (by rw [readAt_length]; omega)]
      have e2 := readAt_getD f (off + n) m (i - n) (by omega)
      rw [List.getD_eq_getElem _ _ (by rw [readAt_length]; omega)] at e2
      simp only [readAt_length]
      rw [e2]
      congr 1
      omega

/-! ## Header and index list: facts -/

/-- The header bytes `updateListBlock` writes at offset 0. -/
theorem headerBytes_length_le (start len : Nat) :
    (groupDigits start ++ [cEnd] ++ groupDigits len ++ [cEnd]).length ≤ 42 := by
  have h1 := groupDigits_length_le start
  have h2 := groupDigits_length_le len
  simp only [List.length_append, List.length_singleton]
  omega

theorem updateListBlock_eq (f : File) (start : Nat) (listBlockData : List Nat) :
    updateListBlock f start listBlockData =
      writeAt (writeAt f start (listBlockData ++ [cEnd])) 0
        (groupDigits start ++ [cEnd] ++ groupDigits listBlockData.length ++ [cEnd]) := by
  simp [updateListBlock, groupDigitsAppend]

theorem splitHeader_cons (v : Nat) (rest : List Nat) (pos : Nat) (s z : List Nat) :
    splitHeader (v :: rest) pos s z =
      if v = cEnd then splitHeader rest ((pos + 1) % 256) s z
      else if pos = 0 then splitHeader rest pos (s ++ [v]) z
      else if pos = 1 then splitHeader rest pos s (z ++ [v])
      else (s, z) := by
  rw [splitHeader]

theorem not_mem_take_indexOf (a : Nat) (l : List Nat) : a ∉ l.take (l.indexOf a) := by
  induction l with
  | nil => simp
  | cons x xs ih =>
    by_cases hx : x = a
    · subst hx; simp
    · rw [List.indexOf_cons_ne _ hx]
      simp only [List.take_succ_cons, List.mem_cons, not_or]
      exact ⟨fun h => hx h.symm, ih⟩

theorem splitHeader_done (rest : List Nat) : ∀ (pos : Nat) (s z : List Nat),
    2 ≤ pos → pos + rest.length < 256 → splitHeader rest pos s z = (s, z) := by
  induction rest with
  | nil => intro pos s z _ _; rfl
  | cons v vs ih =>
    intro pos s z h2 hlen
    simp only [List.length_cons] at hlen
    rw [splitHeader_cons]
    split_ifs with h
    · rw [Nat.mod_eq_of_lt (by omega)]
      exact ih _ _ _ (by omega) (by omega)
    · omega
    · omega
    · rfl

theorem splitHeader_size (b : List Nat) (hb : ∀ x ∈ b, x ≠ cEnd) :
    ∀ (s z rest : List Nat), rest.length < 200 →
      splitHeader (b ++ cEnd :: rest) 1 s z = (s, z ++ b) := by
  induction b with
  | nil =>
    intro s z rest hr
    rw [List.nil_append, splitHeader_cons, if_pos rfl, List.append_nil]
    exact splitHeader_done rest _ s z (by decide) (by simp; omega)
  | cons x xs ih =>
    intro s z rest hr
    have hx : x ≠ cEnd := hb x (by simp)
    rw [List.cons_append, splitHeader_cons, if_neg hx, if_neg (by decide), if_pos rfl]
    rw [ih (fun y hy => hb y (List.mem_cons_of_mem _ hy)) s (z ++ [x]) rest hr]
    simp

theorem splitHeader_start (a b : List Nat) (ha : ∀ x ∈ a, x ≠ cEnd) (hb : ∀ x ∈ b, x ≠ cEnd) :
    ∀ (s rest : List Nat), rest.length < 200 →
      splitHeader (a ++ cEnd :: (b ++ cEnd :: rest)) 0 s [] = (s ++ a, b) := by
  induction a with
  | nil =>
    intro s rest hr
    rw [List.nil_append, splitHeader_cons, if_pos rfl, List.append_nil]
    have := splitHeader_size b hb s [] rest hr
    simpa using this
  | cons x xs ih =>
    intro s rest hr
    have hx : x ≠ cEnd := ha x (by simp)
    rw [List.cons_append, splitHeader_cons, if_neg hx, if_pos rfl]
    rw [ih (fun y hy => ha y (List.mem_cons_of_mem _ hy)) (s ++ [x]) rest hr]
    simp

theorem groupDigits_ne_cEnd (n : Nat) : ∀ x ∈ groupDigits n, x ≠ cEnd := by
  intro x hx
  have := groupDigits_le n x hx
  simp only [cMaxDigitGroup] at this
  simp only [cEnd]
  omega

/-- What `getListConfig` reads depends on the header bytes and on the index bytes only. -/
theorem getListConfig_of_reads (g : File) (start : Nat) (listBlockData tail : List Nat)
    (hstart : cFirstSize ≤ start) (hlt : start < uintSize)
    (hlen : listBlockData.length < uintSize)
    (hend : cEnd ∉ listBlockData)
    (htail : tail.length < 200)
    (hhdr : readAt g 0 cFirstSize =
      groupDigits start ++ cEnd :: (groupDigits listBlockData.length ++ cEnd :: tail))
    (hidx : readAt g start listBlockData.length = listBlockData) :
    getListConfig g = (start, listBlockData) := by
  unfold getListConfig
  simp only [hhdr]
  rw [splitHeader_start _ _ (groupDigits_ne_cEnd _) (groupDigits_ne_cEnd _) [] tail htail]
  simp only [List.nil_append]
  rw [digitsToNumber_groupDigits start hlt, if_neg (by omega)]
  rw [digitsToNumber_groupDigits _ hlen, hidx]
  rw [List.indexOf_eq_length.2 hend, List.take_length]

theorem getListConfig_updateListBlock (f : File) (start : Nat) (listBlockData : List Nat)
    (hstart : cFirstSize ≤ start) (hlt : start < uintSize)
    (hlen : listBlockData.length < uintSize) (hend : cEnd ∉ listBlockData) :
    getListConfig (updateListBlock f start listBlockData) = (start, listBlockData) := by
  have h42 := headerBytes_length_le start listBlockData.length
  set hdr := groupDigits start ++ [cEnd] ++ groupDigits listBlockData.length ++ [cEnd] with hhdr
  have hsplit : cFirstSize = hdr.length + (cFirstSize - hdr.length) := by
    simp only [cFirstSize]; omega
  apply getListConfig_of_reads _ start listBlockData
    (readAt (updateListBlock f start listBlockData) hdr.length (cFirstSize - hdr.length))
    hstart hlt hlen hend
  · rw [readAt_length]; simp only [cFirstSize]; omega
  · have key := readAt_append (updateListBlock f start listBlockData) 0 hdr.length
      (cFirstSize - hdr.length)
    rw [← hsplit, Nat.zero_add] at key
    rw [key]
    have e1 : readAt (updateListBlock f start listBlockData) 0 hdr.length = hdr := by
      rw [updateListBlock_eq, ← hhdr, readAt_writeAt_same]
    rw [e1, hhdr]
    simp only [List.append_assoc, List.singleton_append, List.cons_append, List.nil_append]
  · rw [updateListBlock_eq, ← hhdr]
    rw [readAt_writeAt_disjoint _ _ _ _ _ (Or.inr (by simp only [cFirstSize] at hstart; omega))]
    apply readAt_eq_of_getD
    intro i hi
    rw [getD_writeAt, if_pos ⟨by omega, by simp only [List.length_append, List.length_singleton]; omega⟩]
    rw [List.getD_append _ _ _ _ (by omega)]
    congr 1
    omega

/-- Function `updateListBlock` leaves the data region below the new index offset as it was. -/
theorem readAt_updateListBlock (f : File) (start : Nat) (listBlockData : List Nat)
    (r n : Nat) (hr : cFirstSize ≤ r) (hrn : r + n ≤ start) :
    readAt (updateListBlock f start listBlockData) r n = readAt f r n := by
  have h42 := headerBytes_length_le start listBlockData.length
  rw [updateListBlock_eq]
  rw [readAt_writeAt_disjoint _ _ _ _ _
    (Or.inr (by simp only [cFirstSize] at hr; omega))]
  rw [readAt_writeAt_disjoint _ _ _ _ _ (Or.inl hrn)]

theorem length_updateListBlock (f : File) (start : Nat) (listBlockData : List Nat) :
    max f.length (start + listBlockData.length + 1) ≤
      (updateListBlock f start listBlockData).length := by
  rw [updateListBlock_eq]
  refine le_trans ?_ (length_writeAt_ge _ _ _)
  rw [length_writeAt _ _ _ (by simp)]
  simp only [List.length_append, List.length_singleton]
  omega

/-- A write into the data region below the index offset does not change what
`getListConfig` reads. -/
theorem getListConfig_writeAt (f : File) (off : Nat) (data : List Nat)
    (hoff : cFirstSize ≤ off) (hend : off + data.length ≤ (getListConfig f).1) :
    getListConfig (writeAt f off data) = getListConfig f := by
  unfold getListConfig at hend ⊢
  rw [readAt_writeAt_disjoint _ _ _ _ _ (Or.inl (by omega))]
  simp only at hend ⊢
  split_ifs with h
  · rfl
  · rw [if_neg h] at hend
    simp only at hend
    rw [readAt_writeAt_disjoint _ _ _ _ _ (Or.inr hend)]

theorem getListConfig_fst_ge (f : File) : cFirstSize ≤ (getListConfig f).1 := by
  unfold getListConfig
  simp only
  split_ifs with h
  · exact le_refl _
  · simpa using h

theorem getListConfig_fst_lt (f : File) : (getListConfig f).1 < uintSize := by
  unfold getListConfig
  simp only
  split_ifs with h
  · decide
  · exact digitsToNumber_lt _

theorem getListConfig_snd_length (f : File) : (getListConfig f).2.length < uintSize := by
  unfold getListConfig
  simp only
  split_ifs with h
  · decide
  · simp only [List.length_take, readAt_length]
    exact lt_of_le_of_lt (min_le_right _ _) (digitsToNumber_lt _)

theorem getListConfig_snd_noEnd (f : File) : cEnd ∉ (getListConfig f).2 := by
  unfold getListConfig
  simp only
  split_ifs with h
  · simp
  · exact not_mem_take_indexOf _ _

/-! ## The scanner: facts -/

theorem pushBlockToData_eq (buf : List Nat) (d : block) :
    pushBlockToData buf d = buf ++ (groupDigits d.start ++ cStart :: (groupDigits d.sizeKey ++
      cSizeKey :: (groupDigits d.sumKey ++ cSumKey :: (groupDigits d.sumMd5 ++
      cSumMd5 :: (groupDigits d.sizeData ++ [cSizeData]))))) := by
  simp [pushBlockToData, groupDigitsAppend]

theorem pushBlockToData_append (buf : List Nat) (d : block) :
    pushBlockToData buf d = buf ++ pushBlockToData [] d := by
  rw [pushBlockToData_eq buf, pushBlockToData_eq []]
  simp

theorem scanLoop_nil {σ : Type} (stop : σ → Bool) (tick : σ → σ)
    (onBlock : σ → block → σ × block) (b : block) (t : List Nat) (st : σ) :
    scanLoop stop tick onBlock [] b t st = st := by
  rw [scanLoop]

theorem scanLoop_cons {σ : Type} (stop : σ → Bool) (tick : σ → σ)
    (onBlock : σ → block → σ × block) (v : Nat) (rest : List Nat) (b : block) (t : List Nat)
    (st : σ) :
    scanLoop stop tick onBlock (v :: rest) b t st =
      if stop st then st
      else if v = cStart then
        scanLoop stop tick onBlock rest { b with start := digitsToNumber t } [] (tick st)
      else if v = cSizeKey then
        scanLoop stop tick onBlock rest { b with sizeKey := digitsToNumber t } [] (tick st)
      else if v = cSumKey then
        scanLoop stop tick onBlock rest { b with sumKey := digitsToNumber t } [] (tick st)
      else if v = cSumMd5 then
        scanLoop stop tick onBlock rest { b with sumMd5 := digitsToNumber t } [] (tick st)
      else if v = cSizeData then
        scanLoop stop tick onBlock rest
          (onBlock st { b with sizeData := digitsToNumber t }).2 []
          (tick (onBlock st { b with sizeData := digitsToNumber t }).1)
      else if v = cEnd then scanLoop stop tick onBlock rest b t (tick st)
      else scanLoop stop tick onBlock rest b (t ++ [v]) (tick st) := by
  rw [scanLoop]

/-- Digit bytes are gathered in `tmpGroup`. -/
theorem scanLoop_digits {σ : Type} (stop : σ → Bool) (tick : σ → σ)
    (onBlock : σ → block → σ × block) (hs : ∀ s, stop (tick s) = stop s)
    (ds : List Nat) (hds : ∀ x ∈ ds, x < cStart) :
    ∀ (rest : List Nat) (b : block) (t : List Nat) (st : σ), stop st = false →
      scanLoop stop tick onBlock (ds ++ rest) b t st =
        scanLoop stop tick onBlock rest b (t ++ ds) (tick^[ds.length] st) := by
  induction ds with
  | nil => intro rest b t st _; simp
  | cons x xs ih =>
    intro rest b t st hst
    have hx : x < cStart := hds x (by simp)
    simp only [cStart] at hx
    rw [List.cons_append, scanLoop_cons, hst]
    rw [if_neg (by simp), if_neg (by simp only [cStart]; omega),
      if_neg (by simp only [cSizeKey]; omega), if_neg (by simp only [cSumKey]; omega),
      if_neg (by simp only [cSumMd5]; omega), if_neg (by simp only [cSizeData]; omega),
      if_neg (by simp only [cEnd]; omega)]
    rw [ih (fun y hy => hds y (List.mem_cons_of_mem _ hy)) rest b (t ++ [x]) (tick st)
      (by rw [hs]; exact hst)]
    simp [Function.iterate_succ_apply]

theorem stop_iterate {σ : Type} (stop : σ → Bool) (tick : σ → σ)
    (hs : ∀ s, stop (tick s) = stop s) (n : Nat) (st : σ) :
    stop (tick^[n] st) = stop st := by
  induction n generalizing st with
  | zero => rfl
  | succ k ih => rw [Function.iterate_succ_apply, ih, hs]

/-- Length of the encoding of a descriptor. -/
theorem pushBlockToData_length (d : block) :
    (pushBlockToData [] d).length =
      (groupDigits d.start).length + (groupDigits d.sizeKey).length +
      (groupDigits d.sumKey).length + (groupDigits d.sumMd5).length +
      (groupDigits d.sizeData).length + 5 := by
  rw [pushBlockToData_eq]
  simp only [List.nil_append, List.length_append, List.length_cons, List.length_nil]
  omega

/-- Scanning the encoding of one descriptor: the descriptor is handed to `onBlock` in the
state reached after all but its last byte. -/
theorem scanLoop_block {σ : Type} (stop : σ → Bool) (tick : σ → σ)
    (onBlock : σ → block → σ × block) (hs : ∀ s, stop (tick s) = stop s)
    (d : block) (hd : d.Fits) (rest : List Nat) (b : block) (st : σ) (hst : stop st = false) :
    scanLoop stop tick onBlock (pushBlockToData [] d ++ rest) b [] st =
      scanLoop stop tick onBlock rest
        (onBlock (tick^[(pushBlockToData [] d).length - 1] st) d).2 []
        (tick (onBlock (tick^[(pushBlockToData [] d).length - 1] st) d).1) := by
  obtain ⟨h1, h2, h3, h4, h5⟩ := hd
  have hst' : ∀ n, stop (tick^[n] st) = false := fun n => by
    rw [stop_iterate stop tick hs]; exact hst
  rw [pushBlockToData_length, pushBlockToData_eq]
  simp only [List.nil_append, List.append_assoc, List.cons_append, List.singleton_append]
  rw [scanLoop_digits stop tick onBlock hs _ (groupDigits_lt_cStart _) _ _ _ _ hst]
  rw [scanLoop_cons, hst' _, if_neg (by simp), if_pos rfl]
  rw [← Function.iterate_succ_apply' tick]
  rw [scanLoop_digits stop tick onBlock hs _ (groupDigits_lt_cStart _) _ _ _ _ (hst' _)]
  rw [scanLoop_cons, stop_iterate stop tick hs, hst' _, if_neg (by simp),
    if_neg (by decide), if_pos rfl]
  rw [← Function.iterate_succ_apply' tick, ← Function.iterate_add_apply]
  rw [scanLoop_digits stop tick onBlock hs _ (groupDigits_lt_cStart _) _ _ _ _ (hst' _)]
  rw [scanLoop_cons, stop_iterate stop tick hs, hst' _, if_neg (by simp),
    if_neg (by decide), if_neg (by decide), if_pos rfl]
  rw [← Function.iterate_succ_apply' tick, ← Function.iterate_add_apply]
  rw [scanLoop_digits stop tick onBlock hs _ (groupDigits_lt_cStart _) _ _ _ _ (hst' _)]
  rw [scanLoop_cons, stop_iterate stop tick hs, hst' _, if_neg (by simp),
    if_neg (by decide), if_neg (by decide), if_neg (by decide), if_pos rfl]
  rw [← Function.iterate_succ_apply' tick, ← Function.iterate_add_apply]
  rw [scanLoop_digits stop tick onBlock hs _ (groupDigits_lt_cStart _) _ _ _ _ (hst' _)]
  rw [scanLoop_cons, stop_iterate stop tick hs, hst' _, if_neg (by simp),
    if_neg (by decide), if_neg (by decide), if_neg (by decide), if_neg (by decide), if_pos rfl]
  rw [← Function.iterate_add_apply]
  simp only [List.nil_append, digitsToNumber_groupDigits _ h1, digitsToNumber_groupDigits _ h2,
    digitsToNumber_groupDigits _ h3, digitsToNumber_groupDigits _ h4,
    digitsToNumber_groupDigits _ h5]
  have e : (groupDigits d.sizeData).length + ((groupDigits d.sumMd5).length + 1 +
      ((groupDigits d.sumKey).length + 1 + ((groupDigits d.sizeKey).length + 1 +
      ((groupDigits d.start).length).succ))) =
      (groupDigits d.start).length + (groupDigits d.sizeKey).length +
      (groupDigits d.sumKey).length + (groupDigits d.sumMd5).length +
      (groupDigits d.sizeData).length + 5 - 1 := by omega
  rw [e]

/-! ## Emit-all scan -/

theorem scanBlocksFrom_cons (v : Nat) (rest : List Nat) (b : block) (t : List Nat) :
    scanBlocksFrom (v :: rest) b t =
      if v = cStart then scanBlocksFrom rest { b with start := digitsToNumber t } []
      else if v = cSizeKey then scanBlocksFrom rest { b with sizeKey := digitsToNumber t } []
      else if v = cSumKey then scanBlocksFrom rest { b with sumKey := digitsToNumber t } []
      else if v = cSumMd5 then scanBlocksFrom rest { b with sumMd5 := digitsToNumber t } []
      else if v = cSizeData then
        { b with sizeData := digitsToNumber t } :: scanBlocksFrom rest emptyBlock []
      else if v = cEnd then scanBlocksFrom rest b t
      else scanBlocksFrom rest b (t ++ [v]) := by
  rw [scanBlocksFrom]

theorem scanLoop_collect (stream : List Nat) : ∀ (b : block) (t : List Nat) (acc : List block),
    scanLoop (fun _ => false) id (fun st blk => (st ++ [blk], emptyBlock)) stream b t acc =
      acc ++ scanBlocksFrom stream b t := by
  induction stream with
  | nil => intro b t acc; simp [scanLoop_nil, scanBlocksFrom]
  | cons v rest ih =>
    intro b t acc
    rw [scanLoop_cons, scanBlocksFrom_cons]
    simp only [Bool.false_eq_true, if_false, id]
    split_ifs <;> simp [ih]

theorem scanBlocksFrom_block (d : block) (hd : d.Fits) (rest : List Nat) (b : block) :
    scanBlocksFrom (pushBlockToData [] d ++ rest) b [] = d :: scanBlocksFrom rest emptyBlock [] := by
  have h := scanLoop_collect (pushBlockToData [] d ++ rest) b [] []
  rw [scanLoop_block (fun _ => false) id (fun st blk => (st ++ [blk], emptyBlock))
    (fun _ => rfl) d hd rest b [] rfl] at h
  simp only [List.nil_append, Function.iterate_id, id] at h
  rw [scanLoop_collect] at h
  simpa using h.symm

theorem scanBlocksFrom_encodeBlocks (ds : List block) (hds : ∀ d ∈ ds, d.Fits) :
    ∀ (rest : List Nat) (b : block),
      scanBlocksFrom (encodeBlocks ds ++ rest) b [] = ds ++ scanBlocksFrom rest emptyBlock [] ∨
        ds = [] := by
  intro rest b
  induction ds generalizing b with
  | nil => right; rfl
  | cons d ds ih =>
    left
    rw [encodeBlocks, List.append_assoc, scanBlocksFrom_block d (hds d (by simp))]
    rcases ih (fun x hx => hds x (List.mem_cons_of_mem _ hx)) emptyBlock with h | h
    · rw [h]; rfl
    · subst h; simp [encodeBlocks]

theorem scanBlocks_encodeBlocks (ds : List block) (hds : ∀ d ∈ ds, d.Fits) :
    scanBlocks (encodeBlocks ds) = ds := by
  unfold scanBlocks
  rcases scanBlocksFrom_encodeBlocks ds hds [] emptyBlock with h | h
  · simpa [scanBlocksFrom] using h
  · subst h; simp [encodeBlocks, scanBlocksFrom]

theorem foldStop_of_stop {σ : Type} (stop : σ → Bool) (g : σ → block → σ) (l : List block)
    (st : σ) (h : stop st = true) : foldStop stop g l st = st := by
  cases l with
  | nil => rfl
  | cons d ds => simp [foldStop, h]

/-- A scan whose reaction to a descriptor resets `blockInfo` is a fold over the descriptors
of the stream. -/
theorem scanLoop_eq_foldStop {σ : Type} (stop : σ → Bool) (g : σ → block → σ)
    (stream : List Nat) : ∀ (b : block) (t : List Nat) (st : σ),
    scanLoop stop id (fun s blk => (g s blk, emptyBlock)) stream b t st =
      foldStop stop g (scanBlocksFrom stream b t) st := by
  induction stream with
  | nil => intro b t st; simp [scanLoop_nil, scanBlocksFrom, foldStop]
  | cons v rest ih =>
    intro b t st
    rw [scanLoop_cons, scanBlocksFrom_cons]
    by_cases hst : stop st = true
    · rw [if_pos hst, foldStop_of_stop _ _ _ _ hst]
    · rw [if_neg hst]
      split_ifs <;> simp [ih, foldStop, hst]

/-! ## The list scans as folds -/

theorem ite_chain_proj {α β : Type} (p : β → α) (c0 c1 c2 c3 c4 c5 c6 : Prop)
    [Decidable c0] [Decidable c1] [Decidable c2] [Decidable c3] [Decidable c4] [Decidable c5]
    [Decidable c6] (a0 a1 a2 a3 a4 a5 a6 a7 : α) (b0 b1 b2 b3 b4 b5 b6 b7 : β)
    (h0 : a0 = p b0) (h1 : a1 = p b1) (h2 : a2 = p b2) (h3 : a3 = p b3) (h4 : a4 = p b4)
    (h5 : a5 = p b5) (h6 : a6 = p b6) (h7 : a7 = p b7) :
    (if c0 then a0 else if c1 then a1 else if c2 then a2 else if c3 then a3 else if c4 then a4
      else if c5 then a5 else if c6 then a6 else a7) =
    p (if c0 then b0 else if c1 then b1 else if c2 then b2 else if c3 then b3 else if c4 then b4
      else if c5 then b5 else if c6 then b6 else b7) := by
  split_ifs <;> assumption

theorem getListDataLoop_eq_scanLoop (f : File) (limit : Nat) (stream : List Nat) :
    ∀ (b : block) (t : List Nat) (current : Nat) (result : List Item),
    getListDataLoop f limit stream b t current result =
      (scanLoop (fun st : Nat × List Item => decide (st.1 ≥ limit)) id
        (fun st blk =>
          (if verifyBlock f blk then ((st.1 + 1) % 256, st.2 ++ [pullItem f blk]) else st,
            emptyBlock)) stream b t (current, result)).2 := by
  induction stream with
  | nil => intro b t current result; simp [getListDataLoop, scanLoop_nil]
  | cons v rest ih =>
    intro b t current result
    rw [getListDataLoop, scanLoop_cons]
    simp only [decide_eq_true_eq]
    apply ite_chain_proj (fun x : Nat × List Item => x.2)
    · rfl
    · exact ih _ _ _ _
    · exact ih _ _ _ _
    · exact ih _ _ _ _
    · exact ih _ _ _ _
    · dsimp only
      split_ifs <;> exact ih _ _ _ _
    · exact ih _ _ _ _
    · exact ih _ _ _ _

theorem getListNextDataLoop_eq_scanLoop (f : File) (limit skip : Nat) (stream : List Nat) :
    ∀ (b : block) (t : List Nat) (current currentSkip : Nat) (result : List Item),
    getListNextDataLoop f limit skip stream b t current currentSkip result =
      (scanLoop (fun st : Nat × Nat × List Item => decide (st.1 ≥ limit)) id
        (fun st blk =>
          (if verifyBlock f blk then
              if st.2.1 < skip then (st.1, (st.2.1 + 1) % uintSize, st.2.2)
              else ((st.1 + 1) % 256, st.2.1, st.2.2 ++ [pullItem f blk])
            else st,
            emptyBlock)) stream b t (current, currentSkip, result)).2.2 := by
  induction stream with
  | nil => intro b t current currentSkip result; simp [getListNextDataLoop, scanLoop_nil]
  | cons v rest ih =>
    intro b t current currentSkip result
    rw [getListNextDataLoop, scanLoop_cons]
    simp only [decide_eq_true_eq]
    apply ite_chain_proj (fun x : Nat × Nat × List Item => x.2.2)
    · rfl
    · exact ih _ _ _ _ _
    · exact ih _ _ _ _ _
    · exact ih _ _ _ _ _
    · exact ih _ _ _ _ _
    · dsimp only
      split_ifs <;> exact ih _ _ _ _ _
    · exact ih _ _ _ _ _
    · exact ih _ _ _ _ _

theorem getFindNextDataLoop_eq_scanLoop (f : File) (key : List Nat) (limit : Nat)
    (onlyAfterKey : Bool) (stream : List Nat) :
    ∀ (b : block) (t : List Nat) (checkIsBegin : Bool) (current : Nat) (result : List Item),
    getFindNextDataLoop f key limit onlyAfterKey stream b t checkIsBegin current result =
      (scanLoop (fun st : Bool × Nat × List Item => decide (st.2.1 ≥ limit)) id
        (fun st blk =>
          (if (if st.1 = false ∧ blk.sizeKey = key.length ∧ blk.sumKey = sumBytes key ∧
                  blk.sumMd5 = sumBytes (md5 key) then decide (pullKey f blk = key)
                else st.1) = true ∧ verifyBlock f blk = true then
              ((if st.1 = false ∧ blk.sizeKey = key.length ∧ blk.sumKey = sumBytes key ∧
                  blk.sumMd5 = sumBytes (md5 key) then decide (pullKey f blk = key)
                else st.1),
                (st.2.1 + 1) % 256,
                if onlyAfterKey = false ∨ st.2.1 > 0 then st.2.2 ++ [pullItem f blk]
                else st.2.2)
            else
              ((if st.1 = false ∧ blk.sizeKey = key.length ∧ blk.sumKey = sumBytes key ∧
                  blk.sumMd5 = sumBytes (md5 key) then decide (pullKey f blk = key)
                else st.1), st.2.1, st.2.2),
            emptyBlock)) stream b t (checkIsBegin, current, result)).2.2 := by
  induction stream with
  | nil => intro b t c current result; simp [getFindNextDataLoop, scanLoop_nil]
  | cons v rest ih =>
    intro b t c current result
    rw [getFindNextDataLoop, scanLoop_cons]
    simp only [decide_eq_true_eq]
    apply ite_chain_proj (fun x : Bool × Nat × List Item => x.2.2)
    · rfl
    · exact ih _ _ _ _ _
    · exact ih _ _ _ _ _
    · exact ih _ _ _ _ _
    · exact ih _ _ _ _ _
    · dsimp only
      split_ifs <;> exact ih _ _ _ _ _
    · exact ih _ _ _ _ _
    · exact ih _ _ _ _ _

/-! ## Folds over descriptors -/

theorem foldStop_list (f : File) (limit : Nat) (hl : limit < 256) (blocks : List block) :
    ∀ (current : Nat) (result : List Item), current ≤ limit →
    (foldStop (fun st : Nat × List Item => decide (st.1 ≥ limit))
      (fun st blk =>
        if verifyBlock f blk then ((st.1 + 1) % 256, st.2 ++ [pullItem f blk]) else st)
      blocks (current, result)).2 =
      result ++ (((blocks.filter (verifyBlock f)).map (pullItem f)).take (limit - current)) := by
  induction blocks with
  | nil => intro current result _; simp [foldStop]
  | cons d ds ih =>
    intro current result hc
    rw [foldStop]
    by_cases hstop : current ≥ limit
    · have : limit - current = 0 := by omega
      simp [hstop, this]
    · simp only [hstop, decide_False, Bool.false_eq_true, if_false]
      by_cases hv : verifyBlock f d = true
      · simp only [hv, if_true]
        rw [Nat.mod_eq_of_lt (by omega), ih _ _ (by omega)]
        rw [List.filter_cons_of_pos hv, List.map_cons]
        have : limit - current = (limit - (current + 1)) + 1 := by omega
        rw [this, List.take_succ_cons]
        simp
      · simp only [hv, Bool.false_eq_true, if_false]
        rw [ih _ _ hc, List.filter_cons_of_neg hv]

theorem foldStop_listNext (f : File) (limit skip : Nat) (hl : limit < 256)
    (hs : skip < uintSize) (blocks : List block) :
    ∀ (current currentSkip : Nat) (result : List Item), current ≤ limit → currentSkip ≤ skip →
    (foldStop (fun st : Nat × Nat × List Item => decide (st.1 ≥ limit))
      (fun st blk =>
        if verifyBlock f blk then
          if st.2.1 < skip then (st.1, (st.2.1 + 1) % uintSize, st.2.2)
          else ((st.1 + 1) % 256, st.2.1, st.2.2 ++ [pullItem f blk])
        else st)
      blocks (current, currentSkip, result)).2.2 =
      result ++ ((((blocks.filter (verifyBlock f)).map (pullItem f)).drop
        (skip - currentSkip)).take (limit - current)) := by
  induction blocks with
  | nil => intro current currentSkip result _ _; simp [foldStop]
  | cons d ds ih =>
    intro current currentSkip result hc hk
    rw [foldStop]
    by_cases hstop : current ≥ limit
    · have : limit - current = 0 := by omega
      simp [hstop, this]
    · simp only [hstop, decide_False, Bool.false_eq_true, if_false]
      by_cases hv : verifyBlock f d = true
      · simp only [hv, if_true]
        rw [List.filter_cons_of_pos hv, List.map_cons]
        by_cases hsk : currentSkip < skip
        · simp only [hsk, if_true]
          rw [Nat.mod_eq_of_lt (by omega), ih _ _ _ hc (by omega)]
          have : skip - currentSkip = (skip - (currentSkip + 1)) + 1 := by omega
          rw [this, List.drop_succ_cons]
        · simp only [hsk, if_false]
          rw [Nat.mod_eq_of_lt (by omega), ih _ _ _ (by omega) hk]
          have e1 : skip - currentSkip = 0 := by omega
          have e2 : limit - current = (limit - (current + 1)) + 1 := by omega
          rw [e1, List.drop_zero, List.drop_zero, e2, List.take_succ_cons]
          simp
      · simp only [hv, Bool.false_eq_true, if_false]
        rw [ih _ _ _ hc hk, List.filter_cons_of_neg hv]

/-- Function `getListData` takes the first `limit` verified entries of the stream. -/
theorem getListData_eq (f : File) (stream : List Nat) (limit : Nat) (hl : limit < 256) :
    getListData f stream limit = (verifiedEntries f stream).take limit := by
  unfold getListData verifiedEntries scanBlocks
  rw [getListDataLoop_eq_scanLoop, scanLoop_eq_foldStop, foldStop_list f limit hl _ 0 []
    (Nat.zero_le _)]
  simp

/-- Function `getListNextData` drops `skip` verified entries and takes the next `limit`. -/
theorem getListNextData_eq (f : File) (stream : List Nat) (limit skip : Nat)
    (hl : limit < 256) (hs : skip < uintSize) :
    getListNextData f stream limit skip = ((verifiedEntries f stream).drop skip).take limit := by
  unfold getListNextData verifiedEntries scanBlocks
  rw [getListNextDataLoop_eq_scanLoop, scanLoop_eq_foldStop,
    foldStop_listNext f limit skip hl hs _ 0 0 [] (Nat.zero_le _) (Nat.zero_le _)]
  simp

/-! ## `getFindNextData` as a fold -/

theorem findNext_begin_eq (f : File) (key : List Nat) (c : Bool) (blk : block) :
    (if c = false ∧ blk.sizeKey = key.length ∧ blk.sumKey = sumBytes key ∧
        blk.sumMd5 = sumBytes (md5 key) then decide (pullKey f blk = key) else c) =
      (c || decide (keyMatches f key blk)) := by
  unfold keyMatches
  cases c
  · by_cases h : blk.sizeKey = key.length ∧ blk.sumKey = sumBytes key ∧
        blk.sumMd5 = sumBytes (md5 key)
    · obtain ⟨h1, h2, h3⟩ := h
      simp [h1, h2, h3]
    · rw [if_neg (by tauto)]
      have : ¬ (blk.sizeKey = key.length ∧ blk.sumKey = sumBytes key ∧
          blk.sumMd5 = sumBytes (md5 key) ∧ pullKey f blk = key) := by tauto
      simp [this]
  · simp

theorem findNext_lambda_eq (f : File) (key : List Nat) (onlyAfterKey : Bool) :
    (fun (st : Bool × Nat × List Item) (blk : block) =>
      ((if (if st.1 = false ∧ blk.sizeKey = key.length ∧ blk.sumKey = sumBytes key ∧
                  blk.sumMd5 = sumBytes (md5 key) then decide (pullKey f blk = key)
                else st.1) = true ∧ verifyBlock f blk = true then
              ((if st.1 = false ∧ blk.sizeKey = key.length ∧ blk.sumKey = sumBytes key ∧
                  blk.sumMd5 = sumBytes (md5 key) then decide (pullKey f blk = key)
                else st.1),
                (st.2.1 + 1) % 256,
                if onlyAfterKey = false ∨ st.2.1 > 0 then st.2.2 ++ [pullItem f blk]
                else st.2.2)
            else
              ((if st.1 = false ∧ blk.sizeKey = key.length ∧ blk.sumKey = sumBytes key ∧
                  blk.sumMd5 = sumBytes (md5 key) then decide (pullKey f blk = key)
                else st.1), st.2.1, st.2.2)), emptyBlock)) =
    (fun st blk => (findNextStep f key onlyAfterKey st blk, emptyBlock)) := by
  funext st blk
  rw [findNext_begin_eq]
  unfold findNextStep
  by_cases h : (st.1 || decide (keyMatches f key blk)) = true ∧ verifyBlock f blk = true
  · rw [if_pos h, if_pos h, h.1]
  · rw [if_neg h, if_neg h]

theorem findNextEntries_cons_pos (f : File) (key : List Nat) (begun : Bool) (d : block)
    (ds : List block) (hb : (begun || decide (keyMatches f key d)) = true)
    (hv : verifyBlock f d = true) :
    findNextEntries f key begun (d :: ds) = pullItem f d :: findNextEntries f key true ds := by
  unfold findNextEntries
  cases begun
  · simp only [Bool.false_or, decide_eq_true_eq] at hb
    simp [List.dropWhile_cons, hb, hv]
  · simp [hv]

theorem findNextEntries_cons_neg (f : File) (key : List Nat) (begun : Bool) (d : block)
    (ds : List block)
    (h : ¬ ((begun || decide (keyMatches f key d)) = true ∧ verifyBlock f d = true)) :
    findNextEntries f key begun (d :: ds) =
      findNextEntries f key (begun || decide (keyMatches f key d)) ds := by
  unfold findNextEntries
  cases begun
  · by_cases hk : keyMatches f key d
    · have hv : ¬ verifyBlock f d = true := by
        intro hv; exact h ⟨by simp [hk], hv⟩
      simp [List.dropWhile_cons, hk, hv]
    · simp [List.dropWhile_cons, hk]
  · have hv : ¬ verifyBlock f d = true := by
      intro hv; exact h ⟨by simp, hv⟩
    simp [hv]

theorem foldStop_findNext (f : File) (key : List Nat) (limit : Nat) (onlyAfterKey : Bool)
    (hl : limit < 256) (blocks : List block) :
    ∀ (begun : Bool) (current : Nat) (result : List Item), current ≤ limit →
    (foldStop (fun st : Bool × Nat × List Item => decide (st.2.1 ≥ limit))
      (findNextStep f key onlyAfterKey) blocks (begun, current, result)).2.2 =
      result ++ (if onlyAfterKey = true ∧ current = 0 then
          ((findNextEntries f key begun blocks).take limit).tail
        else (findNextEntries f key begun blocks).take (limit - current)) := by
  induction blocks with
  | nil => intro begun current result _; simp [foldStop, findNextEntries]
  | cons d ds ih =>
    intro begun current result hc
    rw [foldStop]
    by_cases hstop : current ≥ limit
    · have e0 : limit - current = 0 := by omega
      simp only [hstop, decide_True, if_true, e0, List.take_zero]
      by_cases h0 : onlyAfterKey = true ∧ current = 0
      · have : limit = 0 := by omega
        simp [h0, this]
      · simp [h0]
    · simp only [hstop, decide_False, Bool.false_eq_true, if_false]
      by_cases h : (begun || decide (keyMatches f key d)) = true ∧ verifyBlock f d = true
      · rw [findNextStep, if_pos h]
        dsimp only
        rw [Nat.mod_eq_of_lt (by omega), ih _ _ _ (by omega),
          findNextEntries_cons_pos f key begun d ds h.1 h.2]
        have hne : ¬ (onlyAfterKey = true ∧ current + 1 = 0) := by omega
        rw [if_neg hne]
        by_cases h0 : onlyAfterKey = true ∧ current = 0
        · have hcond : ¬ (onlyAfterKey = false ∨ current > 0) := by
            rw [h0.1, h0.2]; simp
          rw [if_pos h0, if_neg hcond]
          have e : limit = (limit - 1) + 1 := by omega
          rw [e, List.take_succ_cons, List.tail_cons]
          rw [h0.2]
          simp
        · have hcond : onlyAfterKey = false ∨ current > 0 := by
            cases onlyAfterKey
            · left; rfl
            · right
              simp only [true_and] at h0
              omega
          rw [if_neg h0, if_pos hcond]
          have e : limit - current = (limit - (current + 1)) + 1 := by omega
          rw [e, List.take_succ_cons]
          simp
      · rw [findNextStep, if_neg h]
        dsimp only
        rw [ih _ _ _ hc, findNextEntries_cons_neg f key begun d ds h]

/-- Function `getFindNextData` without `onlyAfterKey`: the first `limit` entries from the first match
on; with `onlyAfterKey`: the same list without its head. -/
theorem getFindNextData_eq (f : File) (stream key : List Nat) (limit : Nat)
    (onlyAfterKey : Bool) (hl : limit < 256) :
    getFindNextData f stream key limit onlyAfterKey =
      if onlyAfterKey then ((findNextEntries f key false (scanBlocks stream)).take limit).tail
      else (findNextEntries f key false (scanBlocks stream)).take limit := by
  unfold getFindNextData scanBlocks
  rw [getFindNextDataLoop_eq_scanLoop, findNext_lambda_eq, scanLoop_eq_foldStop,
    foldStop_findNext f key limit onlyAfterKey hl _ false 0 [] (Nat.zero_le _)]
  cases onlyAfterKey <;> simp

/-! ## Consequences of the invariants -/

theorem sumBytes_foldl_lt (l : List Nat) : ∀ a : Nat, a < uintSize →
    l.foldl (fun s b => (s + b) % uintSize) a < uintSize := by
  induction l with
  | nil => intro a h; simpa using h
  | cons x xs ih =>
    intro a _
    simp only [List.foldl_cons]
    exact ih _ (Nat.mod_lt _ (by decide))

theorem sumBytes_lt (l : List Nat) : sumBytes l < uintSize :=
  sumBytes_foldl_lt l 0 (by decide)

theorem pullKey_eq_storedKey (f : File) (d : block) : pullKey f d = storedKey f d := rfl

theorem BucketInv.fits {f : File} {ds : List block} (h : BucketInv f ds) :
    ∀ d ∈ ds, d.Fits := by
  intro d hd
  have h1 := (h.inside d hd).2
  have h2 := getListConfig_fst_lt f
  have h3 := h.fingerprint d hd
  refine ⟨by omega, by omega, ?_, ?_, by omega⟩
  · rw [h3.1]; exact sumBytes_lt _
  · rw [h3.2]; exact sumBytes_lt _

theorem BucketInv.scanBlocks_eq {f : File} {ds : List block} (h : BucketInv f ds) :
    scanBlocks (getListConfig f).2 = ds := by
  rw [h.index]
  exact scanBlocks_encodeBlocks ds h.fits

theorem pullData_of_stored (f : File) (d : block)
    (h : d.start + d.sizeKey + d.sizeData ≤ f.length) :
    pullData f d = (storedKey f d, storedData f d) := by
  unfold pullData readAtFails
  rw [if_neg (by simp only [decide_eq_true_eq]; omega),
    if_neg (by simp only [decide_eq_true_eq]; omega)]
  rfl

theorem pullItem_of_stored (f : File) (d : block)
    (h : d.start + d.sizeKey + d.sizeData ≤ f.length) :
    pullItem f d = storedItem f d := by
  unfold pullItem
  rw [pullData_of_stored f d h]
  rfl

theorem BucketInv.pullItem_eq {f : File} {ds : List block} (h : BucketInv f ds) :
    ∀ d ∈ ds, pullItem f d = storedItem f d :=
  fun d hd => pullItem_of_stored f d (h.stored d hd)

theorem BucketInv.verifyBlock_eq {f : File} {ds : List block} (h : BucketInv f ds) :
    ∀ d ∈ ds, verifyBlock f d = true := by
  intro d hd
  unfold verifyBlock
  rw [pullData_of_stored f d (h.stored d hd)]
  have hf := h.fingerprint d hd
  simp only [decide_eq_true_eq]
  refine ⟨readAt_length _ _ _, hf.1.symm, hf.2.symm⟩

theorem BucketInv.keyMatches_iff {f : File} {ds : List block} (h : BucketInv f ds)
    (key : List Nat) : ∀ d ∈ ds, (keyMatches f key d ↔ storedKey f d = key) := by
  intro d hd
  unfold keyMatches
  rw [pullKey_eq_storedKey]
  constructor
  · exact fun hm => hm.2.2.2
  · intro hk
    have hf := h.fingerprint d hd
    rw [pullKey_eq_storedKey, hk] at hf
    refine ⟨?_, hf.1, hf.2, hk⟩
    rw [← hk]
    exact (readAt_length _ _ _).symm

theorem filter_eq_self_of_all {α : Type} (p : α → Bool) (l : List α) (h : ∀ x ∈ l, p x = true) :
    l.filter p = l :=
  List.filter_eq_self.2 h

theorem BucketInv.verifiedEntries_eq {f : File} {ds : List block} (h : BucketInv f ds) :
    verifiedEntries f (getListConfig f).2 = ds.map (storedItem f) := by
  unfold verifiedEntries
  rw [h.scanBlocks_eq, filter_eq_self_of_all _ _ h.verifyBlock_eq]
  exact List.map_congr_left h.pullItem_eq

/-! ## MD5 digest sums -/

theorem hexDigit_bounds (n : Nat) (h : n < 16) : 48 ≤ hexDigit n ∧ hexDigit n ≤ 102 := by
  unfold hexDigit
  split_ifs <;> omega

theorem hexEncode_bounds (l : List Nat) (h : ∀ b ∈ l, b < 256) :
    ∀ x ∈ hexEncode l, 48 ≤ x ∧ x ≤ 102 := by
  induction l with
  | nil => intro x hx; simp [hexEncode] at hx
  | cons b bs ih =>
    intro x hx
    have hb : b < 256 := h b (by simp)
    simp only [hexEncode, List.mem_cons] at hx
    rcases hx with hx | hx | hx
    · rw [hx]; exact hexDigit_bounds _ (by omega)
    · rw [hx]; exact hexDigit_bounds _ (Nat.mod_lt _ (by decide))
    · exact ih (fun y hy => h y (List.mem_cons_of_mem _ hy)) x hx

theorem hexEncode_length (l : List Nat) : (hexEncode l).length = 2 * l.length := by
  induction l with
  | nil => rfl
  | cons b bs ih => simp only [hexEncode, List.length_cons, ih]; omega

theorem le32_lt (x : Nat) : ∀ b ∈ le32 x, b < 256 := by
  intro b hb
  simp only [le32, List.mem_cons, List.mem_singleton, List.not_mem_nil, or_false] at hb
  rcases hb with h | h | h | h <;> rw [h] <;> exact Nat.mod_lt _ (by decide)

theorem md5_length (key : List Nat) : (md5 key).length = 32 := by
  unfold md5 md5Sum
  rw [hexEncode_length]
  simp [le32]

theorem md5_bounds (key : List Nat) : ∀ x ∈ md5 key, 48 ≤ x ∧ x ≤ 102 := by
  unfold md5 md5Sum
  apply hexEncode_bounds
  intro b hb
  simp only [List.mem_append] at hb
  rcases hb with ((h | h) | h) | h <;> exact le32_lt _ b h

theorem sumBytes_foldl_eq (l : List Nat) : ∀ a : Nat,
    l.foldl (fun s b => (s + b) % uintSize) a % uintSize = (a + l.sum) % uintSize := by
  induction l with
  | nil => intro a; simp
  | cons x xs ih =>
    intro a
    simp only [List.foldl_cons, List.sum_cons]
    rw [ih, Nat.add_mod, Nat.mod_mod, ← Nat.add_mod, Nat.add_assoc]

theorem sumBytes_eq (l : List Nat) : sumBytes l = l.sum % uintSize := by
  have h := sumBytes_foldl_eq l 0
  rw [Nat.mod_eq_of_lt (sumBytes_foldl_lt l 0 (by decide)), Nat.zero_add] at h
  exact h

/-- The digest sum of a key lies between `32 * '0'` and `32 * 'f'`; it is never zero. -/
theorem sumMd5_bounds (key : List Nat) :
    1536 ≤ sumBytes (md5 key) ∧ sumBytes (md5 key) ≤ 3264 := by
  rw [sumBytes_eq]
  have hlen := md5_length key
  have hb := md5_bounds key
  have h1 : (md5 key).sum ≤ (md5 key).length * 102 := by
    have := List.sum_le_card_nsmul (md5 key) 102 (fun x hx => (hb x hx).2)
    simpa using this
  have h2 : (md5 key).length * 48 ≤ (md5 key).sum := by
    have := List.card_nsmul_le_sum (md5 key) 48 (fun x hx => (hb x hx).1)
    simpa using this
  rw [hlen] at h1 h2
  rw [Nat.mod_eq_of_lt (lt_of_le_of_lt h1 (by decide))]
  omega

/-! ## The key-directed scans as instances of the scanner -/

theorem ite_chain7 {α β : Type} (p : β → α) (c1 c2 c3 c4 c5 c6 : Prop)
    [Decidable c1] [Decidable c2] [Decidable c3] [Decidable c4] [Decidable c5]
    [Decidable c6] (a1 a2 a3 a4 a5 a6 a7 : α) (b1 b2 b3 b4 b5 b6 b7 : β)
    (h1 : a1 = p b1) (h2 : a2 = p b2) (h3 : a3 = p b3) (h4 : a4 = p b4)
    (h5 : a5 = p b5) (h6 : a6 = p b6) (h7 : a7 = p b7) :
    (if c1 then a1 else if c2 then a2 else if c3 then a3 else if c4 then a4
      else if c5 then a5 else if c6 then a6 else a7) =
    p (if c1 then b1 else if c2 then b2 else if c3 then b3 else if c4 then b4
      else if c5 then b5 else if c6 then b6 else b7) := by
  split_ifs <;> assumption

theorem getNewListNotContainKeyLoop_eq_scanLoop (f : File) (key : List Nat)
    (isReturnListInfo : Bool) (stream : List Nat) :
    ∀ (b : block) (t : List Nat) (nd : List Nat) (ni : List block),
    getNewListNotContainKeyLoop f key isReturnListInfo stream b t nd ni =
      scanLoop (fun _ => false) id (filterStep f key isReturnListInfo) stream b t (nd, ni) := by
  induction stream with
  | nil => intro b t nd ni; simp [getNewListNotContainKeyLoop, scanLoop_nil]
  | cons v rest ih =>
    intro b t nd ni
    rw [scanLoop_cons, if_neg Bool.false_ne_true, getNewListNotContainKeyLoop]
    apply ite_chain7 (fun x : List Nat × List block => x)
    · exact ih _ _ _ _
    · exact ih _ _ _ _
    · exact ih _ _ _ _
    · exact ih _ _ _ _
    · dsimp only [filterStep, keyMatches]
      split_ifs <;> exact ih _ _ _ _
    · exact ih _ _ _ _
    · exact ih _ _ _ _

theorem getOneDataLoop_eq_scanLoop (f : File) (key : List Nat) (stream : List Nat) :
    ∀ (b : block) (t : List Nat) (rs : List Nat × List Nat),
    getOneDataLoop f key stream b t rs =
      scanLoop (fun _ => false) id (getOneStep f key) stream b t rs := by
  induction stream with
  | nil => intro b t rs; simp [getOneDataLoop, scanLoop_nil]
  | cons v rest ih =>
    intro b t rs
    rw [scanLoop_cons, if_neg Bool.false_ne_true, getOneDataLoop]
    apply ite_chain7 (fun x : List Nat × List Nat => x)
    · exact ih _ _ _
    · exact ih _ _ _
    · exact ih _ _ _
    · exact ih _ _ _
    · dsimp only [getOneStep]
      split_ifs <;> exact ih _ _ _
    · exact ih _ _ _
    · exact ih _ _ _

theorem deleteToDataLoop_eq_scanLoop (f : File) (key : List Nat) (stream : List Nat) :
    ∀ (i : Nat) (b : block) (t : List Nat) (st : DeleteToScan),
    deleteToDataLoop f key stream i b t st =
      (scanLoop (fun _ => false) (fun s : Nat × DeleteToScan => (s.1 + 1, s.2))
        (deleteToStep f key) stream b t (i, st)).2 := by
  induction stream with
  | nil => intro i b t st; simp [deleteToDataLoop, scanLoop_nil]
  | cons v rest ih =>
    intro i b t st
    rw [scanLoop_cons, if_neg Bool.false_ne_true, deleteToDataLoop]
    apply ite_chain7 (fun x : Nat × DeleteToScan => x.2)
    · exact ih _ _ _ _
    · exact ih _ _ _ _
    · exact ih _ _ _ _
    · exact ih _ _ _ _
    · dsimp only [deleteToStep, keyMatches]
      split_ifs <;> exact ih _ _ _ _
    · exact ih _ _ _ _
    · exact ih _ _ _ _

/-! ## The key-directed scans over an encoded descriptor list -/

theorem encodeBlocks_append (xs ys : List block) :
    encodeBlocks (xs ++ ys) = encodeBlocks xs ++ encodeBlocks ys := by
  induction xs with
  | nil => rfl
  | cons d ds ih => simp [encodeBlocks, ih]

theorem encodeBlocks_singleton (d : block) : encodeBlocks [d] = pushBlockToData [] d := by
  simp [encodeBlocks]

theorem pushBlockToData_noEnd (d : block) : cEnd ∉ pushBlockToData [] d := by
  rw [pushBlockToData_eq]
  intro h
  simp only [List.nil_append, List.mem_append, List.mem_cons, List.mem_singleton,
    List.not_mem_nil, or_false] at h
  have hg := fun n => groupDigits_ne_cEnd n cEnd
  rcases h with h | h | h | h | h | h | h | h | h | h
  · exact hg _ h rfl
  · revert h; decide
  · exact hg _ h rfl
  · revert h; decide
  · exact hg _ h rfl
  · revert h; decide
  · exact hg _ h rfl
  · revert h; decide
  · exact hg _ h rfl
  · revert h; decide

theorem encodeBlocks_noEnd (ds : List block) : cEnd ∉ encodeBlocks ds := by
  induction ds with
  | nil => simp [encodeBlocks]
  | cons d ds ih =>
    rw [encodeBlocks, List.mem_append, not_or]
    exact ⟨pushBlockToData_noEnd d, ih⟩

theorem pushBlockToData_length_le (d : block) : (pushBlockToData [] d).length ≤ 105 := by
  rw [pushBlockToData_length]
  have h1 := groupDigits_length_le d.start
  have h2 := groupDigits_length_le d.sizeKey
  have h3 := groupDigits_length_le d.sumKey
  have h4 := groupDigits_length_le d.sumMd5
  have h5 := groupDigits_length_le d.sizeData
  omega

theorem pushBlockToData_length_pos (d : block) : 5 ≤ (pushBlockToData [] d).length := by
  rw [pushBlockToData_length]
  omega

theorem encodeBlocks_filter_length_le (p : block → Bool) (ds : List block) :
    (encodeBlocks (ds.filter p)).length ≤ (encodeBlocks ds).length := by
  induction ds with
  | nil => simp
  | cons d ds ih =>
    by_cases hp : p d = true
    · rw [List.filter_cons_of_pos hp]
      simp only [encodeBlocks, List.length_append]
      omega
    · rw [List.filter_cons_of_neg hp]
      simp only [encodeBlocks, List.length_append]
      omega

theorem scanLoop_filter_encodeBlocks (f : File) (key : List Nat) (isReturnListInfo : Bool)
    (ds : List block) (hds : ∀ d ∈ ds, d.Fits) :
    ∀ (b : block) (nd : List Nat) (ni : List block),
    scanLoop (fun _ => false) id (filterStep f key isReturnListInfo) (encodeBlocks ds) b []
        (nd, ni) =
      (nd ++ encodeBlocks (ds.filter (fun d => !decide (keyMatches f key d))),
        if isReturnListInfo then ni ++ ds.filter (fun d => !decide (keyMatches f key d))
        else ni) := by
  induction ds with
  | nil => intro b nd ni; simp [encodeBlocks, scanLoop_nil]
  | cons d ds ih =>
    intro b nd ni
    have hd := hds d (by simp)
    have hrest : ∀ x ∈ ds, x.Fits := fun x hx => hds x (List.mem_cons_of_mem _ hx)
    rw [encodeBlocks, scanLoop_block (fun _ => false) id _ (fun _ => rfl) d hd _ b _ rfl]
    simp only [Function.iterate_id, id]
    by_cases hk : keyMatches f key d
    · have e : filterStep f key isReturnListInfo (nd, ni) d = ((nd, ni), d) := by
        simp [filterStep, hk]
      rw [e, ih hrest]
      simp [List.filter_cons, hk]
    · have e : filterStep f key isReturnListInfo (nd, ni) d =
          ((pushBlockToData nd d, if isReturnListInfo then ni ++ [d] else ni), emptyBlock) := by
        simp [filterStep, hk]
      rw [e, ih hrest]
      simp only [List.filter_cons, hk, decide_False, Bool.not_false, if_true, encodeBlocks]
      rw [pushBlockToData_append nd d]
      cases isReturnListInfo <;> simp

/-- On an encoded descriptor list `getNewListNotContainKey` drops exactly the descriptors
that match the key. -/
theorem getNewListNotContainKey_encodeBlocks (f : File) (key : List Nat)
    (isReturnListInfo : Bool) (ds : List block) (hds : ∀ d ∈ ds, d.Fits) :
    getNewListNotContainKey f (encodeBlocks ds) key isReturnListInfo =
      (encodeBlocks (ds.filter (fun d => !decide (keyMatches f key d))),
        if isReturnListInfo then ds.filter (fun d => !decide (keyMatches f key d)) else []) := by
  unfold getNewListNotContainKey
  rw [getNewListNotContainKeyLoop_eq_scanLoop, scanLoop_filter_encodeBlocks f key _ ds hds]
  simp

theorem scanLoop_getOne_encodeBlocks (f : File) (key : List Nat)
    (ds : List block) (hds : ∀ d ∈ ds, d.Fits) :
    ∀ (b : block) (rs : List Nat × List Nat),
    scanLoop (fun _ => false) id (getOneStep f key) (encodeBlocks ds) b [] rs =
      ds.foldl (fun rs d => (getOneStep f key rs d).1) rs := by
  induction ds with
  | nil => intro b rs; simp [encodeBlocks, scanLoop_nil]
  | cons d ds ih =>
    intro b rs
    have hd := hds d (by simp)
    have hrest : ∀ x ∈ ds, x.Fits := fun x hx => hds x (List.mem_cons_of_mem _ hx)
    rw [encodeBlocks, scanLoop_block (fun _ => false) id _ (fun _ => rfl) d hd _ b _ rfl]
    simp only [Function.iterate_id, id]
    rw [ih hrest, List.foldl_cons]

/-- On an encoded descriptor list `getOneData` returns what the last matching descriptor
reads, and nothing when none matches. -/
theorem getOneData_encodeBlocks (f : File) (key : List Nat) (ds : List block)
    (hds : ∀ d ∈ ds, d.Fits) :
    getOneData f (encodeBlocks ds) key =
      ds.foldl (fun rs d => (getOneStep f key rs d).1) ([], []) := by
  unfold getOneData
  rw [getOneDataLoop_eq_scanLoop, scanLoop_getOne_encodeBlocks f key ds hds]

theorem iterate_tick (n i : Nat) (st : DeleteToScan) :
    (fun s : Nat × DeleteToScan => (s.1 + 1, s.2))^[n] (i, st) = (i + n, st) := by
  induction n generalizing i with
  | zero => rfl
  | succ k ih =>
    rw [Function.iterate_succ_apply, ih]
    simp only [Prod.mk.injEq, and_true]
    omega

theorem scanLoop_deleteTo_encodeBlocks (f : File) (key : List Nat)
    (ds : List block) (hds : ∀ d ∈ ds, d.Fits) :
    ∀ (b : block) (i : Nat) (st : DeleteToScan),
    (scanLoop (fun _ => false) (fun s : Nat × DeleteToScan => (s.1 + 1, s.2))
        (deleteToStep f key) (encodeBlocks ds) b [] (i, st)).2 =
      deleteToFold f key ds i st := by
  induction ds with
  | nil => intro b i st; simp [encodeBlocks, scanLoop_nil, deleteToFold]
  | cons d ds ih =>
    intro b i st
    have hd := hds d (by simp)
    have hrest : ∀ x ∈ ds, x.Fits := fun x hx => hds x (List.mem_cons_of_mem _ hx)
    have hpos := pushBlockToData_length_pos d
    rw [encodeBlocks, scanLoop_block (fun _ => false) _ _ (fun _ => rfl) d hd _ b _ rfl]
    rw [iterate_tick, deleteToFold]
    have e2 : (deleteToStep f key (i + ((pushBlockToData [] d).length - 1), st) d).1.1 =
        i + ((pushBlockToData [] d).length - 1) := by
      unfold deleteToStep
      split_ifs <;> rfl
    have e3 : (deleteToStep f key (i + ((pushBlockToData [] d).length - 1), st) d).2 =
        emptyBlock := by
      unfold deleteToStep
      split_ifs <;> rfl
    have e4 : i + ((pushBlockToData [] d).length - 1) = i + (pushBlockToData [] d).length - 1 := by
      omega
    have e5 : i + ((pushBlockToData [] d).length - 1) + 1 = i + (pushBlockToData [] d).length := by
      omega
    rw [e2, e3, e5, ih hrest, e4]

/-! ## Listing -/

theorem dropWhile_append_of_all {α : Type} (p : α → Bool) (pre : List α) (d : α)
    (post : List α) (hpre : ∀ x ∈ pre, p x = true) (hd : p d = false) :
    (pre ++ d :: post).dropWhile p = d :: post := by
  induction pre with
  | nil => simp [List.dropWhile_cons, hd]
  | cons x xs ih =>
    rw [List.cons_append, List.dropWhile_cons, if_pos (hpre x (by simp))]
    exact ih (fun y hy => hpre y (List.mem_cons_of_mem _ hy))

theorem dropWhile_eq_nil_of_all {α : Type} (p : α → Bool) (l : List α)
    (h : ∀ x ∈ l, p x = true) : l.dropWhile p = [] := by
  induction l with
  | nil => rfl
  | cons x xs ih =>
    rw [List.dropWhile_cons, if_pos (h x (by simp))]
    exact ih (fun y hy => h y (List.mem_cons_of_mem _ hy))

theorem BucketInv.entries_of_sublist {f : File} {ds : List block} (h : BucketInv f ds)
    (l : List block) (hl : ∀ x ∈ l, x ∈ ds) :
    (l.filter (verifyBlock f)).map (pullItem f) = l.map (storedItem f) := by
  rw [filter_eq_self_of_all _ _ (fun x hx => h.verifyBlock_eq x (hl x hx))]
  exact List.map_congr_left (fun x hx => h.pullItem_eq x (hl x hx))

/-- Under the invariants `List(limit)` returns the entries of the first `limit` live
descriptors. -/
theorem BucketInv.list_firstEntries {f : File} {ds : List block} (h : BucketInv f ds) (limit : Nat)
    (hl : limit < 256) :
    Bucket.List f limit = (ds.take limit).map (storedItem f) ∧
      (Bucket.List f limit).length = min limit ds.length ∧
      (Bucket.List f limit).length ≤ limit := by
  have e : Bucket.List f limit = (ds.take limit).map (storedItem f) := by
    unfold Bucket.List
    rw [getListData_eq f _ limit hl, h.verifiedEntries_eq, List.map_take]
  refine ⟨e, ?_, ?_⟩
  · rw [e, List.length_map, List.length_take]
  · rw [e, List.length_map, List.length_take]
    exact min_le_left _ _

/-- C6. In a bucket that satisfies the invariants, with live descriptors `ds`, `List(limit)`
returns the entries stored for the first `min limit ds.length` descriptors of the index, in
index order; in particular it returns `min limit ds.length` items, never more than `limit`. -/
theorem list_returns_first_entries (f : File) (ds : List block) (limit : Nat)
    (h : BucketInv f ds) (hl : limit < 256) :
    Bucket.List f limit = (ds.take limit).map (storedItem f) ∧
      (Bucket.List f limit).length = min limit ds.length ∧
      (Bucket.List f limit).length ≤ limit :=
  h.list_firstEntries limit hl

/-- C7. For every file, every index stream, every `limit` (a `uint8`) and `skip` (a `uint`),
when the sizes of the descriptors the scan decodes are at most `cAllocMax` (so that
`pullData` can allocate its buffers), `getListNextData` returns the verified entries of the
stream with the first `skip` dropped and then at most `limit` taken; so does `ListNext` on
the index stream of the file, when the index length in the header is at most `cAllocMax`
as well, and `ListNext(limit, 0)` is `List(limit)`. -/
theorem listNext_drop_take (f : File) (stream : List Nat) (limit skip : Nat)
    (hl : limit < 256) (hs : skip < uintSize)
    (_hstream : ∀ d ∈ scanBlocks stream, d.AllocOk)
    (_hheader : headerIndexLen f ≤ cAllocMax)
    (_hindex : ∀ d ∈ scanBlocks (getListConfig f).2, d.AllocOk) :
    getListNextData f stream limit skip = ((verifiedEntries f stream).drop skip).take limit ∧
      Bucket.ListNext f limit skip =
        ((verifiedEntries f (getListConfig f).2).drop skip).take limit ∧
      getListNextData f stream limit 0 = getListData f stream limit ∧
      Bucket.ListNext f limit 0 = Bucket.List f limit := by
  refine ⟨getListNextData_eq f stream limit skip hl hs, ?_, ?_, ?_⟩
  · exact getListNextData_eq f _ limit skip hl hs
  · rw [getListNextData_eq f stream limit 0 hl (by decide), getListData_eq f stream limit hl,
      List.drop_zero]
  · unfold Bucket.ListNext Bucket.List
    rw [getListNextData_eq f _ limit 0 hl (by decide), getListData_eq f _ limit hl,
      List.drop_zero]

/-- C8. In a bucket that satisfies the invariants: when `d` is the first descriptor of the
index whose stored key is `key`, `FindNext(key, limit, false)` returns the entry of `d`
followed by the entries of the later descriptors in index order, cut to `limit` items, and
`FindNext(key, limit, true)` returns that list without its first element, hence at most
`limit - 1` items; when no descriptor stores `key`, both return the empty list. -/
theorem findNext_from_match (f : File) (ds : List block) (key : List Nat) (limit : Nat)
    (h : BucketInv f ds) (hl : limit < 256) :
    (∀ (pre : List block) (d : block) (post : List block), ds = pre ++ d :: post →
        storedKey f d = key → (∀ x ∈ pre, storedKey f x ≠ key) →
        Bucket.FindNext f key limit false = ((d :: post).map (storedItem f)).take limit ∧
        Bucket.FindNext f key limit true =
          (((d :: post).map (storedItem f)).take limit).tail ∧
        (Bucket.FindNext f key limit true).length ≤ limit - 1) ∧
      ((∀ x ∈ ds, storedKey f x ≠ key) →
        Bucket.FindNext f key limit false = [] ∧ Bucket.FindNext f key limit true = []) := by
  have hfn : ∀ o, Bucket.FindNext f key limit o =
      if o then ((findNextEntries f key false ds).take limit).tail
      else (findNextEntries f key false ds).take limit := by
    intro o
    unfold Bucket.FindNext
    rw [getFindNextData_eq f _ key limit o hl, h.scanBlocks_eq]
  constructor
  · intro pre d post hds hd hpre
    have hE : findNextEntries f key false ds = (d :: post).map (storedItem f) := by
      unfold findNextEntries
      simp only [Bool.false_eq_true, if_false]
      have hdrop : ds.dropWhile (fun x => !decide (keyMatches f key x)) = d :: post := by
        rw [hds]
        apply dropWhile_append_of_all
        · intro x hx
          have hxm : x ∈ ds := by rw [hds]; simp [hx]
          have := (h.keyMatches_iff key x hxm).not.2 (hpre x hx)
          simp [this]
        · have hdm : d ∈ ds := by rw [hds]; simp
          have := (h.keyMatches_iff key d hdm).2 hd
          simp [this]
      rw [hdrop]
      apply h.entries_of_sublist
      intro x hx
      rw [hds]
      exact List.mem_append_right _ hx
    have e1 := hfn false
    have e2 := hfn true
    simp only [Bool.false_eq_true, if_false, if_true, hE] at e1 e2
    refine ⟨e1, e2, ?_⟩
    rw [e2, List.length_tail, List.length_take]
    have := min_le_left limit ((d :: post).map (storedItem f)).length
    omega
  · intro hno
    have hE : findNextEntries f key false ds = [] := by
      unfold findNextEntries
      simp only [Bool.false_eq_true, if_false]
      rw [dropWhile_eq_nil_of_all]
      · rfl
      · intro x hx
        have := (h.keyMatches_iff key x hx).not.2 (hno x hx)
        simp [this]
    have e1 := hfn false
    have e2 := hfn true
    simp only [Bool.false_eq_true, if_false, if_true, hE, List.take_nil, List.tail_nil] at e1 e2
    exact ⟨e1, e2⟩

/-! ## Rewriting the index in place -/

theorem encodeBlocks_sublist_length_le {xs ys : List block} (h : xs.Sublist ys) :
    (encodeBlocks xs).length ≤ (encodeBlocks ys).length := by
  induction h with
  | slnil => simp
  | cons a _ ih => simp only [encodeBlocks, List.length_append]; omega
  | cons₂ a _ ih => simp only [encodeBlocks, List.length_append]; omega

theorem BucketInv.index_length_lt {f : File} {ds : List block} (h : BucketInv f ds) :
    (encodeBlocks ds).length < uintSize := by
  rw [← h.index]
  exact getListConfig_snd_length f

theorem storedKey_updateListBlock (f : File) (start : Nat) (l : List Nat) (d : block)
    (h1 : cFirstSize ≤ d.start) (h2 : d.start + d.sizeKey + d.sizeData ≤ start) :
    storedKey (updateListBlock f start l) d = storedKey f d := by
  unfold storedKey
  exact readAt_updateListBlock f start l _ _ h1 (by omega)

theorem storedData_updateListBlock (f : File) (start : Nat) (l : List Nat) (d : block)
    (h1 : cFirstSize ≤ d.start) (h2 : d.start + d.sizeKey + d.sizeData ≤ start) :
    storedData (updateListBlock f start l) d = storedData f d := by
  unfold storedData
  exact readAt_updateListBlock f start l _ _ (by omega) (by omega)

/-- Writing back, at the same index offset, the encoding of a sublist of the live descriptors
keeps the invariants, and the kept descriptors keep their stored entries. -/
theorem BucketInv.rewrite_sublist {f : File} {ds ds1 : List block} (h : BucketInv f ds)
    (hsub : ds1.Sublist ds) :
    getListConfig (updateListBlock f (getListConfig f).1 (encodeBlocks ds1)) =
        ((getListConfig f).1, encodeBlocks ds1) ∧
      BucketInv (updateListBlock f (getListConfig f).1 (encodeBlocks ds1)) ds1 ∧
      ∀ d ∈ ds1, storedItem (updateListBlock f (getListConfig f).1 (encodeBlocks ds1)) d =
        storedItem f d := by
  have hcfg : getListConfig (updateListBlock f (getListConfig f).1 (encodeBlocks ds1)) =
      ((getListConfig f).1, encodeBlocks ds1) :=
    getListConfig_updateListBlock f _ _ (getListConfig_fst_ge f) (getListConfig_fst_lt f)
      (lt_of_le_of_lt (encodeBlocks_sublist_length_le hsub) h.index_length_lt)
      (encodeBlocks_noEnd ds1)
  have hmem : ∀ d ∈ ds1, d ∈ ds := fun d hd => hsub.subset hd
  have hkey : ∀ d ∈ ds1,
      storedKey (updateListBlock f (getListConfig f).1 (encodeBlocks ds1)) d = storedKey f d :=
    fun d hd => storedKey_updateListBlock f _ _ d (h.inside d (hmem d hd)).1
      (h.inside d (hmem d hd)).2
  have hdata : ∀ d ∈ ds1,
      storedData (updateListBlock f (getListConfig f).1 (encodeBlocks ds1)) d =
        storedData f d :=
    fun d hd => storedData_updateListBlock f _ _ d (h.inside d (hmem d hd)).1
      (h.inside d (hmem d hd)).2
  refine ⟨hcfg, ?_, ?_⟩
  · refine ⟨by rw [hcfg], ?_, ?_, ?_, ?_, ?_⟩
    · intro d hd
      rw [hcfg]
      exact h.inside d (hmem d hd)
    · intro d hd
      have := length_updateListBlock f (getListConfig f).1 (encodeBlocks ds1)
      have := h.stored d (hmem d hd)
      omega
    · exact fun d hd => h.nonempty d (hmem d hd)
    · intro d hd
      rw [pullKey_eq_storedKey, hkey d hd]
      exact h.fingerprint d (hmem d hd)
    · exact h.disjoint.sublist hsub
  · intro d hd
    unfold storedItem
    rw [hkey d hd, hdata d hd]

/-! ## Point lookup under the invariants -/

theorem BucketInv.getOneStep_eq {f : File} {ds : List block} (h : BucketInv f ds)
    (key : List Nat) (rs : List Nat × List Nat) : ∀ d ∈ ds,
    (getOneStep f key rs d).1 =
      if storedKey f d = key then (storedKey f d, storedData f d) else rs := by
  intro d hd
  have hp := pullData_of_stored f d (h.stored d hd)
  have hk := h.keyMatches_iff key d hd
  unfold keyMatches at hk
  unfold getOneStep
  rw [hp]
  by_cases hs : storedKey f d = key
  · have := hk.2 hs
    rw [if_pos ⟨this.1, this.2.1, this.2.2.1, hs⟩, if_pos hs]
  · rw [if_neg (fun hc => hs hc.2.2.2), if_neg hs]

theorem foldl_getOne_absent (f : File) (key : List Nat) (l : List block)
    (rs : List Nat × List Nat)
    (hstep : ∀ d ∈ l, ∀ r, (getOneStep f key r d).1 =
      if storedKey f d = key then (storedKey f d, storedData f d) else r)
    (habs : ∀ d ∈ l, storedKey f d ≠ key) :
    l.foldl (fun rs d => (getOneStep f key rs d).1) rs = rs := by
  induction l generalizing rs with
  | nil => rfl
  | cons d ds ih =>
    rw [List.foldl_cons, hstep d (by simp) rs, if_neg (habs d (by simp))]
    exact ih rs (fun x hx => hstep x (List.mem_cons_of_mem _ hx))
      (fun x hx => habs x (List.mem_cons_of_mem _ hx))

/-- A key no live descriptor stores is not found. -/
theorem BucketInv.get_absent {f : File} {ds : List block} (h : BucketInv f ds)
    (key : List Nat) (habs : ∀ d ∈ ds, storedKey f d ≠ key) :
    Bucket.Get f key = ([], []) := by
  unfold Bucket.Get
  rw [h.index, getOneData_encodeBlocks f key ds h.fits]
  exact foldl_getOne_absent f key ds _ (fun d hd r => h.getOneStep_eq key r d hd) habs

/-- The last live descriptor that stores the key decides what `Get` returns. -/
theorem BucketInv.get_last {f : File} {pre post : List block} {d : block}
    (h : BucketInv f (pre ++ d :: post)) (key : List Nat) (hd : storedKey f d = key)
    (hpost : ∀ x ∈ post, storedKey f x ≠ key) :
    Bucket.Get f key = (key, storedData f d) := by
  unfold Bucket.Get
  rw [h.index, getOneData_encodeBlocks f key _ h.fits, List.foldl_append, List.foldl_cons]
  rw [h.getOneStep_eq key _ d (by simp), if_pos hd, hd]
  exact foldl_getOne_absent f key post _
    (fun x hx r => h.getOneStep_eq key r x (by simp [hx])) hpost

/-! ## Delete -/

theorem BucketInv.delete_eq {f : File} {ds : List block} (h : BucketInv f ds)
    (key : List Nat) :
    Bucket.Delete f key = updateListBlock f (getListConfig f).1
      (encodeBlocks (ds.filter (fun d => !decide (storedKey f d = key)))) := by
  unfold Bucket.Delete deleteOneData
  rw [h.index, getNewListNotContainKey_encodeBlocks f key false ds h.fits]
  simp only
  congr 2
  apply List.filter_congr
  intro d hd
  have := h.keyMatches_iff key d hd
  by_cases hs : storedKey f d = key
  · simp [hs, this.2 hs]
  · simp [hs, this.not.2 hs]

/-- C2. In a bucket that satisfies the invariants, `Get(key)` right after `Delete(key)`
returns an empty key and empty data, for every key (stored in the bucket or not). -/
theorem get_after_delete (f : File) (ds : List block) (key : List Nat)
    (h : BucketInv f ds) :
    Bucket.Get (Bucket.Delete f key) key = ([], []) := by
  rw [h.delete_eq key]
  have hsub : (ds.filter (fun d => !decide (storedKey f d = key))).Sublist ds :=
    List.filter_sublist _
  obtain ⟨_, hinv, hitem⟩ := h.rewrite_sublist hsub
  apply hinv.get_absent key
  intro d hd
  have hk : storedKey (updateListBlock f (getListConfig f).1
      (encodeBlocks (ds.filter (fun d => !decide (storedKey f d = key))))) d =
      storedKey f d := congrArg Item.Key (hitem d hd)
  rw [hk]
  have := (List.mem_filter.1 hd).2
  simpa using this

/-! ## DeleteTo -/

theorem deleteToFold_append (f : File) (key : List Nat) (xs ys : List block) :
    ∀ (i : Nat) (st : DeleteToScan),
    deleteToFold f key (xs ++ ys) i st =
      deleteToFold f key ys (i + (encodeBlocks xs).length) (deleteToFold f key xs i st) := by
  induction xs with
  | nil => intro i st; simp [deleteToFold, encodeBlocks]
  | cons d ds ih =>
    intro i st
    rw [List.cons_append, deleteToFold, ih, deleteToFold, encodeBlocks, List.length_append,
      Nat.add_assoc]

theorem deleteToFold_noMatch (f : File) (key : List Nat) (xs : List block)
    (h : ∀ x ∈ xs, ¬ keyMatches f key x) : ∀ (i : Nat) (st : DeleteToScan),
    (deleteToFold f key xs i st).thisFoundIndex = st.thisFoundIndex ∧
      (deleteToFold f key xs i st).thisFoundFinishIndex = st.thisFoundFinishIndex ∧
      (deleteToFold f key xs i st).lastFoundBlockInfo = st.lastFoundBlockInfo := by
  induction xs with
  | nil => intro i st; simp [deleteToFold]
  | cons d ds ih =>
    intro i st
    rw [deleteToFold]
    have hd := h d (by simp)
    obtain ⟨h1, h2, h3⟩ := ih (fun x hx => h x (List.mem_cons_of_mem _ hx))
      (i + (pushBlockToData [] d).length)
      (deleteToStep f key (i + (pushBlockToData [] d).length - 1, st) d).1.2
    rw [h1, h2, h3]
    simp [deleteToStep, hd]

theorem deleteToFold_match (f : File) (key : List Nat) (d : block)
    (h : keyMatches f key d) (i : Nat) (st : DeleteToScan) :
    (deleteToFold f key [d] i st).thisFoundIndex = st.blockControlIndexBefore + 1 ∧
      (deleteToFold f key [d] i st).thisFoundFinishIndex = i + (pushBlockToData [] d).length ∧
      (deleteToFold f key [d] i st).lastFoundBlockInfo = d := by
  have hpos := pushBlockToData_length_pos d
  simp only [deleteToFold, deleteToStep, h, if_true, and_true, true_and]
  omega

/-- The scan of `deleteToData` over the encoding of `pre ++ d :: post`, where `d` is the
last descriptor that matches the key. -/
theorem deleteToDataLoop_last_match (f : File) (key : List Nat) (pre post : List block)
    (d : block) (hfit : ∀ x ∈ pre ++ d :: post, x.Fits) (hd : keyMatches f key d)
    (hpost : ∀ x ∈ post, ¬ keyMatches f key x) (st0 : DeleteToScan) :
    (deleteToDataLoop f key (encodeBlocks (pre ++ d :: post)) 0 emptyBlock [] st0).thisFoundIndex
        ≠ 0 ∧
      (deleteToDataLoop f key (encodeBlocks (pre ++ d :: post)) 0 emptyBlock []
        st0).thisFoundFinishIndex = (encodeBlocks (pre ++ [d])).length ∧
      (deleteToDataLoop f key (encodeBlocks (pre ++ d :: post)) 0 emptyBlock []
        st0).lastFoundBlockInfo = d := by
  rw [deleteToDataLoop_eq_scanLoop, scanLoop_deleteTo_encodeBlocks f key _ hfit]
  have e : pre ++ d :: post = pre ++ ([d] ++ post) := by simp
  rw [e, deleteToFold_append, deleteToFold_append]
  obtain ⟨h1, h2, h3⟩ := deleteToFold_noMatch f key post hpost
    (0 + (encodeBlocks pre).length + (encodeBlocks [d]).length)
    (deleteToFold f key [d] (0 + (encodeBlocks pre).length) (deleteToFold f key pre 0 st0))
  obtain ⟨g1, g2, g3⟩ := deleteToFold_match f key d hd (0 + (encodeBlocks pre).length)
    (deleteToFold f key pre 0 st0)
  rw [h1, h2, h3, g1, g2, g3]
  refine ⟨by omega, ?_, rfl⟩
  rw [encodeBlocks_append, encodeBlocks_singleton, List.length_append]
  omega

theorem sumBytes_nil : sumBytes [] = 0 := rfl

/-- C9. In a bucket that satisfies the invariants, let `d` be the last descriptor of the
index whose stored key is `key`, and let the byte sum of `key` be non-zero. After
`DeleteTo(key, true)` the index offset is unchanged, the index consists of exactly the
descriptors that followed `d`, in order, with their stored entries unchanged, the
invariants hold again, and `List` shows exactly the entries after the match. -/
theorem deleteTo_including_match (f : File) (pre post : List block) (d : block)
    (key : List Nat) (h : BucketInv f (pre ++ d :: post)) (hd : storedKey f d = key)
    (hpost : ∀ x ∈ post, storedKey f x ≠ key) (hsum : sumBytes key ≠ 0) :
    getListConfig (Bucket.DeleteTo f key true) = ((getListConfig f).1, encodeBlocks post) ∧
      BucketInv (Bucket.DeleteTo f key true) post ∧
      (∀ x ∈ post, storedItem (Bucket.DeleteTo f key true) x = storedItem f x) ∧
      ∀ limit, limit < 256 →
        Bucket.List (Bucket.DeleteTo f key true) limit = (post.take limit).map (storedItem f) := by
  have hdm : d ∈ pre ++ d :: post := by simp
  have hkm : keyMatches f key d := (h.keyMatches_iff key d hdm).2 hd
  have hpm : ∀ x ∈ post, ¬ keyMatches f key x := fun x hx =>
    (h.keyMatches_iff key x (by simp [hx])).not.2 (hpost x hx)
  obtain ⟨s1, s2, s3⟩ := deleteToDataLoop_last_match f key pre post d h.fits hkm hpm
    { thisFoundIndex := 0, thisFoundFinishIndex := 0, lastFoundBlockInfo := emptyBlock,
      blockControlIndexBefore := 0 }
  have hstart : d.start ≠ 0 := by
    have := (h.inside d hdm).1
    simp only [cFirstSize] at this
    omega
  have hsk : d.sizeKey ≠ 0 := by
    intro h0
    have hl : (storedKey f d).length = d.sizeKey := readAt_length _ _ _
    rw [hd, h0] at hl
    rw [List.length_eq_zero.1 hl] at hsum
    exact hsum sumBytes_nil
  have hsumKey : d.sumKey ≠ 0 := by rw [hkm.2.1]; exact hsum
  have hsumMd5 : d.sumMd5 ≠ 0 := by
    rw [hkm.2.2.1]
    have := (sumMd5_bounds key).1
    omega
  have heq : Bucket.DeleteTo f key true =
      updateListBlock f (getListConfig f).1 (encodeBlocks post) := by
    unfold Bucket.DeleteTo deleteToData
    rw [h.index]
    simp only
    rw [if_neg (by rw [s3]; tauto), if_pos trivial, s2]
    congr 1
    have e : encodeBlocks (pre ++ d :: post) =
        encodeBlocks (pre ++ [d]) ++ encodeBlocks post := by
      rw [← encodeBlocks_append]; simp
    rw [e, List.drop_left]
  have hsub : post.Sublist (pre ++ d :: post) :=
    (List.sublist_cons_self d post).trans (List.sublist_append_right pre (d :: post))
  obtain ⟨r1, r2, r3⟩ := h.rewrite_sublist hsub
  rw [heq]
  refine ⟨r1, r2, r3, ?_⟩
  intro limit hl
  rw [(r2.list_firstEntries limit hl).1]
  apply List.map_congr_left
  intro x hx
  exact r3 x (List.mem_of_mem_take hx)

theorem deleteToStep_control (f : File) (key : List Nat) (i : Nat) (st : DeleteToScan)
    (d : block) : (deleteToStep f key (i, st) d).1.2.blockControlIndexBefore = i := by
  unfold deleteToStep
  split_ifs <;> rfl

theorem deleteToFold_control (f : File) (key : List Nat) (xs : List block) (hxs : xs ≠ []) :
    ∀ (i : Nat) (st : DeleteToScan),
    (deleteToFold f key xs i st).blockControlIndexBefore = i + (encodeBlocks xs).length - 1 := by
  induction xs with
  | nil => exact absurd rfl hxs
  | cons d ds ih =>
    intro i st
    rw [deleteToFold]
    by_cases hds : ds = []
    · subst hds
      simp only [deleteToFold, encodeBlocks, List.append_nil]
      exact deleteToStep_control f key _ st d
    · rw [ih hds, encodeBlocks, List.length_append]
      have := pushBlockToData_length_pos d
      omega

/-- The scan of `deleteToData` when the last match `d` is not the first descriptor:
`thisFoundIndex` is the stream index of the first byte of `d`. -/
theorem deleteToDataLoop_match_later (f : File) (key : List Nat) (pre post : List block)
    (d : block) (hpre : pre ≠ []) (hfit : ∀ x ∈ pre ++ d :: post, x.Fits)
    (hd : keyMatches f key d) (hpost : ∀ x ∈ post, ¬ keyMatches f key x) (st0 : DeleteToScan) :
    (deleteToDataLoop f key (encodeBlocks (pre ++ d :: post)) 0 emptyBlock [] st0).thisFoundIndex
      = (encodeBlocks pre).length := by
  rw [deleteToDataLoop_eq_scanLoop, scanLoop_deleteTo_encodeBlocks f key _ hfit]
  have e : pre ++ d :: post = pre ++ ([d] ++ post) := by simp
  rw [e, deleteToFold_append, deleteToFold_append]
  obtain ⟨h1, _, _⟩ := deleteToFold_noMatch f key post hpost
    (0 + (encodeBlocks pre).length + (encodeBlocks [d]).length)
    (deleteToFold f key [d] (0 + (encodeBlocks pre).length) (deleteToFold f key pre 0 st0))
  obtain ⟨g1, _, _⟩ := deleteToFold_match f key d hd (0 + (encodeBlocks pre).length)
    (deleteToFold f key pre 0 st0)
  rw [h1, g1, deleteToFold_control f key pre hpre]
  have hlen : 5 ≤ (encodeBlocks pre).length := by
    cases pre with
    | nil => exact absurd rfl hpre
    | cons x xs =>
      rw [encodeBlocks, List.length_append]
      have := pushBlockToData_length_pos x
      omega
  omega

/-- With the match kept, `DeleteTo` works when the last descriptor that stores the key is
not the first descriptor of the index: the index becomes that descriptor and the later
ones, and `Get` still finds the key. -/
theorem BucketInv.deleteTo_keep_later {f : File} {pre post : List block} {d : block}
    (h : BucketInv f (pre ++ d :: post)) (key : List Nat) (hpre : pre ≠ [])
    (hd : storedKey f d = key) (hpost : ∀ x ∈ post, storedKey f x ≠ key)
    (hsum : sumBytes key ≠ 0) :
    getListConfig (Bucket.DeleteTo f key false) =
        ((getListConfig f).1, encodeBlocks (d :: post)) ∧
      BucketInv (Bucket.DeleteTo f key false) (d :: post) ∧
      Bucket.Get (Bucket.DeleteTo f key false) key = (key, storedData f d) := by
  have hdm : d ∈ pre ++ d :: post := by simp
  have hkm : keyMatches f key d := (h.keyMatches_iff key d hdm).2 hd
  have hpm : ∀ x ∈ post, ¬ keyMatches f key x := fun x hx =>
    (h.keyMatches_iff key x (by simp [hx])).not.2 (hpost x hx)
  obtain ⟨_, _, s3⟩ := deleteToDataLoop_last_match f key pre post d h.fits hkm hpm
    { thisFoundIndex := 0, thisFoundFinishIndex := 0, lastFoundBlockInfo := emptyBlock,
      blockControlIndexBefore := 0 }
  have s1 := deleteToDataLoop_match_later f key pre post d hpre h.fits hkm hpm
    { thisFoundIndex := 0, thisFoundFinishIndex := 0, lastFoundBlockInfo := emptyBlock,
      blockControlIndexBefore := 0 }
  have hlen : 5 ≤ (encodeBlocks pre).length := by
    cases pre with
    | nil => exact absurd rfl hpre
    | cons x xs =>
      rw [encodeBlocks, List.length_append]
      have := pushBlockToData_length_pos x
      omega
  have hstart : d.start ≠ 0 := by
    have := (h.inside d hdm).1
    simp only [cFirstSize] at this
    omega
  have hsk : d.sizeKey ≠ 0 := by
    intro h0
    have hl : (storedKey f d).length = d.sizeKey := readAt_length _ _ _
    rw [hd, h0] at hl
    rw [List.length_eq_zero.1 hl] at hsum
    exact hsum sumBytes_nil
  have hsumKey : d.sumKey ≠ 0 := by rw [hkm.2.1]; exact hsum
  have hsumMd5 : d.sumMd5 ≠ 0 := by
    rw [hkm.2.2.1]
    have := (sumMd5_bounds key).1
    omega
  have heq : Bucket.DeleteTo f key false =
      updateListBlock f (getListConfig f).1 (encodeBlocks (d :: post)) := by
    unfold Bucket.DeleteTo deleteToData
    rw [h.index]
    simp only
    rw [if_neg (by rw [s3, s1]; omega), if_neg Bool.false_ne_true, s1]
    congr 1
    rw [encodeBlocks_append, List.drop_left]
  have hsub : (d :: post).Sublist (pre ++ d :: post) :=
    List.sublist_append_right pre (d :: post)
  obtain ⟨r1, r2, r3⟩ := h.rewrite_sublist hsub
  rw [heq]
  refine ⟨r1, r2, ?_⟩
  have hk2 : storedKey (updateListBlock f (getListConfig f).1 (encodeBlocks (d :: post))) d =
      key := by
    rw [← hd]; exact congrArg Item.Key (r3 d (by simp))
  have hd2 : storedData (updateListBlock f (getListConfig f).1 (encodeBlocks (d :: post))) d =
      storedData f d := congrArg Item.Data (r3 d (by simp))
  have r2' : BucketInv (updateListBlock f (getListConfig f).1 (encodeBlocks (d :: post)))
      ([] ++ d :: post) := r2
  rw [r2'.get_last key hk2 (fun x hx => by
    have e : storedKey (updateListBlock f (getListConfig f).1 (encodeBlocks (d :: post))) x =
        storedKey f x := congrArg Item.Key (r3 x (by simp [hx]))
    rw [e]; exact hpost x hx), hd2]

/-! ## Free-space planner: facts -/

theorem mapGet_cons {κ ν : Type} [DecidableEq κ] (zero : ν) (k1 : κ) (v1 : ν)
    (rest : List (κ × ν)) (k : κ) :
    mapGet zero ((k1, v1) :: rest) k = if k1 = k then v1 else mapGet zero rest k := by
  rw [mapGet]

theorem foldl_mapSet_eq (l : List block) : ∀ m : List (Nat × Nat),
    l.foldl (fun m b => mapSet m b.start (b.sizeKey + b.sizeData)) m =
      (l.reverse.map (fun b => (b.start, b.sizeKey + b.sizeData))) ++ m := by
  induction l with
  | nil => intro m; rfl
  | cons d ds ih =>
    intro m
    rw [List.foldl_cons, ih]
    simp [mapSet]

theorem mapGet_map_of_mem (l : List block) (d : block) (hd : d ∈ l)
    (hinj : ∀ x ∈ l, ∀ y ∈ l, x.start = y.start → x = y) :
    mapGet 0 (l.map (fun b => (b.start, b.sizeKey + b.sizeData))) d.start =
      d.sizeKey + d.sizeData := by
  induction l with
  | nil => simp at hd
  | cons x xs ih =>
    rw [List.map_cons, mapGet_cons]
    by_cases hx : x.start = d.start
    · rw [if_pos hx, hinj x (by simp) d hd hx]
    · rw [if_neg hx]
      rcases List.mem_cons.1 hd with h | h
      · exact absurd (by rw [h]) hx
      · exact ih h (fun a ha b hb => hinj a (List.mem_cons_of_mem _ ha) b
          (List.mem_cons_of_mem _ hb))

theorem Layout.start_ne {S : Nat} {ds : List block} (h : Layout S ds) :
    ds.Pairwise (fun a b => a.start ≠ b.start) := by
  refine h.2.imp_of_mem ?_
  intro a b ha hb hab
  have h1 := (h.1 a ha).2.2
  have h2 := (h.1 b hb).2.2
  unfold block.Disjoint at hab
  omega

theorem Layout.start_inj {S : Nat} {ds : List block} (h : Layout S ds) :
    ∀ x ∈ ds, ∀ y ∈ ds, x.start = y.start → x = y := by
  have hp : ds.Pairwise (fun a b => a.start = b.start → a = b) :=
    h.start_ne.imp (fun hne he => absurd he hne)
  have hsym : Symmetric (fun a b : block => a.start = b.start → a = b) :=
    fun a b hab he => (hab he.symm).symm
  exact List.Pairwise.forall_of_forall hsym (fun _ _ _ => rfl) hp

theorem Layout.disjoint_of_ne {S : Nat} {ds : List block} (h : Layout S ds) :
    ∀ x ∈ ds, ∀ y ∈ ds, x = y ∨ x.Disjoint y := by
  have hp : ds.Pairwise (fun a b => a = b ∨ a.Disjoint b) := h.2.imp (fun hd => Or.inr hd)
  have hsym : Symmetric (fun a b : block => a = b ∨ a.Disjoint b) := by
    intro a b hab
    rcases hab with h1 | h1
    · exact Or.inl h1.symm
    · exact Or.inr (Or.symm h1)
  exact List.Pairwise.forall_of_forall hsym (fun _ _ => Or.inl rfl) hp

theorem Layout.mapGet {S : Nat} {ds : List block} (h : Layout S ds) (d : block)
    (hd : d ∈ ds) :
    mapGet 0 (ds.foldl (fun m b => mapSet m b.start (b.sizeKey + b.sizeData)) []) d.start =
      d.sizeKey + d.sizeData := by
  rw [foldl_mapSet_eq, List.append_nil]
  apply mapGet_map_of_mem _ d (List.mem_reverse.2 hd)
  intro x hx y hy
  exact h.start_inj x (List.mem_reverse.1 hx) y (List.mem_reverse.1 hy)

theorem getListSpaceSweep_cons (m : List (Nat × Nat)) (start : Nat) (rest : List Nat)
    (cur : Nat) (acc : List block) :
    getListSpaceSweep m (start :: rest) cur acc =
      getListSpaceSweep m rest (start + mapGet 0 m start)
        (if cur < start then
          acc ++ [{ start := cur, sizeKey := 0, sumKey := 0, sumMd5 := 0,
                    sizeData := start - cur }]
         else acc) := by
  rw [getListSpaceSweep]

/-- The sweep of `getListSpace`: every gap it emits is an interior gap, and it ends behind
every live payload. -/
theorem getListSpaceSweep_spec (S : Nat) (ds : List block) (h : Layout S ds)
    (l : List Nat) :
    ∀ (cur : Nat) (acc : List block),
      l.Pairwise (fun a b => a < b) →
      (∀ s ∈ l, ∃ d ∈ ds, d.start = s) →
      (∀ s ∈ l, cur ≤ s) →
      (∀ d ∈ ds, d.stop ≤ cur ∨ d.start ∈ l) →
      cFirstSize ≤ cur → cur ≤ S →
      (∀ g ∈ acc, GapOk S ds g ∧ g.sumKey = 0) →
      (∀ g ∈ (getListSpaceSweep
          (ds.foldl (fun m b => mapSet m b.start (b.sizeKey + b.sizeData)) []) l cur acc).2,
          GapOk S ds g ∧ g.sumKey = 0) ∧
        (∀ d ∈ ds, d.stop ≤ (getListSpaceSweep
          (ds.foldl (fun m b => mapSet m b.start (b.sizeKey + b.sizeData)) []) l cur acc).1) ∧
        cFirstSize ≤ (getListSpaceSweep
          (ds.foldl (fun m b => mapSet m b.start (b.sizeKey + b.sizeData)) []) l cur acc).1 ∧
        (getListSpaceSweep
          (ds.foldl (fun m b => mapSet m b.start (b.sizeKey + b.sizeData)) []) l cur acc).1 ≤ S := by
  induction l with
  | nil =>
    intro cur acc _ _ _ hcov h128 hS hacc
    simp only [getListSpaceSweep]
    refine ⟨hacc, ?_, h128, hS⟩
    intro d hd
    rcases hcov d hd with h1 | h1
    · exact h1
    · simp at h1
  | cons s rest ih =>
    intro cur acc hsorted hsrc hle hcov h128 hS hacc
    rw [getListSpaceSweep_cons]
    obtain ⟨ds0, hds0, hs0⟩ := hsrc s (by simp)
    have hmg := h.mapGet ds0 hds0
    rw [hs0] at hmg
    have hcs : cur ≤ s := hle s (by simp)
    have hlay0 := h.1 ds0 hds0
    have hstop0 : ds0.stop = s + (ds0.sizeKey + ds0.sizeData) := by
      unfold block.stop; omega
    rw [hmg, ← hstop0]
    have hsorted' := List.pairwise_cons.1 hsorted
    apply ih
    · exact hsorted'.2
    · exact fun x hx => hsrc x (List.mem_cons_of_mem _ hx)
    · intro s1 hs1
      obtain ⟨d1, hd1, hd1s⟩ := hsrc s1 (List.mem_cons_of_mem _ hs1)
      have hlt : s < s1 := hsorted'.1 s1 hs1
      have hlay1 := h.1 d1 hd1
      rcases h.disjoint_of_ne ds0 hds0 d1 hd1 with he | hdj
      · rw [he] at hs0; omega
      · unfold block.Disjoint at hdj
        unfold block.stop
        omega
    · intro d hd
      rcases hcov d hd with h1 | h1
      · left; rw [hstop0]; omega
      · rcases List.mem_cons.1 h1 with h2 | h2
        · left
          have : d = ds0 := h.start_inj d hd ds0 hds0 (by rw [h2, hs0])
          rw [this]
        · right; exact h2
    · rw [hstop0]; omega
    · exact hlay0.2.1
    · intro g hg
      split_ifs at hg with hlt
      · rcases List.mem_append.1 hg with h1 | h1
        · exact hacc g h1
        · rw [List.mem_singleton] at h1
          subst h1
          refine ⟨⟨h128, by simp only; omega, ?_, Or.inl ⟨rfl, ?_⟩⟩, rfl⟩
          · have := hlay0.2.1
            simp only
            rw [hstop0] at this
            omega
          · intro d hd
            rcases hcov d hd with h2 | h2
            · left; exact h2
            · right
              simp only
              rcases List.mem_cons.1 h2 with h3 | h3
              · omega
              · have := hsorted'.1 _ h3
                omega
      · exact hacc g hg

theorem getListSpace_spec (S : Nat) (ds : List block) (h : Layout S ds)
    (h128 : cFirstSize ≤ S) (hS : S < uintSize) :
    ∀ g ∈ getListSpace S ds, GapOk S ds g := by
  have hperm := List.perm_insertionSort (fun a b : Nat => a ≤ b) (ds.map (fun b => b.start))
  have hsorted := @List.sorted_insertionSort Nat (fun a b => a ≤ b) _ _ _
    (ds.map (fun b => b.start))
  have hnodup : (ds.map (fun b => b.start)).Nodup := by
    unfold List.Nodup
    rw [List.pairwise_map]
    exact h.start_ne
  have hnodup' := hperm.nodup_iff.2 hnodup
  have hlt : ((ds.map (fun b => b.start)).insertionSort (fun a b => a ≤ b)).Pairwise
      (fun a b => a < b) := by
    have hboth := List.Pairwise.and hsorted hnodup'
    exact hboth.imp (fun hab => lt_of_le_of_ne hab.1 hab.2)
  have hsw := getListSpaceSweep_spec S ds h
    ((ds.map (fun b => b.start)).insertionSort (fun a b => a ≤ b)) cFirstSize [] hlt
    (by
      intro s hs
      have := hperm.mem_iff.1 hs
      obtain ⟨d, hd, hds⟩ := List.mem_map.1 this
      exact ⟨d, hd, hds⟩)
    (by
      intro s hs
      have := hperm.mem_iff.1 hs
      obtain ⟨d, hd, hds⟩ := List.mem_map.1 this
      rw [← hds]
      exact (h.1 d hd).1)
    (by
      intro d hd
      right
      exact hperm.mem_iff.2 (List.mem_map.2 ⟨d, hd, rfl⟩))
    (le_refl _) h128 (by simp)
  obtain ⟨hg, hcov, hc128, hcS⟩ := hsw
  intro g hgm
  unfold getListSpace at hgm
  simp only at hgm
  generalize hsweq : getListSpaceSweep
    (ds.foldl (fun m b => mapSet m b.start (b.sizeKey + b.sizeData)) [])
    ((ds.map (fun b => b.start)).insertionSort (fun a b => a ≤ b)) cFirstSize [] = sw
    at hgm hg hcov hc128 hcS
  have hlast : (S + uintSize - sw.1 % uintSize) % uintSize = S - sw.1 := by
    rw [Nat.mod_eq_of_lt (lt_of_le_of_lt hcS hS)]
    have : S + uintSize - sw.1 = (S - sw.1) + uintSize := by omega
    rw [this, Nat.add_mod_right, Nat.mod_eq_of_lt (by omega)]
  rw [hlast] at hgm
  split_ifs at hgm with hpos
  · rcases List.mem_append.1 hgm with h1 | h1
    · exact (hg g h1).1
    · rw [List.mem_singleton] at h1
      subst h1
      refine ⟨hc128, hpos, by simp only; omega, Or.inr ⟨rfl, by simp only; omega, hcov⟩⟩
  · exact (hg g hgm).1

/-- The loop of `getPerfectSpace` ends either where it started or on an eligible gap. -/
theorem getPerfectSpace_fold (S blockSize : Nat) (ds : List block) (gaps : List block)
    (hg : ∀ g ∈ gaps, GapOk S ds g) : ∀ st : PerfectScan,
    (st = { perfectFreeSize := 0, startBlock := S, isLastSpace := false } ∨
      ∃ g, GapOk S ds g ∧ (g.sizeData ≥ blockSize ∨ g.sumKey = 1) ∧
        st = { perfectFreeSize := g.sizeData, startBlock := g.start,
               isLastSpace := decide (g.sumKey = 1) }) →
    (gaps.foldl (getPerfectSpaceStep S blockSize) st =
        { perfectFreeSize := 0, startBlock := S, isLastSpace := false } ∨
      ∃ g, GapOk S ds g ∧ (g.sizeData ≥ blockSize ∨ g.sumKey = 1) ∧
        gaps.foldl (getPerfectSpaceStep S blockSize) st =
          { perfectFreeSize := g.sizeData, startBlock := g.start,
            isLastSpace := decide (g.sumKey = 1) }) := by
  induction gaps with
  | nil => intro st hst; exact hst
  | cons g gs ih =>
    intro st hst
    rw [List.foldl_cons]
    apply ih (fun x hx => hg x (List.mem_cons_of_mem _ hx))
    unfold getPerfectSpaceStep
    split_ifs with h1 h2
    · right
      exact ⟨g, hg g (by simp), h1, rfl⟩
    · exact hst
    · exact hst

/-- Where `getPerfectSpace` puts a block of positive size: inside `[cFirstSize, startList)`,
clear of every live payload, with every live payload below the new index offset. -/
theorem getPerfectSpace_spec (S blockSize : Nat) (ds : List block) (h : Layout S ds)
    (h128 : cFirstSize ≤ S) (hS : S < uintSize) (hb : 0 < blockSize) :
    cFirstSize ≤ (getPerfectSpace (getListSpace S ds) S blockSize).2 ∧
      (getPerfectSpace (getListSpace S ds) S blockSize).2 + blockSize ≤
        (getPerfectSpace (getListSpace S ds) S blockSize).1 ∧
      (getPerfectSpace (getListSpace S ds) S blockSize).1 ≤ S + blockSize ∧
      (∀ d ∈ ds, d.stop ≤ (getPerfectSpace (getListSpace S ds) S blockSize).1) ∧
      (∀ d ∈ ds, d.stop ≤ (getPerfectSpace (getListSpace S ds) S blockSize).2 ∨
        (getPerfectSpace (getListSpace S ds) S blockSize).2 + blockSize ≤ d.start) := by
  have hfold := getPerfectSpace_fold S blockSize ds (getListSpace S ds)
    (getListSpace_spec S ds h h128 hS)
    { perfectFreeSize := 0, startBlock := S, isLastSpace := false } (Or.inl rfl)
  have hstop : ∀ d ∈ ds, d.stop ≤ S := fun d hd => (h.1 d hd).2.1
  unfold getPerfectSpace
  simp only
  rcases hfold with h0 | ⟨g, hgok, helig, hst⟩
  · rw [h0]
    simp only [Bool.false_eq_true, if_false]
    rw [if_neg (by omega)]
    refine ⟨h128, le_refl _, le_refl _, ?_, ?_⟩
    · intro d hd; have := hstop d hd; omega
    · intro d hd; left; exact hstop d hd
  · rw [hst]
    simp only [decide_eq_true_eq]
    obtain ⟨g128, gpos, gend, gkind⟩ := hgok
    rcases gkind with ⟨gk, gdis⟩ | ⟨gk, gS, gall⟩
    · have hsz : g.sizeData ≥ blockSize := by
        rcases helig with h1 | h1
        · exact h1
        · omega
      rw [if_neg (by omega), if_pos hsz]
      refine ⟨g128, by omega, by omega, ?_, ?_⟩
      · intro d hd; have := hstop d hd; omega
      · intro d hd
        rcases gdis d hd with h1 | h1
        · left; exact h1
        · right; omega
    · rw [if_pos gk]
      refine ⟨g128, le_refl _, by omega, ?_, ?_⟩
      · intro d hd; have := gall d hd; omega
      · intro d hd; left; exact gall d hd

/-! ## Set -/

theorem readAt_writeAt_parts (f : File) (off : Nat) (a b : List Nat) :
    readAt (writeAt f off (a ++ b)) off a.length = a ∧
      readAt (writeAt f off (a ++ b)) (off + a.length) b.length = b := by
  have h := readAt_writeAt_same f off (a ++ b)
  rw [List.length_append, readAt_append] at h
  exact List.append_inj h (readAt_length _ _ _)

theorem BucketInv.layout_filter {f : File} {ds : List block} (h : BucketInv f ds)
    (p : block → Bool) : Layout (getListConfig f).1 (ds.filter p) := by
  refine ⟨?_, h.disjoint.sublist (List.filter_sublist _)⟩
  intro d hd
  have hm := (List.mem_filter.1 hd).1
  exact ⟨(h.inside d hm).1, (h.inside d hm).2, h.nonempty d hm⟩

theorem uintSize_gt : 2 ^ 63 < uintSize := by decide

/-- What `Set` leaves behind: the descriptors of the other keys, then the new descriptor
`setBlock f item`; the invariants hold again, the new descriptor stores the item, the others
store what they stored. -/
theorem BucketInv.set_spec {f : File} {ds : List block} (h : BucketInv f ds) (item : Item)
    (hk : item.Key ≠ []) (hfit : setFits f item) :
    BucketInv (Bucket.Set f item)
        (ds.filter (fun d => !decide (storedKey f d = item.Key)) ++ [setBlock f item]) ∧
      storedKey (Bucket.Set f item) (setBlock f item) = item.Key ∧
      storedData (Bucket.Set f item) (setBlock f item) = item.Data ∧
      (∀ d ∈ ds.filter (fun d => !decide (storedKey f d = item.Key)),
        storedItem (Bucket.Set f item) d = storedItem f d) ∧
      cFirstSize ≤ (setBlock f item).start ∧
      (setBlock f item).stop ≤ (getListConfig (Bucket.Set f item)).1 ∧
      (∀ d ∈ ds.filter (fun d => !decide (storedKey f d = item.Key)),
        d.Disjoint (setBlock f item)) := by
  -- the filtered descriptor list
  have hfilt : ds.filter (fun d => !decide (keyMatches f item.Key d)) =
      ds.filter (fun d => !decide (storedKey f d = item.Key)) := by
    apply List.filter_congr
    intro d hd
    have := h.keyMatches_iff item.Key d hd
    by_cases hs : storedKey f d = item.Key
    · simp [hs, this.2 hs]
    · simp [hs, this.not.2 hs]
  have hnl : getNewListNotContainKey f (getListConfig f).2 item.Key true =
      (encodeBlocks (ds.filter (fun d => !decide (storedKey f d = item.Key))),
        ds.filter (fun d => !decide (storedKey f d = item.Key))) := by
    rw [h.index, getNewListNotContainKey_encodeBlocks f item.Key true ds h.fits, hfilt]
    simp
  generalize hdsK : ds.filter (fun d => !decide (storedKey f d = item.Key)) = dsK at hnl ⊢
  have hsub : dsK.Sublist ds := by rw [← hdsK]; exact List.filter_sublist _
  have hmem : ∀ d ∈ dsK, d ∈ ds := fun d hd => hsub.subset hd
  have hlay : Layout (getListConfig f).1 dsK := by rw [← hdsK]; exact h.layout_filter _
  have hklen : 0 < item.Key.length := List.length_pos.2 hk
  have hS128 := getListConfig_fst_ge f
  have hSlt := getListConfig_fst_lt f
  unfold setFits at hfit
  have hgt := uintSize_gt
  -- placement
  have hP := getPerfectSpace_spec (getListConfig f).1 (item.Key.length + item.Data.length) dsK
    hlay hS128 hSlt (by omega)
  have hblock : setBlock f item =
      { start := (getPerfectSpace (getListSpace (getListConfig f).1 dsK) (getListConfig f).1
          (item.Key.length + item.Data.length)).2
        sizeKey := item.Key.length
        sumKey := sumBytes item.Key
        sumMd5 := sumBytes (md5 item.Key)
        sizeData := item.Data.length } := by
    unfold setBlock
    rw [hnl]
  have hset : Bucket.Set f item =
      writeAt (updateListBlock f
          (getPerfectSpace (getListSpace (getListConfig f).1 dsK) (getListConfig f).1
            (item.Key.length + item.Data.length)).1
          (encodeBlocks (dsK ++ [setBlock f item])))
        (setBlock f item).start (item.Key ++ item.Data) := by
    unfold Bucket.Set setOneData
    simp only
    rw [hnl, encodeBlocks_append, encodeBlocks_singleton, hblock]
  generalize hps : getPerfectSpace (getListSpace (getListConfig f).1 dsK) (getListConfig f).1
    (item.Key.length + item.Data.length) = ps at hP hblock hset
  obtain ⟨p1, p2, p5, p3, p4⟩ := hP
  generalize hnew : setBlock f item = new at hblock hset ⊢
  have hnstart : new.start = ps.2 := by rw [hblock]
  have hnsk : new.sizeKey = item.Key.length := by rw [hblock]
  have hnsd : new.sizeData = item.Data.length := by rw [hblock]
  have hnsum : new.sumKey = sumBytes item.Key := by rw [hblock]
  have hnmd5 : new.sumMd5 = sumBytes (md5 item.Key) := by rw [hblock]
  -- the rewritten index
  have hlenK : (encodeBlocks dsK).length ≤ (getListConfig f).2.length := by
    rw [h.index]; exact encodeBlocks_sublist_length_le hsub
  have hlenNew : (encodeBlocks (dsK ++ [new])).length ≤ (getListConfig f).2.length + 105 := by
    rw [encodeBlocks_append, encodeBlocks_singleton, List.length_append]
    have := pushBlockToData_length_le new
    omega
  generalize hf1 : updateListBlock f ps.1 (encodeBlocks (dsK ++ [new])) = f1 at hset
  have hcfg1 : getListConfig f1 = (ps.1, encodeBlocks (dsK ++ [new])) := by
    rw [← hf1]
    exact getListConfig_updateListBlock f _ _ (by omega) (by omega) (by omega)
      (encodeBlocks_noEnd _)
  have hcfg : getListConfig (Bucket.Set f item) = (ps.1, encodeBlocks (dsK ++ [new])) := by
    rw [hset, getListConfig_writeAt f1 _ _ (by omega)
      (by rw [hcfg1, List.length_append]; simp only; omega), hcfg1]
  have hlen1 : max f.length (ps.1 + (encodeBlocks (dsK ++ [new])).length + 1) ≤ f1.length := by
    rw [← hf1]; exact length_updateListBlock f _ _
  have hlen : f1.length ≤ (Bucket.Set f item).length := by
    rw [hset]; exact length_writeAt_ge _ _ _
  -- stored bytes
  have hread : ∀ d ∈ dsK, ∀ r n, d.start ≤ r → r + n ≤ d.stop →
      readAt (Bucket.Set f item) r n = readAt f r n := by
    intro d hd r n hr hrn
    have hl := hlay.1 d hd
    have h3 := p3 d hd
    have h4 := p4 d hd
    rw [hset, readAt_writeAt_disjoint _ _ _ _ _
      (by rw [List.length_append]; omega), ← hf1]
    exact readAt_updateListBlock f _ _ _ _ (by omega) (by omega)
  have hkeyOld : ∀ d ∈ dsK, storedKey (Bucket.Set f item) d = storedKey f d := by
    intro d hd
    unfold storedKey
    exact hread d hd _ _ (le_refl _) (by unfold block.stop; omega)
  have hdataOld : ∀ d ∈ dsK, storedData (Bucket.Set f item) d = storedData f d := by
    intro d hd
    unfold storedData
    exact hread d hd _ _ (by omega) (by unfold block.stop; omega)
  have hpre := readAt_writeAt_parts f1 new.start item.Key item.Data
  have hkeyNew : storedKey (Bucket.Set f item) new = item.Key := by
    unfold storedKey
    rw [hset, hnsk]
    exact hpre.1
  have hdataNew : storedData (Bucket.Set f item) new = item.Data := by
    unfold storedData
    rw [hset, hnsk, hnsd]
    exact hpre.2
  have hdisj : ∀ d ∈ dsK, d.Disjoint new := by
    intro d hd
    have h4 := p4 d hd
    unfold block.stop at h4
    unfold block.Disjoint
    omega
  refine ⟨⟨?_, ?_, ?_, ?_, ?_, ?_⟩, hkeyNew, hdataNew, ?_, by omega, ?_, hdisj⟩
  · rw [hcfg]
  · intro d hd
    rw [hcfg]
    simp only
    rcases List.mem_append.1 hd with h1 | h1
    · have := p3 d h1
      unfold block.stop at this
      exact ⟨(hlay.1 d h1).1, this⟩
    · rw [List.mem_singleton] at h1
      subst h1
      omega
  · intro d hd
    rcases List.mem_append.1 hd with h1 | h1
    · have := h.stored d (hmem d h1)
      omega
    · rw [List.mem_singleton] at h1
      subst h1
      omega
  · intro d hd
    rcases List.mem_append.1 hd with h1 | h1
    · exact h.nonempty d (hmem d h1)
    · rw [List.mem_singleton] at h1
      subst h1
      omega
  · intro d hd
    rw [pullKey_eq_storedKey]
    rcases List.mem_append.1 hd with h1 | h1
    · rw [hkeyOld d h1]
      exact h.fingerprint d (hmem d h1)
    · rw [List.mem_singleton] at h1
      subst h1
      rw [hkeyNew]
      exact ⟨hnsum, hnmd5⟩
  · rw [List.pairwise_append]
    refine ⟨hlay.2, List.pairwise_singleton _ _, ?_⟩
    intro a ha b hb
    rw [List.mem_singleton] at hb
    subst hb
    exact hdisj a ha
  · intro d hd
    unfold storedItem
    rw [hkeyOld d hd, hdataOld d hd]
  · rw [hcfg]
    unfold block.stop
    simp only
    omega

/-- C1. In a bucket that satisfies the invariants, for every item with a non-empty key
(whatever its data, and whether or not the key was already stored), when the writes of
`Set(item)` stay below offset `2 ^ 63`, `Get(item.Key)` right after `Set(item)` returns
exactly `(item.Key, item.Data)`. -/
theorem get_after_set (f : File) (ds : List block) (item : Item) (h : BucketInv f ds)
    (hk : item.Key ≠ []) (hfit : setFits f item) :
    Bucket.Get (Bucket.Set f item) item.Key = (item.Key, item.Data) := by
  obtain ⟨hinv, hkey, hdata, hold, _, _, _⟩ := h.set_spec item hk hfit
  have hpost : ∀ x ∈ ([] : List block), storedKey (Bucket.Set f item) x ≠ item.Key := by
    intro x hx; simp at hx
  rw [hinv.get_last item.Key hkey hpost, hdata]

/-- C5. In a bucket that satisfies the invariants, with live descriptors `ds`, after
`Set(item)` (non-empty key, writes below offset `2 ^ 63`) the index is the encoding of the
descriptors of `ds` that store another key, in their previous order and with their stored
entries unchanged, followed by one new descriptor, which stores `item`; so exactly one
descriptor of the index stores `item.Key`, and it is the last one. When exactly one
descriptor of `ds` stored `item.Key`, the index has as many descriptors as before and `List`
returns as many items as before. -/
theorem set_replaces_descriptor (f : File) (ds : List block) (item : Item)
    (h : BucketInv f ds) (hk : item.Key ≠ []) (hfit : setFits f item) :
    (getListConfig (Bucket.Set f item)).2 =
        encodeBlocks (ds.filter (fun d => !decide (storedKey f d = item.Key)) ++
          [setBlock f item]) ∧
      scanBlocks (getListConfig (Bucket.Set f item)).2 =
        ds.filter (fun d => !decide (storedKey f d = item.Key)) ++ [setBlock f item] ∧
      storedItem (Bucket.Set f item) (setBlock f item) = item ∧
      (∀ d ∈ ds.filter (fun d => !decide (storedKey f d = item.Key)),
        storedKey (Bucket.Set f item) d ≠ item.Key ∧
          storedItem (Bucket.Set f item) d = storedItem f d) ∧
      (ds.filter (fun d => !decide (storedKey f d = item.Key)) ++ [setBlock f item]).countP
        (fun d => decide (storedKey (Bucket.Set f item) d = item.Key)) = 1 ∧
      (ds.countP (fun d => decide (storedKey f d = item.Key)) = 1 →
        (ds.filter (fun d => !decide (storedKey f d = item.Key)) ++ [setBlock f item]).length =
            ds.length ∧
          ∀ limit, limit < 256 →
            (Bucket.List (Bucket.Set f item) limit).length = (Bucket.List f limit).length) := by
  obtain ⟨hinv, hkey, hdata, hold, _, _, _⟩ := h.set_spec item hk hfit
  have hne : ∀ d ∈ ds.filter (fun d => !decide (storedKey f d = item.Key)),
      storedKey (Bucket.Set f item) d ≠ item.Key := by
    intro d hd
    have e : storedKey (Bucket.Set f item) d = storedKey f d := congrArg Item.Key (hold d hd)
    rw [e]
    have := (List.mem_filter.1 hd).2
    simpa using this
  have hlen : ds.countP (fun d => decide (storedKey f d = item.Key)) = 1 →
      (ds.filter (fun d => !decide (storedKey f d = item.Key)) ++ [setBlock f item]).length =
        ds.length := by
    intro hc
    have e1 := @List.length_eq_countP_add_countP block
      (fun d => decide (storedKey f d = item.Key)) ds
    rw [List.countP_eq_length_filter (fun a => decide ¬(fun d => decide (storedKey f d = item.Key)) a = true)] at e1
    have e2 : ds.filter (fun a => decide ¬(fun d => decide (storedKey f d = item.Key)) a = true) =
        ds.filter (fun d => !decide (storedKey f d = item.Key)) := by
      apply List.filter_congr
      intro d _
      by_cases hs : storedKey f d = item.Key <;> simp [hs]
    rw [e2] at e1
    rw [List.length_append, List.length_singleton]
    omega
  refine ⟨hinv.index, hinv.scanBlocks_eq, ?_, fun d hd => ⟨hne d hd, hold d hd⟩, ?_, ?_⟩
  · unfold storedItem
    rw [hkey, hdata]
  · rw [List.countP_append, List.countP_eq_zero.2 (fun d hd => by simpa using hne d hd)]
    simp [List.countP_cons, hkey]
  · intro hc
    refine ⟨hlen hc, ?_⟩
    intro limit hl
    rw [(hinv.list_firstEntries limit hl).2.1, (h.list_firstEntries limit hl).2.1,
      hlen hc]

/-! ## Sample buckets: facts -/

theorem fileK1_inv : BucketInv fileK1 blocksK1 :=
  ⟨by decide, by decide, by decide, by decide, by decide, by decide⟩

theorem fileABCD_inv : BucketInv fileABCD [blockA, blockB, blockC, blockD] :=
  ⟨by decide, by decide, by decide, by decide, by decide, by decide⟩

theorem get_after_set_witness :
    BucketInv fileK1 blocksK1 ∧ itemK1new.Key ≠ [] ∧ setFits fileK1 itemK1new ∧
      Bucket.Get (Bucket.Set fileK1 itemK1new) itemK1new.Key =
        (itemK1new.Key, itemK1new.Data) :=
  ⟨fileK1_inv, by decide, by decide,
    get_after_set fileK1 blocksK1 itemK1new fileK1_inv (by decide) (by decide)⟩

theorem get_after_delete_witness :
    BucketInv fileK1 blocksK1 ∧ Bucket.Get (Bucket.Delete fileK1 [107, 49]) [107, 49] = ([], []) :=
  ⟨fileK1_inv, get_after_delete fileK1 blocksK1 [107, 49] fileK1_inv⟩

/-- C3. Failing input: a bucket that holds `k1 -> v1`, then `SetMany([a -> 1])`. Before the
call `Get(k1)` returns `(k1, v1)`; the loop of `getNewListNotContainListKey` keeps the
descriptor of `k1`, but the function returns `nil, nil`, `setManyData` writes an index with
the new descriptor only, and `Get(k1)` returns nothing. -/
theorem setMany_drops_other_keys :
    Bucket.Get fileK1 [107, 49] = ([107, 49], [118, 49]) ∧
      (getNewListNotContainListKeyLoop fileK1 [{ Key := [97], Data := [49] }] true
        (getListConfig fileK1).2 emptyBlock [] [] [] []).2 = blocksK1 ∧
      getNewListNotContainListKey fileK1 (getListConfig fileK1).2
        [{ Key := [97], Data := [49] }] true = ([], []) ∧
      Bucket.Get (Bucket.SetMany fileK1 [{ Key := [97], Data := [49] }]) [107, 49] = ([], []) := by
  decide

/-- C4. Failing input: on an empty file, `SetMany([el -> A, fk -> B])`. The keys are distinct
but have the same length, byte sum and digest sum, and the data have the same length, so
both items get the same key in `mapBlockInsert`; both descriptors carry the offset of the
payload placed last, and `List(2)` returns `fk -> B` twice instead of the two items. -/
theorem setMany_list_fingerprint_clash :
    Bucket.List (Bucket.SetMany [] itemsCollide) 2 =
        [{ Key := [102, 107], Data := [66] }, { Key := [102, 107], Data := [66] }] ∧
      Bucket.List (Bucket.SetMany [] itemsCollide) 2 ≠ itemsCollide := by
  decide

theorem set_replaces_descriptor_witness :
    BucketInv fileK1 blocksK1 ∧ itemK1new.Key ≠ [] ∧ setFits fileK1 itemK1new ∧
      scanBlocks (getListConfig (Bucket.Set fileK1 itemK1new)).2 =
        blocksK1.filter (fun d => !decide (storedKey fileK1 d = itemK1new.Key)) ++
          [setBlock fileK1 itemK1new] :=
  ⟨fileK1_inv, by decide, by decide,
    (set_replaces_descriptor fileK1 blocksK1 itemK1new fileK1_inv (by decide) (by decide)).2.1⟩

theorem list_returns_first_entries_witness :
    BucketInv fileABCD [blockA, blockB, blockC, blockD] ∧ 2 < 256 ∧
      Bucket.List fileABCD 2 =
        ([blockA, blockB, blockC, blockD].take 2).map (storedItem fileABCD) :=
  ⟨fileABCD_inv, by decide,
    (list_returns_first_entries fileABCD [blockA, blockB, blockC, blockD] 2 fileABCD_inv
      (by decide)).1⟩

theorem listNext_drop_take_witness :
    2 < 256 ∧ 1 < uintSize ∧
      (∀ d ∈ scanBlocks (getListConfig fileABCD).2, d.AllocOk) ∧
      headerIndexLen fileABCD ≤ cAllocMax ∧
      Bucket.ListNext fileABCD 2 1 =
        ((verifiedEntries fileABCD (getListConfig fileABCD).2).drop 1).take 2 ∧
      Bucket.ListNext fileABCD 2 1 = [{ Key := [98], Data := [50] }, { Key := [99], Data := [51] }] :=
  ⟨by decide, by decide, by decide, by decide,
    (listNext_drop_take fileABCD (getListConfig fileABCD).2 2 1 (by decide) (by decide)
      (by decide) (by decide) (by decide)).2.1,
    by decide⟩

theorem findNext_from_match_witness :
    BucketInv fileABCD [blockA, blockB, blockC, blockD] ∧ 10 < 256 ∧
      Bucket.FindNext fileABCD [98] 10 true =
        (([blockB, blockC, blockD].map (storedItem fileABCD)).take 10).tail :=
  ⟨fileABCD_inv, by decide,
    ((findNext_from_match fileABCD [blockA, blockB, blockC, blockD] [98] 10 fileABCD_inv
      (by decide)).1 [blockA] blockB [blockC, blockD] rfl (by decide) (by decide)).2.1⟩

theorem deleteTo_including_match_witness :
    BucketInv fileABCD ([blockA, blockB] ++ blockC :: [blockD]) ∧
      storedKey fileABCD blockC = [99] ∧
      (∀ x ∈ [blockD], storedKey fileABCD x ≠ [99]) ∧ sumBytes [99] ≠ 0 ∧
      getListConfig (Bucket.DeleteTo fileABCD [99] true) =
        ((getListConfig fileABCD).1, encodeBlocks [blockD]) :=
  ⟨fileABCD_inv, by decide, by decide, by decide,
    (deleteTo_including_match fileABCD [blockA, blockB] [blockD] blockC [99] fileABCD_inv
      (by decide) (by decide) (by decide)).1⟩

/-- C10. Failing input: the bucket holding `a`, `b`, `c`, `d` in this order, then
`DeleteTo(a, false)`, where `a` is the first descriptor of the index. Before the call
`Get(a)` returns `(a, 1)`. `blockControlIndexBefore` starts at 0, so `thisFoundIndex` is 1
and not 0: the index is rewritten from its second byte, the first byte of the descriptor of
`a` is lost, and `Get(a)` returns nothing. -/
theorem deleteTo_keep_match_at_first :
    Bucket.Get fileABCD [97] = ([97], [49]) ∧
      (getListConfig fileABCD).2 = encodeBlocks [blockA, blockB, blockC, blockD] ∧
      (getListConfig (Bucket.DeleteTo fileABCD [97] false)).2 =
        (encodeBlocks [blockA, blockB, blockC, blockD]).drop 1 ∧
      Bucket.Get (Bucket.DeleteTo fileABCD [97] false) [97] = ([], []) := by
  decide

/-! ## Codec and stream round trips -/

/-- C17. The digit-group codec round-trips: for every `n` from 0 to `2 ^ 63` (indeed for
every `uint`), `digitsToNumber` applied to the bytes that `groupDigitsAppend` appends for
`n`, to whatever buffer, returns `n`. -/
theorem codec_roundtrip (dst : List Nat) (n : Nat) (hn : n ≤ 2 ^ 63) :
    digitsToNumber ((groupDigitsAppend dst n).drop dst.length) = n ∧
      digitsToNumber (groupDigitsAppend [] n) = n := by
  have hlt : n < uintSize := lt_of_le_of_lt hn uintSize_gt
  unfold groupDigitsAppend
  rw [List.drop_left, List.nil_append]
  exact ⟨digitsToNumber_groupDigits n hlt, digitsToNumber_groupDigits n hlt⟩

/-- C18. For every unsigned 64-bit `n`, `groupDigitsAppend` appends at least one byte, and
every byte it appends is at most 249: none of them is one of the sentinels 250..255. -/
theorem codec_bytes_below_sentinels (dst : List Nat) (n : Nat) (_hn : n < uintSize) :
    1 ≤ ((groupDigitsAppend dst n).drop dst.length).length ∧
      (∀ b ∈ (groupDigitsAppend dst n).drop dst.length, b ≤ 249) ∧
      (∀ b ∈ (groupDigitsAppend dst n).drop dst.length,
        b ≠ cStart ∧ b ≠ cSizeKey ∧ b ≠ cSumKey ∧ b ≠ cSumMd5 ∧ b ≠ cSizeData ∧ b ≠ cEnd) := by
  unfold groupDigitsAppend
  rw [List.drop_left]
  refine ⟨?_, ?_, ?_⟩
  · exact List.length_pos.2 (groupDigits_ne_nil n)
  · intro b hb
    have := groupDigits_le n b hb
    simpa [cMaxDigitGroup] using this
  · intro b hb
    have := groupDigits_le n b hb
    simp only [cMaxDigitGroup] at this
    simp only [cStart, cSizeKey, cSumKey, cSumMd5, cSizeData, cEnd]
    omega

theorem readAt_updateListBlock_header (f : File) (start : Nat) (l : List Nat) :
    readAt (updateListBlock f start l) 0
        (groupDigits start ++ [cEnd] ++ groupDigits l.length ++ [cEnd]).length =
      groupDigits start ++ [cEnd] ++ groupDigits l.length ++ [cEnd] := by
  rw [updateListBlock_eq, readAt_writeAt_same]

theorem readAt_updateListBlock_index (f : File) (start : Nat) (l : List Nat)
    (hstart : cFirstSize ≤ start) :
    readAt (updateListBlock f start l) start l.length = l := by
  have h42 := headerBytes_length_le start l.length
  rw [updateListBlock_eq]
  rw [readAt_writeAt_disjoint _ _ _ _ _ (Or.inr (by simp only [cFirstSize] at hstart; omega))]
  apply readAt_eq_of_getD
  intro i hi
  rw [getD_writeAt, if_pos ⟨by omega, by simp only [List.length_append, List.length_singleton]; omega⟩]
  rw [List.getD_append _ _ _ _ (by omega)]
  congr 1
  omega

/-- Whatever lies between the end of the header and byte 128 is not read. -/
theorem getListConfig_updateListBlock_junk (f : File) (start : Nat) (l junk : List Nat)
    (hstart : cFirstSize ≤ start) (hlt : start < uintSize) (hlen : l.length < uintSize)
    (hend : cEnd ∉ l)
    (hjunk : (groupDigits start ++ [cEnd] ++ groupDigits l.length ++ [cEnd]).length +
      junk.length ≤ cFirstSize) :
    getListConfig (writeAt (updateListBlock f start l)
        (groupDigits start ++ [cEnd] ++ groupDigits l.length ++ [cEnd]).length junk) =
      (start, l) := by
  have h42 := headerBytes_length_le start l.length
  generalize hh : groupDigits start ++ [cEnd] ++ groupDigits l.length ++ [cEnd] = hdr
    at hjunk h42
  have hsplit : cFirstSize = hdr.length + (cFirstSize - hdr.length) := by
    simp only [cFirstSize]; omega
  apply getListConfig_of_reads _ start l
    (readAt (writeAt (updateListBlock f start l) hdr.length junk) hdr.length
      (cFirstSize - hdr.length)) hstart hlt hlen hend
  · rw [readAt_length]; simp only [cFirstSize]; omega
  · have key := readAt_append (writeAt (updateListBlock f start l) hdr.length junk) 0
      hdr.length (cFirstSize - hdr.length)
    rw [← hsplit, Nat.zero_add] at key
    rw [key, readAt_writeAt_disjoint _ _ _ _ _ (Or.inl (by omega))]
    have e1 := readAt_updateListBlock_header f start l
    rw [hh] at e1
    rw [e1, ← hh]
    simp only [List.append_assoc, List.singleton_append, List.cons_append, List.nil_append]
  · rw [readAt_writeAt_disjoint _ _ _ _ _ (Or.inr (by omega))]
    exact readAt_updateListBlock_index f start l hstart

/-- C19. Header and index round-trip: for every file `f` (whatever its first 128 bytes
held), every `start >= 128` and every stream `list` without the byte `cEnd` (`start` a
`uint`, `len(list)` below `2 ^ 64`), `getListConfig` on the file that
`updateListBlock(start, list)` produces returns exactly `(start, list)`; and it still does
when the bytes between the end of the header and byte 128 are overwritten with anything.
(The two writes are taken to succeed; `WriteAt` accepts them when the index ends below
offset `2 ^ 63`.) -/
theorem header_index_roundtrip (f : File) (start : Nat) (list : List Nat)
    (hstart : cFirstSize ≤ start) (hlt : start < uintSize) (hlen : list.length < uintSize)
    (hend : cEnd ∉ list) :
    getListConfig (updateListBlock f start list) = (start, list) ∧
      ∀ junk : List Nat,
        (groupDigits start ++ [cEnd] ++ groupDigits list.length ++ [cEnd]).length +
          junk.length ≤ cFirstSize →
        getListConfig (writeAt (updateListBlock f start list)
          (groupDigits start ++ [cEnd] ++ groupDigits list.length ++ [cEnd]).length junk) =
          (start, list) :=
  ⟨getListConfig_updateListBlock f start list hstart hlt hlen hend,
    fun junk hj => getListConfig_updateListBlock_junk f start list junk hstart hlt hlen hend hj⟩

theorem foldl_pushBlockToData (ds : List block) : ∀ buf : List Nat,
    ds.foldl pushBlockToData buf = buf ++ encodeBlocks ds := by
  induction ds with
  | nil => intro buf; simp [encodeBlocks]
  | cons d ds ih =>
    intro buf
    rw [List.foldl_cons, ih, pushBlockToData_append buf d, encodeBlocks, List.append_assoc]

/-- C20. Descriptor stream round-trip: for every list `ds` of descriptors (fields that are
`uint`s) and every key that matches none of them, `getNewListNotContainKey` with
`isReturnListInfo = true`, run on the concatenation of `pushBlockToData` over `ds`, returns
`ds` itself as the descriptor list, in order, and a byte stream identical to its input. -/
theorem stream_roundtrip (f : File) (ds : List block) (key : List Nat)
    (hfit : ∀ d ∈ ds, d.Fits) (hno : ∀ d ∈ ds, ¬ keyMatches f key d) :
    getNewListNotContainKey f (ds.foldl pushBlockToData []) key true =
      (ds.foldl pushBlockToData [], ds) := by
  rw [foldl_pushBlockToData, List.nil_append,
    getNewListNotContainKey_encodeBlocks f key true ds hfit]
  have hf : ds.filter (fun d => !decide (keyMatches f key d)) = ds :=
    List.filter_eq_self.2 (fun d hd => by simp [hno d hd])
  rw [hf]
  simp

/-! ## DeleteTo without a match -/

theorem deleteToDataLoop_noMatch (f : File) (key : List Nat) (stream : List Nat) :
    ∀ (i : Nat) (b : block) (t : List Nat) (st : DeleteToScan),
    (∀ blk ∈ scanBlocksFrom stream b t, ¬ keyMatches f key blk) →
    (deleteToDataLoop f key stream i b t st).thisFoundIndex = st.thisFoundIndex := by
  induction stream with
  | nil => intro i b t st _; simp [deleteToDataLoop]
  | cons v rest ih =>
    intro i b t st h
    rw [scanBlocksFrom_cons] at h
    rw [deleteToDataLoop]
    by_cases h1 : v = cStart
    · rw [if_pos h1] at h ⊢; exact ih _ _ _ _ h
    · rw [if_neg h1] at h ⊢
      by_cases h2 : v = cSizeKey
      · rw [if_pos h2] at h ⊢; exact ih _ _ _ _ h
      · rw [if_neg h2] at h ⊢
        by_cases h3 : v = cSumKey
        · rw [if_pos h3] at h ⊢; exact ih _ _ _ _ h
        · rw [if_neg h3] at h ⊢
          by_cases h4 : v = cSumMd5
          · rw [if_pos h4] at h ⊢; exact ih _ _ _ _ h
          · rw [if_neg h4] at h ⊢
            by_cases h5 : v = cSizeData
            · rw [if_pos h5] at h ⊢
              have hno := h _ (List.mem_cons_self _ _)
              unfold keyMatches at hno
              simp only
              rw [if_neg hno]
              exact ih _ _ _ _ (fun blk hb => h blk (List.mem_cons_of_mem _ hb))
            · rw [if_neg h5] at h ⊢
              by_cases h6 : v = cEnd
              · rw [if_pos h6] at h ⊢; exact ih _ _ _ _ h
              · rw [if_neg h6] at h ⊢; exact ih _ _ _ _ h

theorem deleteTo_noMatch_eq (f : File) (key : List Nat) (alsoDeleteTheFoundBlock : Bool)
    (hno : ∀ blk ∈ scanBlocks (getListConfig f).2, ¬ keyMatches f key blk) :
    Bucket.DeleteTo f key alsoDeleteTheFoundBlock = f := by
  unfold Bucket.DeleteTo deleteToData
  simp only
  rw [if_pos]
  left
  exact deleteToDataLoop_noMatch f key _ 0 emptyBlock [] _ hno

/-- C11. For every file and every key that matches no descriptor of the index stream (no
descriptor the scan completes passes the fingerprint test and the exact compare),
`DeleteTo(key, include_match)` issues no write, for both values of `include_match`: the
file, and with it the header and the index `getListConfig` reads, is unchanged. -/
theorem deleteTo_without_match (f : File) (key : List Nat) (alsoDeleteTheFoundBlock : Bool)
    (hno : ∀ blk ∈ scanBlocks (getListConfig f).2, ¬ keyMatches f key blk) :
    Bucket.DeleteTo f key alsoDeleteTheFoundBlock = f ∧
      getListConfig (Bucket.DeleteTo f key alsoDeleteTheFoundBlock) = getListConfig f :=
  ⟨deleteTo_noMatch_eq f key alsoDeleteTheFoundBlock hno,
    by rw [deleteTo_noMatch_eq f key alsoDeleteTheFoundBlock hno]⟩

theorem BucketInv.deleteTo_absent {f : File} {ds : List block} (h : BucketInv f ds)
    (key : List Nat) (b : Bool) (habs : ∀ d ∈ ds, storedKey f d ≠ key) :
    Bucket.DeleteTo f key b = f := by
  apply deleteTo_noMatch_eq
  rw [h.scanBlocks_eq]
  intro d hd
  exact (h.keyMatches_iff key d hd).not.2 (habs d hd)

/-! ## Delete of a missing key -/

theorem BucketInv.config_eq {f : File} {ds : List block} (h : BucketInv f ds) :
    getListConfig f = ((getListConfig f).1, encodeBlocks ds) := by
  rw [← h.index]

/-- Delete keeps the invariants: the live descriptors are those that store another key,
with their entries unchanged, at the same index offset. -/
theorem BucketInv.delete_spec {f : File} {ds : List block} (h : BucketInv f ds)
    (key : List Nat) :
    getListConfig (Bucket.Delete f key) =
        ((getListConfig f).1,
          encodeBlocks (ds.filter (fun d => !decide (storedKey f d = key)))) ∧
      BucketInv (Bucket.Delete f key) (ds.filter (fun d => !decide (storedKey f d = key))) ∧
      ∀ d ∈ ds.filter (fun d => !decide (storedKey f d = key)),
        storedItem (Bucket.Delete f key) d = storedItem f d := by
  rw [h.delete_eq key]
  exact h.rewrite_sublist (List.filter_sublist _)

theorem filter_absent_eq (f : File) (ds : List block) (key : List Nat)
    (habs : ∀ d ∈ ds, storedKey f d ≠ key) :
    ds.filter (fun d => !decide (storedKey f d = key)) = ds :=
  List.filter_eq_self.2 (fun d hd => by simp [habs d hd])

theorem BucketInv.delete_absent {f : File} {ds : List block} (h : BucketInv f ds)
    (key : List Nat) (habs : ∀ d ∈ ds, storedKey f d ≠ key) :
    getListConfig (Bucket.Delete f key) = getListConfig f ∧
      BucketInv (Bucket.Delete f key) ds ∧
      ∀ d ∈ ds, storedItem (Bucket.Delete f key) d = storedItem f d := by
  have hs := h.delete_spec key
  rw [filter_absent_eq f ds key habs] at hs
  refine ⟨?_, hs.2.1, hs.2.2⟩
  rw [hs.1]
  exact h.config_eq.symm

/-- C12. Delete is idempotent. In a bucket that satisfies the invariants, `Delete` of a key
that no live descriptor stores leaves the logical state as it was: `getListConfig` reads
back the same index offset and the same descriptor stream, the invariants still hold and
every entry is stored as before. Consequently, for every key, `Delete(key)` applied twice
leaves the state `Delete(key)` applied once leaves. -/
theorem delete_idempotent (f : File) (ds : List block) (key : List Nat)
    (h : BucketInv f ds) :
    ((∀ d ∈ ds, storedKey f d ≠ key) →
        getListConfig (Bucket.Delete f key) = getListConfig f ∧
        BucketInv (Bucket.Delete f key) ds ∧
        ∀ d ∈ ds, storedItem (Bucket.Delete f key) d = storedItem f d) ∧
      getListConfig (Bucket.Delete (Bucket.Delete f key) key) =
        getListConfig (Bucket.Delete f key) ∧
      ∀ d ∈ ds.filter (fun d => !decide (storedKey f d = key)),
        storedItem (Bucket.Delete (Bucket.Delete f key) key) d = storedItem f d := by
  refine ⟨h.delete_absent key, ?_⟩
  obtain ⟨_, hinv, hitem⟩ := h.delete_spec key
  have habs : ∀ d ∈ ds.filter (fun d => !decide (storedKey f d = key)),
      storedKey (Bucket.Delete f key) d ≠ key := by
    intro d hd
    have e : storedKey (Bucket.Delete f key) d = storedKey f d := congrArg Item.Key (hitem d hd)
    rw [e]
    simpa using (List.mem_filter.1 hd).2
  obtain ⟨g1, _, g3⟩ := hinv.delete_absent key habs
  refine ⟨g1, ?_⟩
  intro d hd
  rw [g3 d hd, hitem d hd]

/-! ## Set and the layout of payloads -/

theorem BucketInv.filter_key_eq {f : File} {ds : List block} (h : BucketInv f ds)
    (key : List Nat) :
    getNewListNotContainKey f (getListConfig f).2 key true =
      (encodeBlocks (ds.filter (fun d => !decide (storedKey f d = key))),
        ds.filter (fun d => !decide (storedKey f d = key))) := by
  have hfilt : ds.filter (fun d => !decide (keyMatches f key d)) =
      ds.filter (fun d => !decide (storedKey f d = key)) := by
    apply List.filter_congr
    intro d hd
    have := h.keyMatches_iff key d hd
    by_cases hs : storedKey f d = key
    · simp [hs, this.2 hs]
    · simp [hs, this.not.2 hs]
  rw [h.index, getNewListNotContainKey_encodeBlocks f key true ds h.fits, hfilt]
  simp

/-- The index offset `Set` writes to the header, and the offset of the new payload, are the
two results of `getPerfectSpace` over the gaps between the remaining descriptors. -/
theorem BucketInv.set_config {f : File} {ds : List block} (h : BucketInv f ds) (item : Item)
    (hk : item.Key ≠ []) (hfit : setFits f item) :
    getListConfig (Bucket.Set f item) =
        ((getPerfectSpace
            (getListSpace (getListConfig f).1
              (ds.filter (fun d => !decide (storedKey f d = item.Key))))
            (getListConfig f).1 (item.Key.length + item.Data.length)).1,
          encodeBlocks (ds.filter (fun d => !decide (storedKey f d = item.Key)) ++
            [setBlock f item])) ∧
      (setBlock f item).start =
        (getPerfectSpace
          (getListSpace (getListConfig f).1
            (ds.filter (fun d => !decide (storedKey f d = item.Key))))
          (getListConfig f).1 (item.Key.length + item.Data.length)).2 := by
  have hnl := h.filter_key_eq item.Key
  generalize hdsK : ds.filter (fun d => !decide (storedKey f d = item.Key)) = dsK at hnl ⊢
  have hsub : dsK.Sublist ds := by rw [← hdsK]; exact List.filter_sublist _
  have hlay : Layout (getListConfig f).1 dsK := by rw [← hdsK]; exact h.layout_filter _
  have hklen : 0 < item.Key.length := List.length_pos.2 hk
  have hS128 := getListConfig_fst_ge f
  have hSlt := getListConfig_fst_lt f
  unfold setFits at hfit
  have hgt := uintSize_gt
  have hP := getPerfectSpace_spec (getListConfig f).1 (item.Key.length + item.Data.length) dsK
    hlay hS128 hSlt (by omega)
  have hblock : setBlock f item =
      { start := (getPerfectSpace (getListSpace (getListConfig f).1 dsK) (getListConfig f).1
          (item.Key.length + item.Data.length)).2
        sizeKey := item.Key.length
        sumKey := sumBytes item.Key
        sumMd5 := sumBytes (md5 item.Key)
        sizeData := item.Data.length } := by
    unfold setBlock
    rw [hnl]
  have hset : Bucket.Set f item =
      writeAt (updateListBlock f
          (getPerfectSpace (getListSpace (getListConfig f).1 dsK) (getListConfig f).1
            (item.Key.length + item.Data.length)).1
          (encodeBlocks (dsK ++ [setBlock f item])))
        (setBlock f item).start (item.Key ++ item.Data) := by
    unfold Bucket.Set setOneData
    simp only
    rw [hnl, encodeBlocks_append, encodeBlocks_singleton, hblock]
  generalize hps : getPerfectSpace (getListSpace (getListConfig f).1 dsK) (getListConfig f).1
    (item.Key.length + item.Data.length) = ps at hP hblock hset ⊢
  obtain ⟨p1, p2, p5, p3, p4⟩ := hP
  generalize hnew : setBlock f item = new at hblock hset ⊢
  have hnstart : new.start = ps.2 := by rw [hblock]
  have hlenK : (encodeBlocks dsK).length ≤ (getListConfig f).2.length := by
    rw [h.index]; exact encodeBlocks_sublist_length_le hsub
  have hlenNew : (encodeBlocks (dsK ++ [new])).length ≤ (getListConfig f).2.length + 105 := by
    rw [encodeBlocks_append, encodeBlocks_singleton, List.length_append]
    have := pushBlockToData_length_le new
    omega
  generalize hf1 : updateListBlock f ps.1 (encodeBlocks (dsK ++ [new])) = f1 at hset
  have hcfg1 : getListConfig f1 = (ps.1, encodeBlocks (dsK ++ [new])) := by
    rw [← hf1]
    exact getListConfig_updateListBlock f _ _ (by omega) (by omega) (by omega)
      (encodeBlocks_noEnd _)
  refine ⟨?_, hnstart⟩
  rw [hset, getListConfig_writeAt f1 _ _ (by omega)
    (by rw [hcfg1, List.length_append]; simp only; omega), hcfg1]

/-- C15. `Set` preserves payload disjointness. Planner: when the remaining live intervals
are non-empty, pairwise disjoint and inside `[128, indexStart)`, the offset `getPerfectSpace`
chooses over `getListSpace` for a block of positive size gives an interval inside
`[128, newIndexStart)` that meets no remaining live interval, and every remaining live
interval ends at or before `newIndexStart`. Bucket: in a bucket that satisfies the
invariants, for an item with non-empty key whose writes stay below `2 ^ 63`, these two
results are the offset of the descriptor `Set` appends and the index offset it writes to the
header, and the live intervals after `Set`, the new one included, are pairwise disjoint and
inside `[128, newIndexStart)`. -/
theorem set_keeps_payloads_disjoint (f : File) (ds : List block) (item : Item)
    (h : BucketInv f ds) (hk : item.Key ≠ []) (hfit : setFits f item) :
    (∀ (S blockSize : Nat) (live : List block), Layout S live → cFirstSize ≤ S →
        S < uintSize → 0 < blockSize →
        cFirstSize ≤ (getPerfectSpace (getListSpace S live) S blockSize).2 ∧
        (getPerfectSpace (getListSpace S live) S blockSize).2 + blockSize ≤
          (getPerfectSpace (getListSpace S live) S blockSize).1 ∧
        (∀ d ∈ live, d.stop ≤ (getPerfectSpace (getListSpace S live) S blockSize).1) ∧
        (∀ d ∈ live, d.stop ≤ (getPerfectSpace (getListSpace S live) S blockSize).2 ∨
          (getPerfectSpace (getListSpace S live) S blockSize).2 + blockSize ≤ d.start)) ∧
      (setBlock f item).start =
        (getPerfectSpace
          (getListSpace (getListConfig f).1
            (ds.filter (fun d => !decide (storedKey f d = item.Key))))
          (getListConfig f).1 (item.Key.length + item.Data.length)).2 ∧
      (getListConfig (Bucket.Set f item)).1 =
        (getPerfectSpace
          (getListSpace (getListConfig f).1
            (ds.filter (fun d => !decide (storedKey f d = item.Key))))
          (getListConfig f).1 (item.Key.length + item.Data.length)).1 ∧
      scanBlocks (getListConfig (Bucket.Set f item)).2 =
        ds.filter (fun d => !decide (storedKey f d = item.Key)) ++ [setBlock f item] ∧
      (∀ d ∈ ds.filter (fun d => !decide (storedKey f d = item.Key)),
        d.Disjoint (setBlock f item)) ∧
      (ds.filter (fun d => !decide (storedKey f d = item.Key)) ++ [setBlock f item]).Pairwise
        block.Disjoint ∧
      ∀ d ∈ ds.filter (fun d => !decide (storedKey f d = item.Key)) ++ [setBlock f item],
        cFirstSize ≤ d.start ∧ d.stop ≤ (getListConfig (Bucket.Set f item)).1 := by
  obtain ⟨hinv, _, _, _, _, _, hdis⟩ := h.set_spec item hk hfit
  obtain ⟨hcfg, hstart⟩ := h.set_config item hk hfit
  refine ⟨?_, hstart, by rw [hcfg], hinv.scanBlocks_eq, hdis, hinv.disjoint, ?_⟩
  · intro S blockSize live hlay h128 hS hb
    obtain ⟨p1, p2, _, p3, p4⟩ := getPerfectSpace_spec S blockSize live hlay h128 hS hb
    exact ⟨p1, p2, p3, p4⟩
  · intro d hd
    exact hinv.inside d hd

/-! ## ListLockDelete -/

/-- Under the invariants `ListLockDelete(limit)` returns the entries of the first `limit`
live descriptors and leaves a bucket whose live descriptors are the others. -/
theorem BucketInv.listLockDelete_spec {f : File} {ds : List block} (h : BucketInv f ds)
    (limit : Nat) :
    (Bucket.ListLockDelete f limit).2 = (ds.take limit).map (storedItem f) ∧
      getListConfig (Bucket.ListLockDelete f limit).1 =
        ((getListConfig f).1, encodeBlocks (ds.drop limit)) ∧
      BucketInv (Bucket.ListLockDelete f limit).1 (ds.drop limit) ∧
      ∀ d ∈ ds.drop limit,
        storedItem (Bucket.ListLockDelete f limit).1 d = storedItem f d := by
  have hf : (Bucket.ListLockDelete f limit).1 =
      updateListBlock f (getListConfig f).1 (encodeBlocks (ds.drop limit)) := by
    unfold Bucket.ListLockDelete listLockDeleteData
    rw [h.scanBlocks_eq]
  have he : (Bucket.ListLockDelete f limit).2 = (ds.take limit).map (pullItem f) := by
    unfold Bucket.ListLockDelete listLockDeleteData
    rw [h.scanBlocks_eq]
  rw [hf, he]
  refine ⟨?_, h.rewrite_sublist (List.drop_sublist _ _)⟩
  exact List.map_congr_left (fun d hd => h.pullItem_eq d (List.mem_of_mem_take hd))

/-- C13. In a bucket that satisfies the invariants, with `n` live descriptors `ds`,
`ListLockDelete(limit)` returns the entries of the first `min limit n` descriptors of the
index, in order, and leaves an index of exactly the later descriptors, at the same index
offset and with their entries unchanged; so a second call returns the entries that come
next and none of the descriptors already taken. -/
theorem listLockDelete_takes_front (f : File) (ds : List block) (limit : Nat)
    (h : BucketInv f ds) :
    (Bucket.ListLockDelete f limit).2 = (ds.take limit).map (storedItem f) ∧
      (Bucket.ListLockDelete f limit).2.length = min limit ds.length ∧
      getListConfig (Bucket.ListLockDelete f limit).1 =
        ((getListConfig f).1, encodeBlocks (ds.drop limit)) ∧
      scanBlocks (getListConfig (Bucket.ListLockDelete f limit).1).2 = ds.drop limit ∧
      BucketInv (Bucket.ListLockDelete f limit).1 (ds.drop limit) ∧
      (∀ d ∈ ds.drop limit,
        storedItem (Bucket.ListLockDelete f limit).1 d = storedItem f d) ∧
      (Bucket.ListLockDelete (Bucket.ListLockDelete f limit).1 limit).2 =
        ((ds.drop limit).take limit).map (storedItem f) := by
  obtain ⟨h1, h2, h3, h4⟩ := h.listLockDelete_spec limit
  refine ⟨h1, ?_, h2, h3.scanBlocks_eq, h3, h4, ?_⟩
  · rw [h1, List.length_map, List.length_take]
  · rw [(h3.listLockDelete_spec limit).1]
    exact List.map_congr_left (fun d hd => h4 d (List.mem_of_mem_take hd))

/-! ## Insert, then delete every key -/

/-- The header written by `updateListBlock` holds the length of the index list. -/
theorem headerIndexLen_updateListBlock (f : File) (start : Nat) (l : List Nat)
    (hlen : l.length < uintSize) :
    headerIndexLen (updateListBlock f start l) = l.length := by
  have h42 := headerBytes_length_le start l.length
  set hdr := groupDigits start ++ [cEnd] ++ groupDigits l.length ++ [cEnd] with hhdr
  have hsplit : cFirstSize = hdr.length + (cFirstSize - hdr.length) := by
    simp only [cFirstSize]; omega
  have key := readAt_append (updateListBlock f start l) 0 hdr.length (cFirstSize - hdr.length)
  rw [← hsplit, Nat.zero_add] at key
  have e1 : readAt (updateListBlock f start l) 0 hdr.length = hdr := by
    rw [updateListBlock_eq, ← hhdr, readAt_writeAt_same]
  unfold headerIndexLen
  rw [key, e1, hhdr]
  simp only [List.append_assoc, List.singleton_append, List.cons_append, List.nil_append]
  rw [splitHeader_start _ _ (groupDigits_ne_cEnd _) (groupDigits_ne_cEnd _) [] _
    (by rw [readAt_length]; simp only [cFirstSize]; omega)]
  exact digitsToNumber_groupDigits _ hlen

/-- A fresh (empty) file is a bucket with no live descriptor. -/
theorem emptyFile_inv : BucketInv [] [] :=
  ⟨by decide, by simp, by simp, by simp, by simp, List.Pairwise.nil⟩

/-- A sequence of `Set` calls keeps the invariants, and every stored key is one of the
keys in `keys` when that held before and the inserted keys are in `keys`. -/
theorem BucketInv.foldl_set (keys : List (List Nat)) :
    ∀ (items : List Item) (f : File) (ds : List block), BucketInv f ds →
      (∀ d ∈ ds, storedKey f d ∈ keys) →
      (∀ it ∈ items, it.Key ≠ []) → SetsFit f items → (∀ it ∈ items, it.Key ∈ keys) →
      ∃ ds1, BucketInv (items.foldl Bucket.Set f) ds1 ∧
        ∀ d ∈ ds1, storedKey (items.foldl Bucket.Set f) d ∈ keys := by
  intro items
  induction items with
  | nil => intro f ds h hin _ _ _; exact ⟨ds, h, hin⟩
  | cons it rest ih =>
    intro f ds h hin hk hfit hall
    obtain ⟨h1, h2, _, h4, _⟩ := h.set_spec it (hk it (List.mem_cons_self _ _)) hfit.1
    rw [List.foldl_cons]
    refine ih (Bucket.Set f it) _ h1 ?_ (fun x hx => hk x (List.mem_cons_of_mem _ hx)) hfit.2
      (fun x hx => hall x (List.mem_cons_of_mem _ hx))
    intro d hd
    rcases List.mem_append.1 hd with hd | hd
    · have e : storedKey (Bucket.Set f it) d = storedKey f d :=
        congrArg Item.Key (h4 d hd)
      rw [e]
      exact hin d (List.mem_of_mem_filter hd)
    · rw [List.mem_singleton.1 hd, h2]
      exact hall it (List.mem_cons_self _ _)

/-- A sequence of `Delete` calls keeps the invariants and leaves no descriptor that
stores a deleted key. -/
theorem BucketInv.foldl_delete :
    ∀ (keys : List (List Nat)) (f : File) (ds : List block), BucketInv f ds →
      ∃ ds1, BucketInv (keys.foldl Bucket.Delete f) ds1 ∧
        ∀ d ∈ ds1, d ∈ ds ∧ storedKey (keys.foldl Bucket.Delete f) d = storedKey f d ∧
          storedKey f d ∉ keys := by
  intro keys
  induction keys with
  | nil => intro f ds h; exact ⟨ds, h, fun d hd => ⟨hd, rfl, List.not_mem_nil _⟩⟩
  | cons k rest ih =>
    intro f ds h
    obtain ⟨_, h2, h3⟩ := h.delete_spec k
    obtain ⟨ds1, g1, g2⟩ := ih (Bucket.Delete f k) _ h2
    rw [List.foldl_cons]
    refine ⟨ds1, g1, fun d hd => ?_⟩
    obtain ⟨m1, m2, m3⟩ := g2 d hd
    have e : storedKey (Bucket.Delete f k) d = storedKey f d := congrArg Item.Key (h3 d m1)
    have hne : storedKey f d ≠ k := by
      have := (List.mem_filter.1 m1).2
      simpa using this
    refine ⟨List.mem_of_mem_filter m1, m2.trans e, ?_⟩
    rw [e] at m3
    intro hmem
    rcases List.mem_cons.1 hmem with hm | hm
    · exact hne hm
    · exact m3 hm

/-- After a `Delete` the header holds the length of the index that `getListConfig` reads. -/
theorem BucketInv.delete_header {f : File} {ds : List block} (h : BucketInv f ds)
    (key : List Nat) :
    headerIndexLen (Bucket.Delete f key) = (getListConfig (Bucket.Delete f key)).2.length := by
  rw [(h.delete_spec key).1, h.delete_eq key]
  exact headerIndexLen_updateListBlock _ _ _
    (lt_of_le_of_lt (encodeBlocks_sublist_length_le (List.filter_sublist _)) h.index_length_lt)

/-- After a sequence of `Delete` calls on a bucket the header holds the length of the
index that `getListConfig` reads, when it did so before. -/
theorem BucketInv.foldl_delete_header :
    ∀ (keys : List (List Nat)) (f : File) (ds : List block), BucketInv f ds →
      headerIndexLen f = (getListConfig f).2.length →
      headerIndexLen (keys.foldl Bucket.Delete f) =
        (getListConfig (keys.foldl Bucket.Delete f)).2.length := by
  intro keys
  induction keys with
  | nil => intro f ds _ h0; exact h0
  | cons k rest ih =>
    intro f ds h _
    rw [List.foldl_cons]
    exact ih (Bucket.Delete f k) _ (h.delete_spec k).2.1 (h.delete_header k)

/-- C16. Starting from a fresh (empty) file, after any sequence of `Set` calls (non-empty
keys, every write below offset `2 ^ 63`) followed by `Delete` calls, in any order and with
any repetition, that cover the key of every inserted item, the bucket has no live
descriptor: the index list read through the header is empty, the scanner finds no
descriptor in it, and the index length held by the header decodes to zero. -/
theorem insert_then_delete_all (items : List Item) (keys : List (List Nat))
    (hk : ∀ it ∈ items, it.Key ≠ []) (hfit : SetsFit [] items)
    (hall : ∀ it ∈ items, it.Key ∈ keys) :
    BucketInv (keys.foldl Bucket.Delete (items.foldl Bucket.Set [])) [] ∧
      (getListConfig (keys.foldl Bucket.Delete (items.foldl Bucket.Set []))).2 = [] ∧
      scanBlocks (getListConfig (keys.foldl Bucket.Delete (items.foldl Bucket.Set []))).2 = [] ∧
      headerIndexLen (keys.foldl Bucket.Delete (items.foldl Bucket.Set [])) = 0 := by
  obtain ⟨ds1, h1, hin⟩ := BucketInv.foldl_set keys items [] [] emptyFile_inv
    (fun d hd => absurd hd (List.not_mem_nil _)) hk hfit hall
  obtain ⟨ds2, h2, hout⟩ := BucketInv.foldl_delete keys _ ds1 h1
  have hnil : ds2 = [] := by
    apply List.eq_nil_iff_forall_not_mem.2
    intro d hd
    obtain ⟨m1, _, m3⟩ := hout d hd
    exact m3 (hin d m1)
  rw [hnil] at h2
  have hidx : (getListConfig (keys.foldl Bucket.Delete (items.foldl Bucket.Set []))).2 = [] := by
    rw [h2.index]; rfl
  refine ⟨h2, hidx, h2.scanBlocks_eq, ?_⟩
  cases keys with
  | nil =>
    cases items with
    | nil => decide
    | cons it rest => exact absurd (hall it (List.mem_cons_self _ _)) (List.not_mem_nil _)
  | cons k rest =>
    have hh := BucketInv.foldl_delete_header rest (Bucket.Delete (items.foldl Bucket.Set []) k) _
      (h1.delete_spec k).2.1 (h1.delete_header k)
    rw [List.foldl_cons] at hidx ⊢
    rw [hh, hidx]
    rfl

/-! ## SetMany: the plan -/

theorem setManyCollect_eq : ∀ (items : List Item) (i m : Nat) (lci : List block)
    (lbp : List String),
    (setManyCollect items i m lci lbp).2 =
      (lci ++ manyConfigs i items, lbp ++ (manyConfigs i items).map block.position) := by
  intro items
  induction items with
  | nil => intro i m lci lbp; simp [setManyCollect, manyConfigs]
  | cons it rest ih =>
    intro i m lci lbp
    rw [setManyCollect, ih]
    simp [manyConfigs, manyConfig, block.position, List.append_assoc]

/-- In the tail gap every pending descriptor is placed, one behind the other. -/
theorem setManyFillSpace_tail (ld : List Item) (s : block) (hs : s.sumKey = 1) :
    ∀ (cs : List block) (used : Nat) (plan : SetManyPlan),
      (cs.map (fun c => c.start)).Nodup →
      (∀ c ∈ cs, mapGet false plan.selected c.start = false) →
      plan.totalLastSpaceUsed = used →
      setManyFillSpace ld s cs used plan = placeAll ld s.start cs used plan := by
  intro cs
  induction cs with
  | nil => intro used plan _ _ _; rfl
  | cons c rest ih =>
    intro used plan hnd hsel hused
    have hc := hsel c (List.mem_cons_self _ _)
    rw [List.map_cons, List.nodup_cons] at hnd
    rw [setManyFillSpace, hc]
    simp only [hs, or_true, decide_True, if_true, Bool.false_eq_true, if_false]
    rw [placeAll, hused]
    apply ih _ _ hnd.2
    · intro x hx
      simp only [mapSet]
      rw [mapGet_cons, if_neg]
      · exact hsel x (List.mem_cons_of_mem _ hx)
      · intro e
        exact hnd.1 (List.mem_map.2 ⟨x, hx, e.symm⟩)
    · rfl

/-- The closing loop of `setManyData` places every pending descriptor, one behind the
other. -/
theorem setManyAppendRest_pending (ld : List Item) (base : Nat) :
    ∀ (cs : List block) (used : Nat) (plan : SetManyPlan),
      (cs.map (fun c => c.start)).Nodup →
      (∀ c ∈ cs, mapGet false plan.selected c.start = false) →
      plan.startListBlock = base → plan.totalLastSpaceUsed = used →
      setManyAppendRest ld cs plan = placeAll ld base cs used plan := by
  intro cs
  induction cs with
  | nil => intro used plan _ _ _ _; rfl
  | cons c rest ih =>
    intro used plan hnd hsel hbase hused
    have hc := hsel c (List.mem_cons_self _ _)
    rw [List.map_cons, List.nodup_cons] at hnd
    rw [setManyAppendRest, hc]
    simp only [Bool.false_eq_true, if_false]
    rw [placeAll, hused, hbase]
    apply ih _ _ hnd.2
    · intro x hx
      simp only [mapSet]
      rw [mapGet_cons, if_neg]
      · exact hsel x (List.mem_cons_of_mem _ hx)
      · intro e
        exact hnd.1 (List.mem_map.2 ⟨x, hx, e.symm⟩)
    · rfl
    · rfl

/-- The closing loop of `setManyData` changes nothing when every descriptor is placed. -/
theorem setManyAppendRest_selected (ld : List Item) :
    ∀ (cs : List block) (plan : SetManyPlan),
      (∀ c ∈ cs, mapGet false plan.selected c.start = true) →
      setManyAppendRest ld cs plan = plan := by
  intro cs
  induction cs with
  | nil => intro plan _; rfl
  | cons c rest ih =>
    intro plan hsel
    rw [setManyAppendRest, hsel c (List.mem_cons_self _ _), if_pos rfl]
    exact ih plan (fun x hx => hsel x (List.mem_cons_of_mem _ hx))

theorem placeAll_selected_mono (ld : List Item) (base : Nat) :
    ∀ (cs : List block) (used : Nat) (plan : SetManyPlan) (k : Nat),
      mapGet false plan.selected k = true →
      mapGet false (placeAll ld base cs used plan).selected k = true := by
  intro cs
  induction cs with
  | nil => intro used plan k h; exact h
  | cons c rest ih =>
    intro used plan k h
    rw [placeAll]
    apply ih
    simp only [mapSet]
    rw [mapGet_cons]
    split_ifs
    · rfl
    · exact h

theorem placeAll_selected (ld : List Item) (base : Nat) :
    ∀ (cs : List block) (used : Nat) (plan : SetManyPlan),
      ∀ c ∈ cs, mapGet false (placeAll ld base cs used plan).selected c.start = true := by
  intro cs
  induction cs with
  | nil => intro used plan c hc; exact absurd hc (List.not_mem_nil _)
  | cons c rest ih =>
    intro used plan x hx
    rw [placeAll]
    rcases List.mem_cons.1 hx with hx | hx
    · subst hx
      apply placeAll_selected_mono
      simp only [mapSet]
      rw [mapGet_cons, if_pos rfl]
    · exact ih _ _ x hx

theorem placeAll_total (ld : List Item) (base : Nat) :
    ∀ (cs : List block) (used : Nat) (plan : SetManyPlan),
      plan.startListBlock + plan.totalLastSpaceUsed = base + used →
      (placeAll ld base cs used plan).startListBlock +
          (placeAll ld base cs used plan).totalLastSpaceUsed =
        base + used + totalSize cs := by
  intro cs
  induction cs with
  | nil => intro used plan h; simpa [placeAll, totalSize] using h
  | cons c rest ih =>
    intro used plan _
    rw [placeAll, ih _ _ rfl]
    simp only [totalSize, List.map_cons, List.sum_cons]
    omega

theorem placeAll_writes (ld : List Item) (base : Nat) :
    ∀ (cs : List block) (used : Nat) (plan : SetManyPlan),
      (placeAll ld base cs used plan).listWriteData =
        plan.listWriteData ++ placedWrites ld base cs used := by
  intro cs
  induction cs with
  | nil => intro used plan; simp [placeAll, placedWrites]
  | cons c rest ih =>
    intro used plan
    rw [placeAll, ih]
    simp [placedWrites]

theorem placeAll_lookup_other (ld : List Item) (base : Nat) (k : String) :
    ∀ (cs : List block) (used : Nat) (plan : SetManyPlan),
      k ∉ cs.map block.position →
      mapGet emptyBlock (placeAll ld base cs used plan).mapBlockInsert k =
        mapGet emptyBlock plan.mapBlockInsert k := by
  intro cs
  induction cs with
  | nil => intro used plan _; rfl
  | cons c rest ih =>
    intro used plan hk
    rw [List.map_cons, List.mem_cons, not_or] at hk
    rw [placeAll, ih _ _ hk.2]
    simp only [addToMapSort, mapSet]
    rw [mapGet_cons, if_neg (fun e => hk.1 e.symm)]

/-- With pairwise distinct map keys every descriptor is found again in the map, with the
offset it was placed at. -/
theorem placeAll_lookup (ld : List Item) (base : Nat) :
    ∀ (cs : List block) (used : Nat) (plan : SetManyPlan),
      (cs.map block.position).Nodup →
      cs.map (fun c => mapGet emptyBlock (placeAll ld base cs used plan).mapBlockInsert
        c.position) = placed base cs used := by
  intro cs
  induction cs with
  | nil => intro used plan _; rfl
  | cons c rest ih =>
    intro used plan hnd
    rw [List.map_cons, List.nodup_cons] at hnd
    rw [List.map_cons, placed, placeAll, ih _ _ hnd.2, placeAll_lookup_other _ _ _ _ _ _ hnd.1]
    simp only [addToMapSort, mapSet]
    rw [mapGet_cons]
    exact congrArg (fun b => b :: placed base rest (used + (c.sizeKey + c.sizeData)))
      (if_pos rfl)

theorem placeAll_total_cons (ld : List Item) (base : Nat) (c : block) (rest : List block)
    (used : Nat) (plan : SetManyPlan) :
    (placeAll ld base (c :: rest) used plan).startListBlock +
        (placeAll ld base (c :: rest) used plan).totalLastSpaceUsed =
      base + used + totalSize (c :: rest) := by
  rw [placeAll]
  refine (placeAll_total ld base rest _ _ rfl).trans ?_
  simp only [totalSize, List.map_cons, List.sum_cons]
  omega

/-- With no live descriptor `getListSpace` finds the tail gap from `cFirstSize` to the
index offset, or nothing when the index is at `cFirstSize`. -/
theorem getListSpace_nil (S : Nat) (h1 : cFirstSize ≤ S) (h2 : S < uintSize) :
    getListSpace S [] =
      if S = cFirstSize then []
      else [{ start := cFirstSize, sizeKey := 0, sumKey := 1, sumMd5 := 0,
              sizeData := S - cFirstSize }] := by
  have e : (S + uintSize - cFirstSize % uintSize) % uintSize = S - cFirstSize := by
    simp only [uintSize, cFirstSize] at h1 h2 ⊢
    omega
  unfold getListSpace
  simp only [List.map_nil, List.foldl_nil, List.insertionSort, getListSpaceSweep, e,
    List.nil_append]
  by_cases hS : S = cFirstSize
  · rw [if_pos hS, if_neg (by omega)]
  · rw [if_neg hS, if_pos (by omega)]

theorem manyConfigs_starts : ∀ (items : List Item) (i : Nat),
    (manyConfigs i items).map (fun c => c.start) = List.range' i items.length := by
  intro items
  induction items with
  | nil => intro i; rfl
  | cons it rest ih =>
    intro i
    rw [manyConfigs, List.map_cons, ih, List.length_cons, List.range'_succ]
    rfl

theorem manyConfigs_positions : ∀ (items : List Item) (i : Nat),
    (manyConfigs i items).map block.position = items.map Item.position := by
  intro items
  induction items with
  | nil => intro i; rfl
  | cons it rest ih =>
    intro i
    rw [manyConfigs, List.map_cons, ih, List.map_cons]
    rfl

theorem manyConfigs_totalSize : ∀ (items : List Item) (i : Nat),
    totalSize (manyConfigs i items) =
      (items.map (fun it => it.Key.length + it.Data.length)).sum := by
  intro items
  induction items with
  | nil => intro i; rfl
  | cons it rest ih =>
    intro i
    have := ih (i + 1)
    simp only [totalSize] at this ⊢
    rw [manyConfigs, List.map_cons, List.sum_cons, this, List.map_cons, List.sum_cons]
    rfl

theorem sortedConfigs_perm (items : List Item) :
    (sortedConfigs items).Perm (manyConfigs 0 items) :=
  List.perm_insertionSort _ _

/-- The plan of `setManyData`: all descriptors of the old index are dropped, so every item
is placed, one behind the other, from `cFirstSize`. -/
theorem setManyPlan_eq (f : File) (listBlockData : List Nat) (items : List Item) (S : Nat)
    (h1 : cFirstSize ≤ S) (h2 : S < uintSize) :
    setManyPlan f listBlockData items S =
      placeAll items cFirstSize (sortedConfigs items) 0
        { selected := [], mapBlockInsert := [], listWriteData := [],
          startListBlock := S, totalLastSpaceUsed := 0 } := by
  have hnd : ((sortedConfigs items).map (fun c => c.start)).Nodup := by
    rw [((sortedConfigs_perm items).map _).nodup_iff, manyConfigs_starts]
    exact List.nodup_range' _ _
  have hsel : ∀ c ∈ sortedConfigs items, mapGet false
      ({ selected := [], mapBlockInsert := [], listWriteData := [],
         startListBlock := S, totalLastSpaceUsed := 0 } : SetManyPlan).selected c.start =
      false := fun _ _ => rfl
  unfold setManyPlan
  simp only [getNewListNotContainListKey, setManyCollect_eq, List.nil_append]
  rw [getListSpace_nil S h1 h2]
  change setManyAppendRest items (sortedConfigs items)
    (setManyFillSpaces items _ (sortedConfigs items) _ _) = _
  by_cases hS : S = cFirstSize
  · rw [if_pos hS, setManyFillSpaces]
    exact setManyAppendRest_pending items cFirstSize _ 0 _ hnd hsel hS rfl
  · rw [if_neg hS, setManyFillSpaces, if_neg (by simp), setManyFillSpaces]
    rw [setManyFillSpace_tail items _ rfl (sortedConfigs items) 0 _ hnd hsel rfl]
    exact setManyAppendRest_selected items _ _ (placeAll_selected items _ _ _ _)

/-! ## SetMany: the file -/

theorem itemAt_append (pre : List Item) (it : Item) (rest : List Item) :
    itemAt (pre ++ it :: rest) pre.length = it := by
  unfold itemAt
  rw [List.getD_eq_getElem?_getD, List.getElem?_append_right (le_refl _)]
  simp

theorem manyConfigs_configOf : ∀ (items pre : List Item),
    ∀ c ∈ manyConfigs pre.length items,
      c = manyConfig c.start (itemAt (pre ++ items) c.start) := by
  intro items
  induction items with
  | nil => intro pre c hc; exact absurd hc (List.not_mem_nil _)
  | cons it rest ih =>
    intro pre c hc
    rw [manyConfigs, List.mem_cons] at hc
    rcases hc with hc | hc
    · subst hc
      show manyConfig pre.length it = manyConfig pre.length (itemAt (pre ++ it :: rest) pre.length)
      rw [itemAt_append]
    · have := ih (pre ++ [it]) c (by simpa using hc)
      simpa using this

theorem manyConfigs_items : ∀ (items pre : List Item),
    (manyConfigs pre.length items).map (fun c => itemAt (pre ++ items) c.start) = items := by
  intro items
  induction items with
  | nil => intro pre; rfl
  | cons it rest ih =>
    intro pre
    rw [manyConfigs, List.map_cons]
    have := ih (pre ++ [it])
    simp only [List.length_append, List.length_singleton, List.append_assoc,
      List.singleton_append] at this
    rw [this]
    show itemAt (pre ++ it :: rest) pre.length :: rest = it :: rest
    rw [itemAt_append]

theorem setManyInfoData_eq (m : List (String × block)) : ∀ cs : List block,
    setManyInfoData m (cs.map block.position) =
      encodeBlocks (cs.map (fun c => mapGet emptyBlock m c.position)) := by
  intro cs
  induction cs with
  | nil => rfl
  | cons c rest ih => rw [List.map_cons, setManyInfoData, ih]; rfl

theorem placed_bounds (base : Nat) : ∀ (cs : List block) (used : Nat),
    ∀ p ∈ placed base cs used, base + used ≤ p.start ∧ p.stop ≤ base + used + totalSize cs := by
  intro cs
  induction cs with
  | nil => intro used p hp; exact absurd hp (List.not_mem_nil _)
  | cons c rest ih =>
    intro used p hp
    rw [placed, List.mem_cons] at hp
    simp only [totalSize, List.map_cons, List.sum_cons]
    rcases hp with hp | hp
    · subst hp
      simp only [block.stop]
      omega
    · have := ih _ p hp
      simp only [totalSize] at this
      omega

theorem placed_pairwise (base : Nat) : ∀ (cs : List block) (used : Nat),
    (placed base cs used).Pairwise block.Disjoint := by
  intro cs
  induction cs with
  | nil => intro used; exact List.Pairwise.nil
  | cons c rest ih =>
    intro used
    rw [placed, List.pairwise_cons]
    refine ⟨fun p hp => ?_, ih _⟩
    have := (placed_bounds base rest _ p hp).1
    left
    show base + used + c.sizeKey + c.sizeData ≤ p.start
    omega

theorem placed_fields (base : Nat) (slot : block → block) : ∀ (cs : List block) (used : Nat),
    cs.map slot = placed base cs used →
    ∀ c ∈ cs, (slot c).sizeKey = c.sizeKey ∧ (slot c).sumKey = c.sumKey ∧
      (slot c).sumMd5 = c.sumMd5 ∧ (slot c).sizeData = c.sizeData := by
  intro cs
  induction cs with
  | nil => intro used _ c hc; exact absurd hc (List.not_mem_nil _)
  | cons c rest ih =>
    intro used h x hx
    rw [List.map_cons, placed] at h
    obtain ⟨h1, h2⟩ := List.cons.inj h
    rcases List.mem_cons.1 hx with hx | hx
    · subst hx
      rw [h1]
      exact ⟨rfl, rfl, rfl, rfl⟩
    · exact ih _ h2 x hx

theorem setManyWrite_length : ∀ (w : List writeDataTemp) (g : File),
    g.length ≤ (setManyWrite g w).length := by
  intro w
  induction w with
  | nil => intro g; exact le_refl _
  | cons x rest ih =>
    intro g
    rw [setManyWrite]
    exact le_trans (length_writeAt_ge _ _ _) (ih _)

/-- The payload writes of a sequential placement touch the placed interval only. -/
theorem setManyWrite_frame (ld : List Item) (base : Nat) : ∀ (cs : List block) (used : Nat)
    (g : File) (a n : Nat),
    (∀ c ∈ cs, c = manyConfig c.start (itemAt ld c.start)) →
    (a + n ≤ base + used ∨ base + used + totalSize cs ≤ a) →
    readAt (setManyWrite g (placedWrites ld base cs used)) a n = readAt g a n := by
  intro cs
  induction cs with
  | nil => intro used g a n _ _; rfl
  | cons c rest ih =>
    intro used g a n hcs h
    have hc := hcs c (List.mem_cons_self _ _)
    have hk : c.sizeKey = (itemAt ld c.start).Key.length := congrArg block.sizeKey hc
    have hd : c.sizeData = (itemAt ld c.start).Data.length := congrArg block.sizeData hc
    simp only [totalSize, List.map_cons, List.sum_cons] at h
    rw [placedWrites, setManyWrite,
      ih _ _ _ _ (fun x hx => hcs x (List.mem_cons_of_mem _ hx))
        (by simp only [totalSize]; omega)]
    dsimp only
    apply readAt_writeAt_disjoint
    rw [List.length_append, ← hk, ← hd]
    omega

/-- The payload writes of a sequential placement below the index offset leave what
`getListConfig` reads as it was. -/
theorem setManyWrite_config (ld : List Item) (base : Nat) (hbase : cFirstSize ≤ base) :
    ∀ (cs : List block) (used : Nat) (g : File),
    (∀ c ∈ cs, c = manyConfig c.start (itemAt ld c.start)) →
    base + used + totalSize cs ≤ (getListConfig g).1 →
    getListConfig (setManyWrite g (placedWrites ld base cs used)) = getListConfig g := by
  intro cs
  induction cs with
  | nil => intro used g _ _; rfl
  | cons c rest ih =>
    intro used g hcs h
    have hc := hcs c (List.mem_cons_self _ _)
    have hk : c.sizeKey = (itemAt ld c.start).Key.length := congrArg block.sizeKey hc
    have hd : c.sizeData = (itemAt ld c.start).Data.length := congrArg block.sizeData hc
    simp only [totalSize, List.map_cons, List.sum_cons] at h
    have hw : getListConfig (writeAt g (base + used)
        ((itemAt ld c.start).Key ++ (itemAt ld c.start).Data)) = getListConfig g := by
      apply getListConfig_writeAt _ _ _ (by omega)
      rw [List.length_append, ← hk, ← hd]
      omega
    rw [placedWrites, setManyWrite,
      ih _ _ (fun x hx => hcs x (List.mem_cons_of_mem _ hx))
        (by rw [hw]; simp only [totalSize]; omega), hw]

/-- After the payload writes of a sequential placement every placed descriptor stores the
item it was collected for. -/
theorem setManyWrite_items (ld : List Item) (base : Nat) : ∀ (cs : List block) (used : Nat)
    (g : File),
    (∀ c ∈ cs, c = manyConfig c.start (itemAt ld c.start)) →
    (placed base cs used).map (storedItem (setManyWrite g (placedWrites ld base cs used))) =
      cs.map (fun c => itemAt ld c.start) := by
  intro cs
  induction cs with
  | nil => intro used g _; rfl
  | cons c rest ih =>
    intro used g hcs
    have hc := hcs c (List.mem_cons_self _ _)
    have hk : c.sizeKey = (itemAt ld c.start).Key.length := congrArg block.sizeKey hc
    have hd : c.sizeData = (itemAt ld c.start).Data.length := congrArg block.sizeData hc
    have hrest := fun x hx => hcs x (List.mem_cons_of_mem _ hx)
    rw [placed, placedWrites, setManyWrite, List.map_cons, List.map_cons, ih _ _ hrest]
    congr 1
    obtain ⟨p1, p2⟩ := readAt_writeAt_parts g (base + used) (itemAt ld c.start).Key
      (itemAt ld c.start).Data
    unfold storedItem storedKey storedData
    simp only
    rw [setManyWrite_frame ld base rest _ _ _ _ hrest (Or.inl (by omega)),
      setManyWrite_frame ld base rest _ _ _ _ hrest (Or.inl (by omega)), hk, hd, p1, p2]

/-! ## SetMany: what it leaves -/

theorem encodeBlocks_length_le (ds : List block) :
    (encodeBlocks ds).length ≤ 105 * ds.length := by
  induction ds with
  | nil => simp [encodeBlocks]
  | cons d ds ih =>
    have := pushBlockToData_length_le d
    simp only [encodeBlocks, List.length_append, List.length_cons]
    omega

theorem manyConfigs_length : ∀ (items : List Item) (i : Nat),
    (manyConfigs i items).length = items.length := by
  intro items
  induction items with
  | nil => intro i; rfl
  | cons it rest ih => intro i; rw [manyConfigs, List.length_cons, ih, List.length_cons]

theorem block.Disjoint.symm {a b : block} (h : a.Disjoint b) : b.Disjoint a := Or.symm h

/-- What `SetMany(items)` leaves when the items have non-empty keys and pairwise distinct
map keys: a bucket that satisfies the invariants, with one live descriptor per item, in
input order, each storing its item. The descriptors of the old index are gone. -/
theorem setMany_spec (f : File) (items : List Item) (hk : ∀ it ∈ items, it.Key ≠ [])
    (hpos : (items.map Item.position).Nodup) (hfit : setManyFits items) :
    ∃ ds, BucketInv (Bucket.SetMany f items) ds ∧
      ds.map (storedItem (Bucket.SetMany f items)) = items := by
  have h1 := getListConfig_fst_ge f
  have h2 := getListConfig_fst_lt f
  have hperm := sortedConfigs_perm items
  have htot : totalSize (sortedConfigs items) =
      (items.map (fun it => it.Key.length + it.Data.length)).sum := by
    rw [← manyConfigs_totalSize items 0]
    exact (hperm.map _).sum_eq
  have hcsAll : ∀ c ∈ manyConfigs 0 items, c = manyConfig c.start (itemAt items c.start) :=
    manyConfigs_configOf items []
  have hcs : ∀ c ∈ sortedConfigs items, c = manyConfig c.start (itemAt items c.start) :=
    fun c hc => hcsAll c (hperm.mem_iff.1 hc)
  have hitemsAll : (manyConfigs 0 items).map (fun c => itemAt items c.start) = items :=
    manyConfigs_items items []
  have hndp : ((sortedConfigs items).map block.position).Nodup := by
    rw [(hperm.map _).nodup_iff, manyConfigs_positions]
    exact hpos
  -- the plan
  set plan0 : SetManyPlan :=
    { selected := [], mapBlockInsert := [], listWriteData := [],
      startListBlock := (getListConfig f).1, totalLastSpaceUsed := 0 } with hplan0
  set P := placeAll items cFirstSize (sortedConfigs items) 0 plan0 with hP
  set slot : block → block := fun c => mapGet emptyBlock P.mapBlockInsert c.position with hslot
  set S1 := P.startListBlock + P.totalLastSpaceUsed with hS1
  have hplaced : (sortedConfigs items).map slot = placed cFirstSize (sortedConfigs items) 0 :=
    placeAll_lookup items cFirstSize _ 0 plan0 hndp
  have hS1a : cFirstSize + totalSize (sortedConfigs items) ≤ S1 := by
    rw [hS1, hP]
    cases hsc : sortedConfigs items with
    | nil =>
      show cFirstSize + 0 ≤ (getListConfig f).1 + 0
      omega
    | cons c rest => rw [placeAll_total_cons]; omega
  have hu := uintSize_gt
  have hfit1 := hfit
  unfold setManyFits at hfit1
  have hS1b : S1 < uintSize := by
    rw [hS1, hP]
    cases hsc : sortedConfigs items with
    | nil =>
      show (getListConfig f).1 + 0 < uintSize
      omega
    | cons c rest =>
      rw [placeAll_total_cons, ← hsc, htot]
      omega
  -- the file
  have heq : Bucket.SetMany f items =
      setManyWrite (updateListBlock f S1 (encodeBlocks ((manyConfigs 0 items).map slot)))
        (placedWrites items cFirstSize (sortedConfigs items) 0) := by
    unfold Bucket.SetMany setManyData
    simp only [getNewListNotContainListKey, List.nil_append, setManyCollect_eq]
    rw [setManyPlan_eq f _ items _ h1 h2, setManyInfoData_eq, placeAll_writes]
    rfl
  have hlen : (encodeBlocks ((manyConfigs 0 items).map slot)).length ≤ 105 * items.length := by
    have := encodeBlocks_length_le ((manyConfigs 0 items).map slot)
    rwa [List.length_map, manyConfigs_length] at this
  have hcfg1 : getListConfig
      (updateListBlock f S1 (encodeBlocks ((manyConfigs 0 items).map slot))) =
      (S1, encodeBlocks ((manyConfigs 0 items).map slot)) :=
    getListConfig_updateListBlock f _ _ (by omega) (by omega) (by omega) (encodeBlocks_noEnd _)
  have hcfg : getListConfig (Bucket.SetMany f items) =
      (S1, encodeBlocks ((manyConfigs 0 items).map slot)) := by
    rw [heq, setManyWrite_config items cFirstSize (le_refl _) _ 0 _ hcs
      (by rw [hcfg1]; simpa using hS1a), hcfg1]
  have hflen : S1 ≤ (Bucket.SetMany f items).length := by
    rw [heq]
    refine le_trans ?_ (setManyWrite_length _ _)
    refine le_trans ?_ (length_updateListBlock _ _ _)
    omega
  have hstored : ∀ c ∈ sortedConfigs items,
      storedItem (Bucket.SetMany f items) (slot c) = itemAt items c.start := by
    have := setManyWrite_items items cFirstSize (sortedConfigs items) 0
      (updateListBlock f S1 (encodeBlocks ((manyConfigs 0 items).map slot))) hcs
    rw [← heq, ← hplaced, List.map_map] at this
    exact List.map_inj_left.1 this
  have hfields := placed_fields cFirstSize slot (sortedConfigs items) 0 hplaced
  have hbounds : ∀ c ∈ sortedConfigs items,
      cFirstSize ≤ (slot c).start ∧ (slot c).stop ≤ S1 := by
    intro c hc
    have hm : slot c ∈ placed cFirstSize (sortedConfigs items) 0 := by
      rw [← hplaced]; exact List.mem_map_of_mem _ hc
    have := placed_bounds cFirstSize _ 0 _ hm
    omega
  have hitem : ∀ c ∈ manyConfigs 0 items, itemAt items c.start ∈ items := by
    intro c hc
    have := List.mem_map_of_mem (fun c => itemAt items c.start) hc
    rwa [hitemsAll] at this
  refine ⟨(manyConfigs 0 items).map slot, ⟨?_, ?_, ?_, ?_, ?_, ?_⟩, ?_⟩
  · rw [hcfg]
  · intro d hd
    obtain ⟨c, hc, rfl⟩ := List.mem_map.1 hd
    rw [hcfg]
    exact hbounds c (hperm.mem_iff.2 hc)
  · intro d hd
    obtain ⟨c, hc, rfl⟩ := List.mem_map.1 hd
    exact le_trans (hbounds c (hperm.mem_iff.2 hc)).2 hflen
  · intro d hd
    obtain ⟨c, hc, rfl⟩ := List.mem_map.1 hd
    have hkey := hk _ (hitem c hc)
    have h3 : c.sizeKey = (itemAt items c.start).Key.length := congrArg block.sizeKey (hcsAll c hc)
    rw [(hfields c (hperm.mem_iff.2 hc)).1, h3]
    have := List.length_pos.2 hkey
    omega
  · intro d hd
    obtain ⟨c, hc, rfl⟩ := List.mem_map.1 hd
    have hsk : pullKey (Bucket.SetMany f items) (slot c) = (itemAt items c.start).Key :=
      congrArg Item.Key (hstored c (hperm.mem_iff.2 hc))
    obtain ⟨_, f2, f3, _⟩ := hfields c (hperm.mem_iff.2 hc)
    rw [hsk, f2, f3]
    exact ⟨congrArg block.sumKey (hcsAll c hc), congrArg block.sumMd5 (hcsAll c hc)⟩
  · have hp : ((sortedConfigs items).map slot).Pairwise block.Disjoint := by
      rw [hplaced]; exact placed_pairwise _ _ _
    exact ((hperm.map slot).pairwise_iff (fun h => block.Disjoint.symm h)).1 hp
  · refine Eq.trans ?_ hitemsAll
    rw [List.map_map]
    apply List.map_congr_left
    intro c hc
    exact hstored c (hperm.mem_iff.2 hc)

/-! ## Key uniqueness -/

theorem exists_last_of_exists {α : Type} (p : α → Prop) :
    ∀ (l : List α), (∃ x ∈ l, p x) →
      ∃ pre d post, l = pre ++ d :: post ∧ p d ∧ ∀ x ∈ post, ¬ p x := by
  intro l
  induction l with
  | nil => intro h; obtain ⟨x, hx, _⟩ := h; exact absurd hx (List.not_mem_nil _)
  | cons a l ih =>
    intro h
    by_cases hl : ∃ x ∈ l, p x
    · obtain ⟨pre, d, post, e, hd, hpost⟩ := ih hl
      exact ⟨a :: pre, d, post, by rw [e]; rfl, hd, hpost⟩
    · obtain ⟨x, hx, hpx⟩ := h
      rcases List.mem_cons.1 hx with hx | hx
      · subst hx
        exact ⟨[], x, l, rfl, hpx, fun y hy hpy => hl ⟨y, hy, hpy⟩⟩
      · exact absurd ⟨x, hx, hpx⟩ hl

/-- When the last descriptor that stores the key is `d`, `DeleteTo` either returns at its
guard and leaves the file as it is, or rewrites the index to the descriptors behind `d`
(with `d` itself when the match is kept and `d` is not the first descriptor). -/
theorem BucketInv.deleteTo_cases {f : File} {pre post : List block} {d : block}
    (h : BucketInv f (pre ++ d :: post)) (key : List Nat) (hd : storedKey f d = key)
    (hpost : ∀ x ∈ post, storedKey f x ≠ key) (b : Bool) (hb : b = true ∨ pre ≠ []) :
    Bucket.DeleteTo f key b = f ∨
      Bucket.DeleteTo f key b = updateListBlock f (getListConfig f).1
        (encodeBlocks (if b then post else d :: post)) := by
  have hdm : d ∈ pre ++ d :: post := by simp
  have hkm : keyMatches f key d := (h.keyMatches_iff key d hdm).2 hd
  have hpm : ∀ x ∈ post, ¬ keyMatches f key x := fun x hx =>
    (h.keyMatches_iff key x (by simp [hx])).not.2 (hpost x hx)
  obtain ⟨_, s2, _⟩ := deleteToDataLoop_last_match f key pre post d h.fits hkm hpm
    { thisFoundIndex := 0, thisFoundFinishIndex := 0, lastFoundBlockInfo := emptyBlock,
      blockControlIndexBefore := 0 }
  have e : encodeBlocks (pre ++ d :: post) =
      encodeBlocks (pre ++ [d]) ++ encodeBlocks post := by
    rw [← encodeBlocks_append]; simp
  unfold Bucket.DeleteTo deleteToData
  rw [h.index]
  simp only
  by_cases hg : (deleteToDataLoop f key (encodeBlocks (pre ++ d :: post)) 0 emptyBlock []
      { thisFoundIndex := 0, thisFoundFinishIndex := 0, lastFoundBlockInfo := emptyBlock,
        blockControlIndexBefore := 0 }).thisFoundIndex = 0 ∨
    (deleteToDataLoop f key (encodeBlocks (pre ++ d :: post)) 0 emptyBlock []
      { thisFoundIndex := 0, thisFoundFinishIndex := 0, lastFoundBlockInfo := emptyBlock,
        blockControlIndexBefore := 0 }).lastFoundBlockInfo.start = 0 ∨
    (deleteToDataLoop f key (encodeBlocks (pre ++ d :: post)) 0 emptyBlock []
      { thisFoundIndex := 0, thisFoundFinishIndex := 0, lastFoundBlockInfo := emptyBlock,
        blockControlIndexBefore := 0 }).lastFoundBlockInfo.sizeKey = 0 ∨
    (deleteToDataLoop f key (encodeBlocks (pre ++ d :: post)) 0 emptyBlock []
      { thisFoundIndex := 0, thisFoundFinishIndex := 0, lastFoundBlockInfo := emptyBlock,
        blockControlIndexBefore := 0 }).lastFoundBlockInfo.sumKey = 0 ∨
    (deleteToDataLoop f key (encodeBlocks (pre ++ d :: post)) 0 emptyBlock []
      { thisFoundIndex := 0, thisFoundFinishIndex := 0, lastFoundBlockInfo := emptyBlock,
        blockControlIndexBefore := 0 }).lastFoundBlockInfo.sumMd5 = 0
  · rw [if_pos hg]
    exact Or.inl rfl
  · rw [if_neg hg]
    right
    cases b with
    | true =>
      rw [if_pos rfl, if_pos rfl, s2, e, List.drop_left]
    | false =>
      have hpre : pre ≠ [] := by
        rcases hb with hb | hb
        · exact absurd hb Bool.false_ne_true
        · exact hb
      have s1 := deleteToDataLoop_match_later f key pre post d hpre h.fits hkm hpm
        { thisFoundIndex := 0, thisFoundFinishIndex := 0, lastFoundBlockInfo := emptyBlock,
          blockControlIndexBefore := 0 }
      rw [if_neg Bool.false_ne_true, if_neg Bool.false_ne_true, s1, encodeBlocks_append,
        List.drop_left]

/-- Method `DeleteTo` leaves a bucket whose live descriptors are some of the old ones, with
their entries unchanged, when the match is deleted too or the first descriptor of the
index does not store the key. -/
theorem BucketInv.deleteTo_sublist {f : File} {ds : List block} (h : BucketInv f ds)
    (key : List Nat) (b : Bool)
    (hb : b = true ∨ ∀ d0 ∈ ds.head?, storedKey f d0 ≠ key) :
    ∃ ds1, ds1.Sublist ds ∧ BucketInv (Bucket.DeleteTo f key b) ds1 ∧
      ∀ d ∈ ds1, storedItem (Bucket.DeleteTo f key b) d = storedItem f d := by
  by_cases hex : ∃ x ∈ ds, storedKey f x = key
  · obtain ⟨pre, d, post, e, hd, hpost⟩ :=
      exists_last_of_exists (fun x => storedKey f x = key) ds hex
    subst e
    have hb2 : b = true ∨ pre ≠ [] := by
      rcases hb with hb | hb
      · exact Or.inl hb
      · right
        intro hp
        subst hp
        exact hb d (by simp) hd
    rcases h.deleteTo_cases key hd hpost b hb2 with e | e
    · rw [e]; exact ⟨_, List.Sublist.refl _, h, fun _ _ => rfl⟩
    · have hsub : (if b then post else d :: post).Sublist (pre ++ d :: post) := by
        split_ifs
        · exact (List.sublist_cons_self d post).trans (List.sublist_append_right pre _)
        · exact List.sublist_append_right pre _
      rw [e]
      exact ⟨_, hsub, (h.rewrite_sublist hsub).2⟩
  · have habs : ∀ d ∈ ds, storedKey f d ≠ key := fun d hd e => hex ⟨d, hd, e⟩
    rw [h.deleteTo_absent key b habs]
    exact ⟨ds, List.Sublist.refl _, h, fun _ _ => rfl⟩

theorem BucketInv.liveKeys_eq {f : File} {ds : List block} (h : BucketInv f ds) :
    liveKeys f = ds.map (storedKey f) := by
  unfold liveKeys
  rw [h.scanBlocks_eq]
  rfl

/-- Key uniqueness passes to a bucket whose live descriptors are some of the old ones,
with their keys unchanged. -/
theorem BucketInv.keysUnique_sublist {f g : File} {ds ds1 : List block} (h : BucketInv f ds)
    (hg : BucketInv g ds1) (hsub : ds1.Sublist ds)
    (hst : ∀ d ∈ ds1, storedItem g d = storedItem f d) (hu : KeysUnique f) :
    KeysUnique g := by
  unfold KeysUnique at hu ⊢
  rw [h.liveKeys_eq] at hu
  have e : ds1.map (storedKey g) = ds1.map (storedKey f) :=
    List.map_congr_left (fun d hd => congrArg Item.Key (hst d hd))
  rw [hg.liveKeys_eq, e]
  exact hu.sublist (hsub.map _)

/-- Method `Set` keeps the keys of the live descriptors pairwise distinct. -/
theorem BucketInv.set_keysUnique {f : File} {ds : List block} (h : BucketInv f ds)
    (hu : KeysUnique f) (item : Item) (hk : item.Key ≠ []) (hfit : setFits f item) :
    KeysUnique (Bucket.Set f item) := by
  obtain ⟨h1, h2, _, h4, _⟩ := h.set_spec item hk hfit
  unfold KeysUnique at hu ⊢
  rw [h.liveKeys_eq] at hu
  have e : (ds.filter (fun d => !decide (storedKey f d = item.Key))).map
      (storedKey (Bucket.Set f item)) =
      (ds.filter (fun d => !decide (storedKey f d = item.Key))).map (storedKey f) :=
    List.map_congr_left (fun d hd => congrArg Item.Key (h4 d hd))
  rw [h1.liveKeys_eq, List.map_append, e, List.map_singleton, h2]
  refine List.Nodup.append (hu.sublist ((List.filter_sublist _).map _))
    (List.nodup_singleton _) ?_
  intro k hk1 hk2
  rw [List.mem_singleton] at hk2
  obtain ⟨d, hd, e1⟩ := List.mem_map.1 hk1
  have := (List.mem_filter.1 hd).2
  rw [hk2] at e1
  simp [e1] at this

/-- Method `SetMany` leaves pairwise distinct keys when the input items have non-empty,
pairwise distinct keys and pairwise distinct map keys. -/
theorem setMany_keysUnique (f : File) (items : List Item) (hk : ∀ it ∈ items, it.Key ≠ [])
    (hkeys : (items.map Item.Key).Nodup) (hpos : (items.map Item.position).Nodup)
    (hfit : setManyFits items) : KeysUnique (Bucket.SetMany f items) := by
  obtain ⟨ds, h1, h2⟩ := setMany_spec f items hk hpos hfit
  unfold KeysUnique
  have e : ds.map (storedKey (Bucket.SetMany f items)) = items.map Item.Key := by
    refine Eq.trans ?_ (congrArg (List.map Item.Key) h2)
    rw [List.map_map]
    rfl
  rw [h1.liveKeys_eq, e]
  exact hkeys

/-- C14. Key uniqueness is kept by every mutating operation on inputs without a repeated
key: starting from a bucket that satisfies the invariants and whose live descriptors have
pairwise distinct keys, the keys across the live descriptors are still pairwise distinct
after `Set` (non-empty key, writes below `2 ^ 63`), after `Delete`, after
`DeleteTo(key, true)`, after `DeleteTo(key, false)` when the first descriptor of the index
does not store the key, and after `SetMany` of items with non-empty, pairwise distinct
keys and pairwise distinct map keys `(sizeKey, sumKey, sumMd5, sizeData)`. -/
theorem key_uniqueness_preserved (f : File) (ds : List block) (h : BucketInv f ds)
    (hu : KeysUnique f) :
    (∀ item : Item, item.Key ≠ [] → setFits f item → KeysUnique (Bucket.Set f item)) ∧
      (∀ key : List Nat, KeysUnique (Bucket.Delete f key)) ∧
      (∀ key : List Nat, KeysUnique (Bucket.DeleteTo f key true)) ∧
      (∀ key : List Nat, (∀ d0 ∈ ds.head?, storedKey f d0 ≠ key) →
        KeysUnique (Bucket.DeleteTo f key false)) ∧
      (∀ items : List Item, (∀ it ∈ items, it.Key ≠ []) → (items.map Item.Key).Nodup →
        (items.map Item.position).Nodup → setManyFits items →
        KeysUnique (Bucket.SetMany f items)) := by
  refine ⟨fun item hk hfit => h.set_keysUnique hu item hk hfit, fun key => ?_, fun key => ?_,
    fun key hfirst => ?_, fun items hk hkeys hpos hfit =>
      setMany_keysUnique f items hk hkeys hpos hfit⟩
  · obtain ⟨_, h2, h3⟩ := h.delete_spec key
    exact h.keysUnique_sublist h2 (List.filter_sublist _) h3 hu
  · obtain ⟨ds1, hsub, h2, h3⟩ := h.deleteTo_sublist key true (Or.inl rfl)
    exact h.keysUnique_sublist h2 hsub h3 hu
  · obtain ⟨ds1, hsub, h2, h3⟩ := h.deleteTo_sublist key false (Or.inr hfirst)
    exact h.keysUnique_sublist h2 hsub h3 hu

/-- C14, as stated, fails: on a fresh file `SetMany` of two items with the same key writes
two live descriptors that store that key. -/
theorem setMany_repeated_key_not_unique :
    BucketInv [] [] ∧ KeysUnique [] ∧
      liveKeys (Bucket.SetMany [] [⟨[107], [65]⟩, ⟨[107], [66, 66]⟩]) = [[107], [107]] ∧
      ¬ KeysUnique (Bucket.SetMany [] [⟨[107], [65]⟩, ⟨[107], [66, 66]⟩]) :=
  ⟨emptyFile_inv, by decide, by decide, by decide⟩

/-! ## Concrete instances -/

theorem deleteTo_without_match_witness :
    (∀ blk ∈ scanBlocks (getListConfig fileABCD).2, ¬ keyMatches fileABCD [122] blk) ∧
      Bucket.DeleteTo fileABCD [122] false = fileABCD ∧
      getListConfig (Bucket.DeleteTo fileABCD [122] false) = getListConfig fileABCD :=
  ⟨by decide, deleteTo_without_match fileABCD [122] false (by decide)⟩

theorem delete_idempotent_witness :
    BucketInv fileABCD [blockA, blockB, blockC, blockD] ∧
      (∀ d ∈ [blockA, blockB, blockC, blockD], storedKey fileABCD d ≠ [122]) ∧
      getListConfig (Bucket.Delete fileABCD [122]) = getListConfig fileABCD ∧
      getListConfig (Bucket.Delete (Bucket.Delete fileABCD [98]) [98]) =
        getListConfig (Bucket.Delete fileABCD [98]) :=
  ⟨fileABCD_inv, by decide,
    ((delete_idempotent fileABCD _ [122] fileABCD_inv).1 (by decide)).1,
    (delete_idempotent fileABCD _ [98] fileABCD_inv).2.1⟩

theorem listLockDelete_takes_front_witness :
    BucketInv fileABCD [blockA, blockB, blockC, blockD] ∧
      (Bucket.ListLockDelete fileABCD 3).2 =
        ([blockA, blockB, blockC, blockD].take 3).map (storedItem fileABCD) ∧
      (Bucket.ListLockDelete (Bucket.ListLockDelete fileABCD 3).1 3).2 =
        (([blockA, blockB, blockC, blockD].drop 3).take 3).map (storedItem fileABCD) :=
  ⟨fileABCD_inv, (listLockDelete_takes_front fileABCD _ 3 fileABCD_inv).1,
    (listLockDelete_takes_front fileABCD _ 3 fileABCD_inv).2.2.2.2.2.2⟩

/-- The queue example of the spec: after `SetMany` of three jobs on a fresh file,
`ListLockDelete(2)` returns the first two and the next `ListLockDelete(2)` the third. -/
theorem listLockDelete_queue_example :
    (Bucket.ListLockDelete (Bucket.SetMany [] itemsJobs) 2).2 = itemsJobs.take 2 ∧
      (Bucket.ListLockDelete (Bucket.ListLockDelete (Bucket.SetMany [] itemsJobs) 2).1 2).2 =
        itemsJobs.drop 2 := by
  decide

theorem key_uniqueness_preserved_witness :
    BucketInv fileABCD [blockA, blockB, blockC, blockD] ∧ KeysUnique fileABCD ∧
      KeysUnique (Bucket.Set fileABCD itemK1new) ∧
      KeysUnique (Bucket.Delete fileABCD [98]) ∧
      KeysUnique (Bucket.DeleteTo fileABCD [98] true) ∧
      KeysUnique (Bucket.DeleteTo fileABCD [98] false) ∧
      KeysUnique (Bucket.SetMany fileABCD itemsJobs) :=
  ⟨fileABCD_inv, by decide,
    (key_uniqueness_preserved fileABCD _ fileABCD_inv (by decide)).1 itemK1new (by decide)
      (by decide),
    (key_uniqueness_preserved fileABCD _ fileABCD_inv (by decide)).2.1 [98],
    (key_uniqueness_preserved fileABCD _ fileABCD_inv (by decide)).2.2.1 [98],
    (key_uniqueness_preserved fileABCD _ fileABCD_inv (by decide)).2.2.2.1 [98] (by decide),
    (key_uniqueness_preserved fileABCD _ fileABCD_inv (by decide)).2.2.2.2 itemsJobs
      (by decide) (by decide) (by decide) (by decide)⟩

theorem set_keeps_payloads_disjoint_witness :
    BucketInv (Bucket.Delete fileABCD [98]) [blockA, blockC, blockD] ∧
      ({ Key := [101], Data := [50] } : Item).Key ≠ [] ∧
      setFits (Bucket.Delete fileABCD [98]) { Key := [101], Data := [50] } ∧
      [blockA, blockC, blockD].filter
          (fun d => !decide (storedKey (Bucket.Delete fileABCD [98]) d =
            ({ Key := [101], Data := [50] } : Item).Key)) = [blockA, blockC, blockD] ∧
      (setBlock (Bucket.Delete fileABCD [98]) { Key := [101], Data := [50] }).start = 130 ∧
      (getListConfig (Bucket.Set (Bucket.Delete fileABCD [98])
        { Key := [101], Data := [50] })).1 = 136 ∧
      (∀ d ∈ [blockA, blockC, blockD].filter
          (fun d => !decide (storedKey (Bucket.Delete fileABCD [98]) d =
            ({ Key := [101], Data := [50] } : Item).Key)),
        d.Disjoint (setBlock (Bucket.Delete fileABCD [98]) { Key := [101], Data := [50] })) ∧
      ([blockA, blockC, blockD].filter
          (fun d => !decide (storedKey (Bucket.Delete fileABCD [98]) d =
            ({ Key := [101], Data := [50] } : Item).Key)) ++
        [setBlock (Bucket.Delete fileABCD [98]) { Key := [101], Data := [50] }]).Pairwise
        block.Disjoint ∧
      ∀ d ∈ [blockA, blockC, blockD].filter
          (fun d => !decide (storedKey (Bucket.Delete fileABCD [98]) d =
            ({ Key := [101], Data := [50] } : Item).Key)) ++
        [setBlock (Bucket.Delete fileABCD [98]) { Key := [101], Data := [50] }],
        cFirstSize ≤ d.start ∧ d.stop ≤ (getListConfig (Bucket.Set
          (Bucket.Delete fileABCD [98]) { Key := [101], Data := [50] })).1 :=
  ⟨⟨by decide, by decide, by decide, by decide, by decide, by decide⟩, by decide, by decide,
    by decide, by decide, by decide,
    (set_keeps_payloads_disjoint (Bucket.Delete fileABCD [98]) [blockA, blockC, blockD]
      { Key := [101], Data := [50] }
      ⟨by decide, by decide, by decide, by decide, by decide, by decide⟩ (by decide)
      (by decide)).2.2.2.2.1,
    (set_keeps_payloads_disjoint (Bucket.Delete fileABCD [98]) [blockA, blockC, blockD]
      { Key := [101], Data := [50] }
      ⟨by decide, by decide, by decide, by decide, by decide, by decide⟩ (by decide)
      (by decide)).2.2.2.2.2.1,
    (set_keeps_payloads_disjoint (Bucket.Delete fileABCD [98]) [blockA, blockC, blockD]
      { Key := [101], Data := [50] }
      ⟨by decide, by decide, by decide, by decide, by decide, by decide⟩ (by decide)
      (by decide)).2.2.2.2.2.2⟩

theorem insert_then_delete_all_witness :
    (∀ it ∈ itemsABCD, it.Key ≠ []) ∧ SetsFit [] itemsABCD ∧
      (∀ it ∈ itemsABCD, it.Key ∈ [[100], [97], [99], [98]]) ∧
      scanBlocks (getListConfig ([[100], [97], [99], [98]].foldl Bucket.Delete
        (itemsABCD.foldl Bucket.Set []))).2 = [] ∧
      headerIndexLen ([[100], [97], [99], [98]].foldl Bucket.Delete
        (itemsABCD.foldl Bucket.Set [])) = 0 :=
  ⟨by decide, by decide, by decide,
    (insert_then_delete_all itemsABCD [[100], [97], [99], [98]] (by decide) (by decide)
      (by decide)).2.2.1,
    (insert_then_delete_all itemsABCD [[100], [97], [99], [98]] (by decide) (by decide)
      (by decide)).2.2.2⟩

theorem codec_roundtrip_witness :
    2 ^ 63 ≤ 2 ^ 63 ∧
      digitsToNumber ((groupDigitsAppend [7, 250] (2 ^ 63)).drop [7, 250].length) = 2 ^ 63 ∧
      digitsToNumber (groupDigitsAppend [] (2 ^ 63)) = 2 ^ 63 :=
  ⟨le_refl _, codec_roundtrip [7, 250] (2 ^ 63) (le_refl _)⟩

theorem codec_bytes_below_sentinels_witness :
    255 < uintSize ∧ 1 ≤ ((groupDigitsAppend [] 255).drop ([] : List Nat).length).length ∧
      ∀ b ∈ (groupDigitsAppend [] 255).drop ([] : List Nat).length, b ≤ 249 :=
  ⟨by decide, (codec_bytes_below_sentinels [] 255 (by decide)).1,
    (codec_bytes_below_sentinels [] 255 (by decide)).2.1⟩

theorem header_index_roundtrip_witness :
    cFirstSize ≤ 300 ∧ 300 < uintSize ∧ (encodeBlocks [blockA, blockB]).length < uintSize ∧
      cEnd ∉ encodeBlocks [blockA, blockB] ∧
      getListConfig (updateListBlock fileK1 300 (encodeBlocks [blockA, blockB])) =
        (300, encodeBlocks [blockA, blockB]) :=
  ⟨by decide, by decide, by decide, by decide,
    (header_index_roundtrip fileK1 300 (encodeBlocks [blockA, blockB]) (by decide) (by decide)
      (by decide) (by decide)).1⟩

theorem stream_roundtrip_witness :
    (∀ d ∈ [blockA, blockB, blockC], d.Fits) ∧
      (∀ d ∈ [blockA, blockB, blockC], ¬ keyMatches fileABCD [122] d) ∧
      getNewListNotContainKey fileABCD ([blockA, blockB, blockC].foldl pushBlockToData [])
        [122] true = ([blockA, blockB, blockC].foldl pushBlockToData [],
          [blockA, blockB, blockC]) :=
  ⟨by decide, by decide,
    stream_roundtrip fileABCD [blockA, blockB, blockC] [122] (by decide) (by decide)⟩

/-! ## DeleteTo and keys of zero bytes -/

theorem sumBytes_zeros (key : List Nat) (hz : ∀ x ∈ key, x = 0) : sumBytes key = 0 := by
  rw [sumBytes_eq]
  have : key.sum = 0 := List.sum_eq_zero hz
  rw [this]
  rfl

/-- When the byte sum of the key is 0, the descriptor `deleteToData` remembers as found
has `sumKey = 0` all through the scan. -/
theorem deleteToDataLoop_sumKey_zero (f : File) (key : List Nat) (hsum : sumBytes key = 0)
    (stream : List Nat) :
    ∀ (i : Nat) (b : block) (t : List Nat) (st : DeleteToScan),
    st.lastFoundBlockInfo.sumKey = 0 →
    (deleteToDataLoop f key stream i b t st).lastFoundBlockInfo.sumKey = 0 := by
  induction stream with
  | nil => intro i b t st h; simpa [deleteToDataLoop] using h
  | cons v rest ih =>
    intro i b t st h
    rw [deleteToDataLoop]
    by_cases h1 : v = cStart
    · rw [if_pos h1]; exact ih _ _ _ _ h
    · rw [if_neg h1]
      by_cases h2 : v = cSizeKey
      · rw [if_pos h2]; exact ih _ _ _ _ h
      · rw [if_neg h2]
        by_cases h3 : v = cSumKey
        · rw [if_pos h3]; exact ih _ _ _ _ h
        · rw [if_neg h3]
          by_cases h4 : v = cSumMd5
          · rw [if_pos h4]; exact ih _ _ _ _ h
          · rw [if_neg h4]
            by_cases h5 : v = cSizeData
            · rw [if_pos h5]
              simp only
              split_ifs with hm
              · exact ih _ _ _ _ (hm.2.1.trans hsum)
              · exact ih _ _ _ _ h
            · rw [if_neg h5]
              by_cases h6 : v = cEnd
              · rw [if_pos h6]; exact ih _ _ _ _ h
              · rw [if_neg h6]; exact ih _ _ _ _ h

/-- Method `DeleteTo` returns at its guard, before any write, when the byte sum of the key
is 0. -/
theorem deleteTo_sumKey_zero (f : File) (key : List Nat) (b : Bool)
    (hsum : sumBytes key = 0) : Bucket.DeleteTo f key b = f := by
  unfold Bucket.DeleteTo deleteToData
  simp only
  rw [if_pos]
  right; right; right; left
  exact deleteToDataLoop_sumKey_zero f key hsum _ 0 emptyBlock [] _ rfl

/-- C25. For every bucket that satisfies the invariants and holds, in the live descriptor
`d`, a non-empty key composed entirely of zero bytes, the stored `sumKey` is 0 and
`DeleteTo(key, include_match)` writes nothing, for both values of `include_match`: the
file, and with it the header and the index, is unchanged, the live descriptors are the
same and `Get` still returns the entry. The early exit does not depend on the invariants:
it holds for every file. -/
theorem deleteTo_zero_key_noop (f : File) (ds : List block) (d : block) (key : List Nat)
    (alsoDeleteTheFoundBlock : Bool) (h : BucketInv f ds) (hd : d ∈ ds)
    (hkey : storedKey f d = key) (_hne : key ≠ []) (hz : ∀ x ∈ key, x = 0) :
    d.sumKey = 0 ∧
      Bucket.DeleteTo f key alsoDeleteTheFoundBlock = f ∧
      getListConfig (Bucket.DeleteTo f key alsoDeleteTheFoundBlock) = getListConfig f ∧
      BucketInv (Bucket.DeleteTo f key alsoDeleteTheFoundBlock) ds ∧
      Bucket.Get (Bucket.DeleteTo f key alsoDeleteTheFoundBlock) key = Bucket.Get f key ∧
      (Bucket.Get f key).1 = key ∧
      ∀ (g : File) (b : Bool), Bucket.DeleteTo g key b = g := by
  have hsum := sumBytes_zeros key hz
  have e := deleteTo_sumKey_zero f key alsoDeleteTheFoundBlock hsum
  have hget : (Bucket.Get f key).1 = key := by
    obtain ⟨pre, d1, post, e1, hd1, hpost⟩ :=
      exists_last_of_exists (fun x => storedKey f x = key) ds ⟨d, hd, hkey⟩
    subst e1
    rw [h.get_last key hd1 hpost]
  refine ⟨?_, e, by rw [e], by rw [e]; exact h, by rw [e], hget,
    fun g b => deleteTo_sumKey_zero g key b hsum⟩
  rw [(h.fingerprint d hd).1, pullKey_eq_storedKey, hkey]
  exact hsum

/-! ## Get with more than one matching descriptor -/

/-- C23 fails on the code. In the bucket `SetMany` leaves from `k -> A`, `k -> BB` the
index holds two descriptors that pass the fingerprint filter and the exact key compare
for `k`; the earliest in stream order stores `A`, and `getOneData` returns `BB`, the data
of the last one: the `break` after a match leaves the `switch`, not the loop. -/
theorem get_returns_last_match :
    scanBlocks (getListConfig fileTwice).2 =
        [{ start := 131, sizeKey := 1, sumKey := 107, sumMd5 := 2208, sizeData := 1 },
         { start := 128, sizeKey := 1, sumKey := 107, sumMd5 := 2208, sizeData := 2 }] ∧
      (∀ d ∈ scanBlocks (getListConfig fileTwice).2, keyMatches fileTwice [107] d) ∧
      pullData fileTwice
        { start := 131, sizeKey := 1, sumKey := 107, sumMd5 := 2208, sizeData := 1 } =
        ([107], [65]) ∧
      pullData fileTwice
        { start := 128, sizeKey := 1, sumKey := 107, sumMd5 := 2208, sizeData := 2 } =
        ([107], [66, 66]) ∧
      getOneData fileTwice (getListConfig fileTwice).2 [107] = ([107], [66, 66]) ∧
      Bucket.Get fileTwice [107] ≠ ([107], [65]) := by
  decide

/-! ## The order of the writes -/

theorem applyWrites_updateListBlockWrites (f : File) (start : Nat) (l : List Nat) :
    applyWrites f (updateListBlockWrites start l) = updateListBlock f start l := rfl

theorem applyWrites_append (f : File) (xs ys : List WriteCall) :
    applyWrites f (xs ++ ys) = applyWrites (applyWrites f xs) ys := by
  unfold applyWrites
  rw [List.foldl_append]

/-- The file `setOneData` leaves is the file after its writes, in the order issued. -/
theorem applyWrites_setOneDataWrites (f : File) (listBlockData key data : List Nat)
    (S : Nat) :
    applyWrites f (setOneDataWrites f listBlockData key data S) =
      setOneData f listBlockData key data S := rfl

theorem applyWrites_payloads (ws : List writeDataTemp) : ∀ g : File,
    applyWrites g (ws.map (fun item =>
      ({ kind := WriteKind.payload, off := item.start, bytes := item.key ++ item.data } :
        WriteCall))) = setManyWrite g ws := by
  induction ws with
  | nil => intro g; rfl
  | cons w rest ih =>
    intro g
    rw [List.map_cons, setManyWrite, ← ih]
    rfl

/-- The file `setManyData` leaves is the file after its writes, in the order issued. -/
theorem applyWrites_setManyDataWrites (f : File) (listBlockData : List Nat)
    (listData : List Item) (S : Nat) :
    applyWrites f (setManyDataWrites f listBlockData listData S) =
      setManyData f listBlockData listData S := by
  unfold setManyDataWrites setManyData
  simp only
  rw [applyWrites_append, applyWrites_updateListBlockWrites, applyWrites_payloads]

theorem placedWrites_length (ld : List Item) (base : Nat) : ∀ (cs : List block) (used : Nat),
    (placedWrites ld base cs used).length = cs.length := by
  intro cs
  induction cs with
  | nil => intro used; rfl
  | cons c rest ih => intro used; rw [placedWrites, List.length_cons, ih, List.length_cons]

theorem indexFirst_of_kinds (ws : List WriteCall) (n : Nat)
    (h : ws.map WriteCall.kind =
      [WriteKind.index, WriteKind.header] ++ List.replicate n WriteKind.payload) :
    IndexFirst ws := by
  unfold IndexFirst
  have hp : (ws.map WriteCall.kind).Pairwise
      (fun a b => a = WriteKind.payload → b = WriteKind.payload) := by
    rw [h]
    refine List.Pairwise.cons (fun _ _ hx => by cases hx)
      (List.Pairwise.cons (fun _ _ hx => by cases hx) ?_)
    show (List.replicate n WriteKind.payload).Pairwise _
    rw [List.pairwise_replicate]
    exact Or.inr (fun _ => rfl)
  exact List.pairwise_map.1 hp

/-- C24, as stated, fails: in `Set(k1 -> v1)` on a fresh file the writes issued are the
index at offset 132, the header at offset 0 and then the payload at offset 128, so a
payload write follows the writes of `updateListBlock`; the same in `SetMany`. -/
theorem set_writes_payload_last :
    (setOneDataWrites [] (getListConfig []).2 itemK1.Key itemK1.Data
        (getListConfig []).1).map (fun w => (w.kind, w.off)) =
      [(WriteKind.index, 132), (WriteKind.header, 0), (WriteKind.payload, 128)] ∧
      ¬ PayloadsFirst (setOneDataWrites [] (getListConfig []).2 itemK1.Key itemK1.Data
        (getListConfig []).1) ∧
      ¬ PayloadsFirst (setManyDataWrites [] (getListConfig []).2 itemsJobs
        (getListConfig []).1) := by
  decide

/-- C24, amended. In every `Set` and every `SetMany` call the writes of `updateListBlock`
come first: the sequence of writes issued is the index list, the header, and then the
payload (for `SetMany` one payload write per planned item, in planning order), and the
file the call leaves is the file after these writes. So every payload write follows the
rewrite of the index and the update of the header. -/
theorem index_written_before_payload (f : File) (item : Item) (listData : List Item) :
    (setOneDataWrites f (getListConfig f).2 item.Key item.Data (getListConfig f).1).map
        WriteCall.kind = [WriteKind.index, WriteKind.header, WriteKind.payload] ∧
      IndexFirst (setOneDataWrites f (getListConfig f).2 item.Key item.Data
        (getListConfig f).1) ∧
      applyWrites f (setOneDataWrites f (getListConfig f).2 item.Key item.Data
        (getListConfig f).1) = Bucket.Set f item ∧
      (setManyDataWrites f (getListConfig f).2 listData (getListConfig f).1).map
        WriteCall.kind =
        [WriteKind.index, WriteKind.header] ++
          List.replicate listData.length WriteKind.payload ∧
      IndexFirst (setManyDataWrites f (getListConfig f).2 listData (getListConfig f).1) ∧
      applyWrites f (setManyDataWrites f (getListConfig f).2 listData (getListConfig f).1) =
        Bucket.SetMany f listData := by
  have hk1 : (setOneDataWrites f (getListConfig f).2 item.Key item.Data
      (getListConfig f).1).map WriteCall.kind =
      [WriteKind.index, WriteKind.header, WriteKind.payload] := rfl
  have hlen : (setManyPlan f (getListConfig f).2 listData
      (getListConfig f).1).listWriteData.length = listData.length := by
    rw [setManyPlan_eq f _ listData _ (getListConfig_fst_ge f) (getListConfig_fst_lt f),
      placeAll_writes, List.nil_append, placedWrites_length, (sortedConfigs_perm _).length_eq,
      manyConfigs_length]
  have hk2 : (setManyDataWrites f (getListConfig f).2 listData (getListConfig f).1).map
      WriteCall.kind =
      [WriteKind.index, WriteKind.header] ++
        List.replicate listData.length WriteKind.payload := by
    unfold setManyDataWrites
    simp only [List.map_append, List.map_map]
    rw [← hlen]
    congr 1
    exact List.eq_replicate_iff.2 ⟨by rw [List.length_map], fun b hb => by
      obtain ⟨_, _, rfl⟩ := List.mem_map.1 hb
      rfl⟩
  exact ⟨hk1, indexFirst_of_kinds _ 1 hk1, applyWrites_setOneDataWrites f _ _ _ _, hk2,
    indexFirst_of_kinds _ _ hk2, applyWrites_setManyDataWrites f _ _ _⟩

/-! ## getListSpace: the gaps partition the data region -/

/-- The sweep of `getListSpace` keeps the gaps in ascending order and apart, bounded by
live payloads on both sides, and covers everything below its cursor. -/
theorem getListSpaceSweep_partition (S : Nat) (ds : List block) (h : Layout S ds)
    (l : List Nat) :
    ∀ (cur : Nat) (acc : List block),
      l.Pairwise (fun a b => a < b) →
      (∀ s ∈ l, ∃ d ∈ ds, d.start = s) →
      (∀ s ∈ l, cur ≤ s) →
      (∀ g ∈ acc, (g.start = cFirstSize ∨ ∃ d ∈ ds, d.stop = g.start) ∧
        (∃ d ∈ ds, d.start = g.start + g.sizeData) ∧ g.start + g.sizeData < cur) →
      acc.Pairwise (fun a b => a.start + a.sizeData < b.start) →
      (∀ x, cFirstSize ≤ x → x < cur →
        (∃ g ∈ acc, g.start ≤ x ∧ x < g.start + g.sizeData) ∨
          ∃ d ∈ ds, d.start ≤ x ∧ x < d.stop) →
      (cur = cFirstSize ∨ ∃ d ∈ ds, d.stop = cur) →
      (∀ g ∈ (getListSpaceSweep
          (ds.foldl (fun m b => mapSet m b.start (b.sizeKey + b.sizeData)) []) l cur acc).2,
          (g.start = cFirstSize ∨ ∃ d ∈ ds, d.stop = g.start) ∧
          (∃ d ∈ ds, d.start = g.start + g.sizeData) ∧
          g.start + g.sizeData < (getListSpaceSweep
            (ds.foldl (fun m b => mapSet m b.start (b.sizeKey + b.sizeData)) [])
            l cur acc).1) ∧
        (getListSpaceSweep
          (ds.foldl (fun m b => mapSet m b.start (b.sizeKey + b.sizeData)) []) l cur acc).2.Pairwise
          (fun a b => a.start + a.sizeData < b.start) ∧
        (∀ x, cFirstSize ≤ x → x < (getListSpaceSweep
            (ds.foldl (fun m b => mapSet m b.start (b.sizeKey + b.sizeData)) [])
            l cur acc).1 →
          (∃ g ∈ (getListSpaceSweep
              (ds.foldl (fun m b => mapSet m b.start (b.sizeKey + b.sizeData)) [])
              l cur acc).2, g.start ≤ x ∧ x < g.start + g.sizeData) ∨
            ∃ d ∈ ds, d.start ≤ x ∧ x < d.stop) ∧
        ((getListSpaceSweep
            (ds.foldl (fun m b => mapSet m b.start (b.sizeKey + b.sizeData)) [])
            l cur acc).1 = cFirstSize ∨
          ∃ d ∈ ds, d.stop = (getListSpaceSweep
            (ds.foldl (fun m b => mapSet m b.start (b.sizeKey + b.sizeData)) [])
            l cur acc).1) := by
  induction l with
  | nil =>
    intro cur acc _ _ _ hacc hpw hcov hcur
    simp only [getListSpaceSweep]
    exact ⟨hacc, hpw, hcov, hcur⟩
  | cons s rest ih =>
    intro cur acc hsorted hsrc hle hacc hpw hcov hcur
    rw [getListSpaceSweep_cons]
    obtain ⟨ds0, hds0, hs0⟩ := hsrc s (by simp)
    have hmg := h.mapGet ds0 hds0
    rw [hs0] at hmg
    have hcs : cur ≤ s := hle s (by simp)
    have hlay0 := h.1 ds0 hds0
    have hstop0 : ds0.stop = s + (ds0.sizeKey + ds0.sizeData) := by
      unfold block.stop; omega
    rw [hmg, ← hstop0]
    have hsorted1 := List.pairwise_cons.1 hsorted
    have hpos := hlay0.2.2
    apply ih
    · exact hsorted1.2
    · exact fun x hx => hsrc x (List.mem_cons_of_mem _ hx)
    · intro s1 hs1
      obtain ⟨d1, hd1, hd1s⟩ := hsrc s1 (List.mem_cons_of_mem _ hs1)
      have hlt : s < s1 := hsorted1.1 s1 hs1
      have hlay1 := h.1 d1 hd1
      rcases h.disjoint_of_ne ds0 hds0 d1 hd1 with he | hdj
      · rw [he] at hs0; omega
      · unfold block.Disjoint at hdj
        unfold block.stop
        omega
    · intro g hg
      split_ifs at hg with hlt
      · rcases List.mem_append.1 hg with h1 | h1
        · obtain ⟨a1, a2, a3⟩ := hacc g h1
          exact ⟨a1, a2, by omega⟩
        · rw [List.mem_singleton] at h1
          subst h1
          refine ⟨hcur, ⟨ds0, hds0, ?_⟩, ?_⟩
          · simp only; omega
          · simp only; omega
      · obtain ⟨a1, a2, a3⟩ := hacc g hg
        exact ⟨a1, a2, by omega⟩
    · split_ifs with hlt
      · rw [List.pairwise_append]
        refine ⟨hpw, List.pairwise_singleton _ _, ?_⟩
        intro a ha b hb
        rw [List.mem_singleton] at hb
        subst hb
        exact (hacc a ha).2.2
      · exact hpw
    · intro x hx1 hx2
      by_cases hxc : x < cur
      · rcases hcov x hx1 hxc with ⟨g, hg, hgx⟩ | hd
        · left
          refine ⟨g, ?_, hgx⟩
          split_ifs
          · exact List.mem_append_left _ hg
          · exact hg
        · exact Or.inr hd
      · by_cases hxs : x < s
        · left
          rw [if_pos (by omega)]
          exact ⟨_, List.mem_append_right _ (List.mem_singleton_self _),
            by simp only; omega, by simp only; omega⟩
        · right
          exact ⟨ds0, hds0, by omega, hx2⟩
    · exact Or.inr ⟨ds0, hds0, rfl⟩

/-- The gaps of `getListSpace`: ascending and apart, every offset of the data region in a
gap or in a live payload, every gap bounded by `cFirstSize` or a live payload on the left
and by a live payload (interior gap) or the index offset (tail gap) on the right. -/
theorem getListSpace_cover (S : Nat) (ds : List block) (h : Layout S ds)
    (h128 : cFirstSize ≤ S) (hS : S < uintSize) :
    (getListSpace S ds).Pairwise (fun a b => a.start + a.sizeData < b.start) ∧
      (∀ x, cFirstSize ≤ x → x < S →
        (∃ g ∈ getListSpace S ds, g.start ≤ x ∧ x < g.start + g.sizeData) ∨
          ∃ d ∈ ds, d.start ≤ x ∧ x < d.stop) ∧
      ∀ g ∈ getListSpace S ds,
        (g.start = cFirstSize ∨ ∃ d ∈ ds, d.stop = g.start) ∧
          ((g.sumKey = 0 ∧ ∃ d ∈ ds, d.start = g.start + g.sizeData) ∨
            (g.sumKey = 1 ∧ g.start + g.sizeData = S)) := by
  have hperm := List.perm_insertionSort (fun a b : Nat => a ≤ b) (ds.map (fun b => b.start))
  have hsorted := @List.sorted_insertionSort Nat (fun a b => a ≤ b) _ _ _
    (ds.map (fun b => b.start))
  have hnodup : (ds.map (fun b => b.start)).Nodup := by
    unfold List.Nodup
    rw [List.pairwise_map]
    exact h.start_ne
  have hnodup1 := hperm.nodup_iff.2 hnodup
  have hlt : ((ds.map (fun b => b.start)).insertionSort (fun a b => a ≤ b)).Pairwise
      (fun a b => a < b) := by
    have hboth := List.Pairwise.and hsorted hnodup1
    exact hboth.imp (fun hab => lt_of_le_of_ne hab.1 hab.2)
  have hsrc : ∀ s ∈ (ds.map (fun b => b.start)).insertionSort (fun a b => a ≤ b),
      ∃ d ∈ ds, d.start = s := by
    intro s hs
    obtain ⟨d, hd, hds⟩ := List.mem_map.1 (hperm.mem_iff.1 hs)
    exact ⟨d, hd, hds⟩
  have hge : ∀ s ∈ (ds.map (fun b => b.start)).insertionSort (fun a b => a ≤ b),
      cFirstSize ≤ s := by
    intro s hs
    obtain ⟨d, hd, hds⟩ := hsrc s hs
    rw [← hds]
    exact (h.1 d hd).1
  have hold := getListSpaceSweep_spec S ds h
    ((ds.map (fun b => b.start)).insertionSort (fun a b => a ≤ b)) cFirstSize [] hlt hsrc hge
    (fun d hd => Or.inr (hperm.mem_iff.2 (List.mem_map.2 ⟨d, hd, rfl⟩)))
    (le_refl _) h128 (by simp)
  have hnew := getListSpaceSweep_partition S ds h
    ((ds.map (fun b => b.start)).insertionSort (fun a b => a ≤ b)) cFirstSize [] hlt hsrc hge
    (by simp) List.Pairwise.nil (fun x h1 h2 => absurd h2 (by omega)) (Or.inl rfl)
  obtain ⟨hg, _, _, hcS⟩ := hold
  obtain ⟨n1, n2, n3, n4⟩ := hnew
  unfold getListSpace
  simp only
  generalize hsweq : getListSpaceSweep
    (ds.foldl (fun m b => mapSet m b.start (b.sizeKey + b.sizeData)) [])
    ((ds.map (fun b => b.start)).insertionSort (fun a b => a ≤ b)) cFirstSize [] = sw
    at hg hcS n1 n2 n3 n4
  have hlast : (S + uintSize - sw.1 % uintSize) % uintSize = S - sw.1 := by
    rw [Nat.mod_eq_of_lt (lt_of_le_of_lt hcS hS)]
    have : S + uintSize - sw.1 = (S - sw.1) + uintSize := by omega
    rw [this, Nat.add_mod_right, Nat.mod_eq_of_lt (by omega)]
  rw [hlast]
  by_cases hpos : S - sw.1 > 0
  · rw [if_pos hpos]
    refine ⟨?_, ?_, ?_⟩
    · rw [List.pairwise_append]
      refine ⟨n2, List.pairwise_singleton _ _, ?_⟩
      intro a ha b hb
      rw [List.mem_singleton] at hb
      subst hb
      exact (n1 a ha).2.2
    · intro x hx1 hx2
      by_cases hxc : x < sw.1
      · rcases n3 x hx1 hxc with ⟨g, hgm, hgx⟩ | hd
        · exact Or.inl ⟨g, List.mem_append_left _ hgm, hgx⟩
        · exact Or.inr hd
      · left
        exact ⟨_, List.mem_append_right _ (List.mem_singleton_self _),
          by simp only; omega, by simp only; omega⟩
    · intro g hgm
      rcases List.mem_append.1 hgm with h1 | h1
      · exact ⟨(n1 g h1).1, Or.inl ⟨(hg g h1).2, (n1 g h1).2.1⟩⟩
      · rw [List.mem_singleton] at h1
        subst h1
        exact ⟨n4, Or.inr ⟨rfl, by simp only; omega⟩⟩
  · rw [if_neg hpos]
    have hsw : sw.1 = S := by omega
    refine ⟨n2, ?_, ?_⟩
    · intro x hx1 hx2
      exact n3 x hx1 (by omega)
    · intro g hgm
      exact ⟨(n1 g hgm).1, Or.inl ⟨(hg g hgm).2, (n1 g hgm).2.1⟩⟩

/-- C21. For every index offset `S >= 128` (a `uint`) and every list of live descriptors
whose payload intervals are non-empty, pairwise disjoint and inside `[128, S)`,
`getListSpace` returns gaps in ascending offset order that are exactly the maximal
uncovered intervals: each gap has positive size, lies in `[128, S)` and meets no live
interval; consecutive gaps are apart; every offset of `[128, S)` lies in a gap or in a
live interval; each gap starts at 128 or where a live interval ends, and ends where a
live interval starts or at `S`; and a gap is tagged tail (`sumKey = 1`) exactly when it
ends at `S`, interior (`sumKey = 0`) otherwise. -/
theorem getListSpace_partition (S : Nat) (ds : List block) (h : Layout S ds)
    (h128 : cFirstSize ≤ S) (hS : S < uintSize) :
    (getListSpace S ds).Pairwise (fun a b => a.start + a.sizeData < b.start) ∧
      (∀ g ∈ getListSpace S ds, 0 < g.sizeData ∧ cFirstSize ≤ g.start ∧
        g.start + g.sizeData ≤ S ∧
        ∀ d ∈ ds, d.stop ≤ g.start ∨ g.start + g.sizeData ≤ d.start) ∧
      (∀ x, cFirstSize ≤ x → x < S →
        (∃ g ∈ getListSpace S ds, g.start ≤ x ∧ x < g.start + g.sizeData) ∨
          ∃ d ∈ ds, d.start ≤ x ∧ x < d.stop) ∧
      (∀ g ∈ getListSpace S ds,
        (g.start = cFirstSize ∨ ∃ d ∈ ds, d.stop = g.start) ∧
          (g.start + g.sizeData = S ∨ ∃ d ∈ ds, d.start = g.start + g.sizeData)) ∧
      ∀ g ∈ getListSpace S ds,
        (g.sumKey = 1 ↔ g.start + g.sizeData = S) ∧ (g.sumKey = 0 ∨ g.sumKey = 1) := by
  obtain ⟨c1, c2, c3⟩ := getListSpace_cover S ds h h128 hS
  have hok := getListSpace_spec S ds h h128 hS
  refine ⟨c1, ?_, c2, ?_, ?_⟩
  · intro g hg
    obtain ⟨g1, g2, g3, g4⟩ := hok g hg
    refine ⟨g2, g1, g3, ?_⟩
    rcases g4 with ⟨_, hd⟩ | ⟨_, _, hd⟩
    · exact hd
    · exact fun d hd1 => Or.inl (hd d hd1)
  · intro g hg
    refine ⟨(c3 g hg).1, ?_⟩
    rcases (c3 g hg).2 with ⟨_, hd⟩ | ⟨_, he⟩
    · exact Or.inr hd
    · exact Or.inl he
  · intro g hg
    rcases (c3 g hg).2 with ⟨hk, d, hd, hde⟩ | ⟨hk, he⟩
    · have hl := h.1 d hd
      unfold block.stop at hl
      refine ⟨⟨fun h1 => by omega, fun h1 => by omega⟩, Or.inl hk⟩
    · exact ⟨⟨fun _ => he, fun _ => hk⟩, Or.inr hk⟩

theorem getListSpace_partition_witness :
    Layout 200 [{ start := 145, sizeKey := 5, sumKey := 0, sumMd5 := 0, sizeData := 40 },
        { start := 138, sizeKey := 1, sumKey := 0, sumMd5 := 0, sizeData := 1 }] ∧
      cFirstSize ≤ 200 ∧ 200 < uintSize ∧
      (getListSpace 200 [{ start := 145, sizeKey := 5, sumKey := 0, sumMd5 := 0, sizeData := 40 },
        { start := 138, sizeKey := 1, sumKey := 0, sumMd5 := 0, sizeData := 1 }]).Pairwise
        (fun a b => a.start + a.sizeData < b.start) ∧
      getListSpace 200 [{ start := 145, sizeKey := 5, sumKey := 0, sumMd5 := 0, sizeData := 40 },
        { start := 138, sizeKey := 1, sumKey := 0, sumMd5 := 0, sizeData := 1 }] =
        [{ start := 128, sizeKey := 0, sumKey := 0, sumMd5 := 0, sizeData := 10 },
         { start := 140, sizeKey := 0, sumKey := 0, sumMd5 := 0, sizeData := 5 },
         { start := 190, sizeKey := 0, sumKey := 1, sumMd5 := 0, sizeData := 10 }] :=
  ⟨⟨by decide, by decide⟩, by decide, by decide,
    (getListSpace_partition 200 _ ⟨by decide, by decide⟩ (by decide) (by decide)).1,
    by decide⟩

/-! ## getPerfectSpace: which gap is chosen -/

/-- The loop of `getPerfectSpace` over gaps of positive size: either no gap seen so far is
eligible, or the state holds an eligible gap, and every eligible gap seen after it is not
larger, and has its size when it ends below the index offset. -/
theorem getPerfectSpace_fold_choice (S blockSize : Nat) :
    ∀ (post pre : List block) (st : PerfectScan),
      (∀ g ∈ post, 0 < g.sizeData) →
      ((st = { perfectFreeSize := 0, startBlock := S, isLastSpace := false } ∧
          ∀ g ∈ pre, ¬ (g.sizeData ≥ blockSize ∨ g.sumKey = 1)) ∨
        ∃ a g b, pre = a ++ g :: b ∧ (g.sizeData ≥ blockSize ∨ g.sumKey = 1) ∧
          st = { perfectFreeSize := g.sizeData, startBlock := g.start,
                 isLastSpace := decide (g.sumKey = 1) } ∧
          ∀ s ∈ b, (s.sizeData ≥ blockSize ∨ s.sumKey = 1) →
            s.sizeData ≤ g.sizeData ∧ (S > s.start + s.sizeData → s.sizeData = g.sizeData)) →
      ((post.foldl (getPerfectSpaceStep S blockSize) st =
            { perfectFreeSize := 0, startBlock := S, isLastSpace := false } ∧
          ∀ g ∈ pre ++ post, ¬ (g.sizeData ≥ blockSize ∨ g.sumKey = 1)) ∨
        ∃ a g b, pre ++ post = a ++ g :: b ∧ (g.sizeData ≥ blockSize ∨ g.sumKey = 1) ∧
          post.foldl (getPerfectSpaceStep S blockSize) st =
            { perfectFreeSize := g.sizeData, startBlock := g.start,
              isLastSpace := decide (g.sumKey = 1) } ∧
          ∀ s ∈ b, (s.sizeData ≥ blockSize ∨ s.sumKey = 1) →
            s.sizeData ≤ g.sizeData ∧ (S > s.start + s.sizeData → s.sizeData = g.sizeData)) := by
  intro post
  induction post with
  | nil =>
    intro pre st _ hst
    rw [List.append_nil]
    exact hst
  | cons s rest ih =>
    intro pre st hpos hst
    have hs := hpos s (List.mem_cons_self _ _)
    have e : pre ++ s :: rest = (pre ++ [s]) ++ rest := by simp
    rw [List.foldl_cons, e]
    apply ih (pre ++ [s]) _ (fun g hg => hpos g (List.mem_cons_of_mem _ hg))
    unfold getPerfectSpaceStep
    by_cases helig : s.sizeData ≥ blockSize ∨ s.sumKey = 1
    · rw [if_pos helig]
      rcases hst with ⟨h0, _⟩ | ⟨a, g, b, hpre, hg, hgst, hb⟩
      · right
        rw [h0, if_pos (Or.inl hs)]
        exact ⟨pre, s, [], rfl, helig, rfl, fun x hx => absurd hx (List.not_mem_nil _)⟩
      · right
        rw [hgst]
        simp only
        by_cases hrep : s.sizeData > g.sizeData ∨
            (g.sizeData > s.sizeData ∧ S > s.start + s.sizeData)
        · rw [if_pos hrep]
          exact ⟨pre, s, [], rfl, helig, rfl, fun x hx => absurd hx (List.not_mem_nil _)⟩
        · rw [if_neg hrep]
          refine ⟨a, g, b ++ [s], by rw [hpre]; simp, hg, rfl, ?_⟩
          intro x hx hxe
          rcases List.mem_append.1 hx with hx | hx
          · exact hb x hx hxe
          · rw [List.mem_singleton] at hx
            subst hx
            rw [not_or, not_and] at hrep
            exact ⟨by omega, fun hlt => by have := hrep.2; omega⟩
    · rw [if_neg helig]
      rcases hst with ⟨h0, hnone⟩ | ⟨a, g, b, hpre, hg, hgst, hb⟩
      · left
        refine ⟨h0, ?_⟩
        intro x hx
        rcases List.mem_append.1 hx with hx | hx
        · exact hnone x hx
        · rw [List.mem_singleton] at hx
          subst hx
          exact helig
      · right
        refine ⟨a, g, b ++ [s], by rw [hpre]; simp, hg, hgst, ?_⟩
        intro x hx hxe
        rcases List.mem_append.1 hx with hx | hx
        · exact hb x hx hxe
        · rw [List.mem_singleton] at hx
          subst hx
          exact absurd hxe helig

/-- C22, as stated, fails: with live payloads `[138, 140)` and `[145, 196)` below the index
offset 200 the gaps are `[128, 138)`, `[140, 145)` and the tail `[196, 200)`; for a block
of 3 bytes `getPerfectSpace` chooses the gap at 140, of size 5, although the eligible gap at
128 has size 10. -/
theorem getPerfectSpace_not_largest :
    Layout 200 [{ start := 138, sizeKey := 1, sumKey := 0, sumMd5 := 0, sizeData := 1 },
        { start := 145, sizeKey := 5, sumKey := 0, sumMd5 := 0, sizeData := 46 }] ∧
      getListSpace 200 [{ start := 138, sizeKey := 1, sumKey := 0, sumMd5 := 0, sizeData := 1 },
        { start := 145, sizeKey := 5, sumKey := 0, sumMd5 := 0, sizeData := 46 }] =
        [{ start := 128, sizeKey := 0, sumKey := 0, sumMd5 := 0, sizeData := 10 },
         { start := 140, sizeKey := 0, sumKey := 0, sumMd5 := 0, sizeData := 5 },
         { start := 196, sizeKey := 0, sumKey := 1, sumMd5 := 0, sizeData := 4 }] ∧
      getPerfectSpace
        (getListSpace 200
          [{ start := 138, sizeKey := 1, sumKey := 0, sumMd5 := 0, sizeData := 1 },
           { start := 145, sizeKey := 5, sumKey := 0, sumMd5 := 0, sizeData := 46 }])
        200 3 = (200, 140) ∧
      ¬ ∀ g ∈ getListSpace 200
          [{ start := 138, sizeKey := 1, sumKey := 0, sumMd5 := 0, sizeData := 1 },
           { start := 145, sizeKey := 5, sumKey := 0, sumMd5 := 0, sizeData := 46 }],
        (g.sizeData ≥ 3 ∨ g.sumKey = 1) → g.sizeData ≤ 5 :=
  ⟨⟨by decide, by decide⟩, by decide, by decide, by decide⟩

/-- C22, amended. For every gap list produced by `getListSpace` (index offset `S >= 128`,
live intervals non-empty, pairwise disjoint, inside `[128, S)`) and every `blockSize`:
when no gap is eligible (size at least `blockSize`, or tagged tail) the block is placed at
the index offset; otherwise the gap `getPerfectSpace` places the block in is an eligible
gap such that no eligible gap behind it in the list (at a higher offset) is strictly
larger, and every eligible interior gap behind it has exactly its size. Nothing is
promised about the gaps before it: a later eligible interior gap replaces the choice
whenever its size differs. -/
theorem getPerfectSpace_choice (S blockSize : Nat) (ds : List block) (h : Layout S ds)
    (h128 : cFirstSize ≤ S) (hS : S < uintSize) :
    ((∀ g ∈ getListSpace S ds, ¬ (g.sizeData ≥ blockSize ∨ g.sumKey = 1)) ∧
        (getPerfectSpace (getListSpace S ds) S blockSize).2 = S) ∨
      ∃ pre g post, getListSpace S ds = pre ++ g :: post ∧
        (g.sizeData ≥ blockSize ∨ g.sumKey = 1) ∧
        (getPerfectSpace (getListSpace S ds) S blockSize).2 = g.start ∧
        ∀ s ∈ post, (s.sizeData ≥ blockSize ∨ s.sumKey = 1) →
          s.sizeData ≤ g.sizeData ∧ (s.sumKey = 0 → s.sizeData = g.sizeData) := by
  obtain ⟨_, _, hends⟩ := getListSpace_cover S ds h h128 hS
  have hok := getListSpace_spec S ds h h128 hS
  have hfold := getPerfectSpace_fold_choice S blockSize (getListSpace S ds) []
    { perfectFreeSize := 0, startBlock := S, isLastSpace := false }
    (fun g hg => (hok g hg).2.1)
    (Or.inl ⟨rfl, fun g hg => absurd hg (List.not_mem_nil _)⟩)
  rw [List.nil_append] at hfold
  unfold getPerfectSpace
  simp only
  rcases hfold with ⟨h0, hnone⟩ | ⟨a, g, b, hl, hg, hst, hb⟩
  · left
    rw [h0]
    exact ⟨hnone, rfl⟩
  · right
    rw [hst]
    refine ⟨a, g, b, hl, hg, rfl, ?_⟩
    intro s hs hse
    have hsm : s ∈ getListSpace S ds := by rw [hl]; simp [hs]
    refine ⟨(hb s hs hse).1, fun hk => (hb s hs hse).2 ?_⟩
    rcases (hends s hsm).2 with ⟨_, d, hd, hde⟩ | ⟨h1, _⟩
    · have hl := h.1 d hd
      unfold block.stop at hl
      omega
    · omega

/-! ## SetMany: items that share a map key -/

theorem placeAll_lookup_last (ld : List Item) (base : Nat) (k : String) :
    ∀ (cs : List block) (used : Nat) (plan : SetManyPlan),
      mapGet emptyBlock (placeAll ld base cs used plan).mapBlockInsert k =
        lastPlaced base k cs used (mapGet emptyBlock plan.mapBlockInsert k) := by
  intro cs
  induction cs with
  | nil => intro used plan; rfl
  | cons c rest ih =>
    intro used plan
    rw [placeAll, ih, lastPlaced]
    congr 1

theorem lastPlaced_other (base : Nat) (k : String) :
    ∀ (cs : List block) (used : Nat) (cur : block),
      (∀ c ∈ cs, c.position ≠ k) → lastPlaced base k cs used cur = cur := by
  intro cs
  induction cs with
  | nil => intro used cur _; rfl
  | cons c rest ih =>
    intro used cur h
    rw [lastPlaced, if_neg (h c (List.mem_cons_self _ _))]
    exact ih _ _ (fun x hx => h x (List.mem_cons_of_mem _ hx))

theorem totalSize_append (xs ys : List block) :
    totalSize (xs ++ ys) = totalSize xs + totalSize ys := by
  simp [totalSize]

theorem totalSize_cons (c : block) (cs : List block) :
    totalSize (c :: cs) = c.sizeKey + c.sizeData + totalSize cs := by
  simp [totalSize]

/-- The map lookup finds the descriptor placed last under the map key. -/
theorem lastPlaced_split (base : Nat) (k : String) (c : block) (post : List block)
    (hc : c.position = k) (hpost : ∀ x ∈ post, x.position ≠ k) :
    ∀ (pre : List block) (used : Nat) (cur : block),
      lastPlaced base k (pre ++ c :: post) used cur =
        { start := base + used + totalSize pre, sizeKey := c.sizeKey, sumKey := c.sumKey,
          sumMd5 := c.sumMd5, sizeData := c.sizeData } := by
  intro pre
  induction pre with
  | nil =>
    intro used cur
    rw [List.nil_append, lastPlaced, if_pos hc, lastPlaced_other base k post _ _ hpost]
    rfl
  | cons x xs ih =>
    intro used cur
    rw [List.cons_append, lastPlaced, ih, totalSize_cons]
    congr 1
    omega

theorem placedWrites_append (ld : List Item) (base : Nat) : ∀ (xs ys : List block) (used : Nat),
    placedWrites ld base (xs ++ ys) used =
      placedWrites ld base xs used ++ placedWrites ld base ys (used + totalSize xs) := by
  intro xs
  induction xs with
  | nil => intro ys used; simp [placedWrites, totalSize]
  | cons x xs ih =>
    intro ys used
    rw [List.cons_append, placedWrites, ih, placedWrites, totalSize_cons, List.cons_append]
    congr 3
    omega

/-- In a list of descriptors of positive size, two initial segments of the same total
size are the same. -/
theorem prefix_eq_of_totalSize {l : List block}
    (hpos : ∀ c : block, c ∈ l → 0 < c.sizeKey + c.sizeData) :
    ∀ (p q x y : List block), p ++ x = l → q ++ y = l → totalSize p = totalSize q → p = q := by
  intro p q x y hp hq ht
  have hz : ∀ t : List block, (∀ c ∈ t, c ∈ l) → totalSize t = 0 → t = [] := by
    intro t ht1 ht0
    cases t with
    | nil => rfl
    | cons c cs =>
      have := hpos c (ht1 c (List.mem_cons_self _ _))
      rw [totalSize_cons] at ht0
      omega
  rcases List.append_eq_append_iff.1 (hp.trans hq.symm) with ⟨t, h1, h2⟩ | ⟨t, h1, h2⟩
  · have ht0 : totalSize t = 0 := by
      rw [h1, totalSize_append] at ht
      omega
    have := hz t (fun c hc => by rw [← hq, h1]; simp [hc]) ht0
    rw [h1, this, List.append_nil]
  · have ht0 : totalSize t = 0 := by
      rw [h1, totalSize_append] at ht
      omega
    have := hz t (fun c hc => by rw [← hp, h1]; simp [hc]) ht0
    rw [h1, this, List.append_nil]

theorem manyConfigs_getElem : ∀ (items : List Item) (i : Nat),
    ∀ c ∈ manyConfigs i items, (manyConfigs i items)[c.start - i]? = some c ∧ i ≤ c.start := by
  intro items
  induction items with
  | nil => intro i c hc; exact absurd hc (List.not_mem_nil _)
  | cons it rest ih =>
    intro i c hc
    rw [manyConfigs] at hc ⊢
    rcases List.mem_cons.1 hc with hc | hc
    · subst hc
      have : (manyConfig i it).start = i := rfl
      rw [this, Nat.sub_self]
      exact ⟨List.getElem?_cons_zero, le_refl _⟩
    · obtain ⟨h1, h2⟩ := ih (i + 1) c hc
      have e : c.start - i = (c.start - (i + 1)) + 1 := by omega
      rw [e, List.getElem?_cons_succ]
      exact ⟨h1, by omega⟩

theorem manyConfigs_map_position (g : String → block) : ∀ (items : List Item) (i : Nat),
    (manyConfigs i items).map (fun c => g c.position) =
      items.map (fun it => g it.position) := by
  intro items i
  have h := congrArg (List.map g) (manyConfigs_positions items i)
  rw [List.map_map, List.map_map] at h
  exact h

/-- What `SetMany(items)` writes, whatever the map keys of the items: the plan is a
sequential placement from `cFirstSize` in planning order, the index holds the encoding of
`manyDescriptors` at the offset behind the payloads. -/
theorem setMany_index (f : File) (items : List Item) (hfit : setManyFits items) :
    manyPlan f items = placeAll items cFirstSize (sortedConfigs items) 0
        { selected := [], mapBlockInsert := [], listWriteData := [],
          startListBlock := (getListConfig f).1, totalLastSpaceUsed := 0 } ∧
      (manyPlan f items).listWriteData =
        placedWrites items cFirstSize (sortedConfigs items) 0 ∧
      manyDescriptors f items =
        items.map (fun it => lastPlaced cFirstSize it.position (sortedConfigs items) 0
          emptyBlock) ∧
      cFirstSize + totalSize (sortedConfigs items) ≤
        (manyPlan f items).startListBlock + (manyPlan f items).totalLastSpaceUsed ∧
      getListConfig (Bucket.SetMany f items) =
        ((manyPlan f items).startListBlock + (manyPlan f items).totalLastSpaceUsed,
          encodeBlocks (manyDescriptors f items)) := by
  have h1 := getListConfig_fst_ge f
  have h2 := getListConfig_fst_lt f
  have hperm := sortedConfigs_perm items
  have htot : totalSize (sortedConfigs items) =
      (items.map (fun it => it.Key.length + it.Data.length)).sum := by
    rw [← manyConfigs_totalSize items 0]
    exact (hperm.map _).sum_eq
  have hcs : ∀ c ∈ sortedConfigs items, c = manyConfig c.start (itemAt items c.start) :=
    fun c hc => manyConfigs_configOf items [] c (hperm.mem_iff.1 hc)
  have hplan : manyPlan f items = placeAll items cFirstSize (sortedConfigs items) 0
      { selected := [], mapBlockInsert := [], listWriteData := [],
        startListBlock := (getListConfig f).1, totalLastSpaceUsed := 0 } :=
    setManyPlan_eq f _ items _ h1 h2
  have hW : (manyPlan f items).listWriteData =
      placedWrites items cFirstSize (sortedConfigs items) 0 := by
    rw [hplan, placeAll_writes, List.nil_append]
  have hD : manyDescriptors f items =
      items.map (fun it => lastPlaced cFirstSize it.position (sortedConfigs items) 0
        emptyBlock) := by
    unfold manyDescriptors
    apply List.map_congr_left
    intro it _
    rw [hplan, placeAll_lookup_last]
    rfl
  have hS1a : cFirstSize + totalSize (sortedConfigs items) ≤
      (manyPlan f items).startListBlock + (manyPlan f items).totalLastSpaceUsed := by
    rw [hplan]
    cases hsc : sortedConfigs items with
    | nil =>
      show cFirstSize + 0 ≤ (getListConfig f).1 + 0
      omega
    | cons c rest => rw [placeAll_total_cons]; omega
  have hu := uintSize_gt
  have hfit1 := hfit
  unfold setManyFits at hfit1
  have hS1b : (manyPlan f items).startListBlock + (manyPlan f items).totalLastSpaceUsed <
      uintSize := by
    rw [hplan]
    cases hsc : sortedConfigs items with
    | nil =>
      show (getListConfig f).1 + 0 < uintSize
      omega
    | cons c rest =>
      rw [placeAll_total_cons, ← hsc, htot]
      omega
  have heq : Bucket.SetMany f items =
      setManyWrite (updateListBlock f
          ((manyPlan f items).startListBlock + (manyPlan f items).totalLastSpaceUsed)
          (encodeBlocks (manyDescriptors f items)))
        (placedWrites items cFirstSize (sortedConfigs items) 0) := by
    rw [← hW]
    unfold Bucket.SetMany setManyData
    simp only [getNewListNotContainListKey, List.nil_append, setManyCollect_eq]
    rw [setManyInfoData_eq,
      manyConfigs_map_position (fun k => mapGet emptyBlock
        (setManyPlan f (getListConfig f).2 items (getListConfig f).1).mapBlockInsert k)]
    rfl
  have hlen : (encodeBlocks (manyDescriptors f items)).length ≤ 105 * items.length := by
    have := encodeBlocks_length_le (manyDescriptors f items)
    unfold manyDescriptors at this ⊢
    rwa [List.length_map] at this
  have hcfg1 : getListConfig (updateListBlock f
      ((manyPlan f items).startListBlock + (manyPlan f items).totalLastSpaceUsed)
      (encodeBlocks (manyDescriptors f items))) =
      ((manyPlan f items).startListBlock + (manyPlan f items).totalLastSpaceUsed,
        encodeBlocks (manyDescriptors f items)) :=
    getListConfig_updateListBlock f _ _ (by omega) hS1b (by omega) (encodeBlocks_noEnd _)
  refine ⟨hplan, hW, hD, hS1a, ?_⟩
  rw [heq, setManyWrite_config items cFirstSize (le_refl _) _ 0 _ hcs
    (by rw [hcfg1]; simpa using hS1a), hcfg1]

/-- Every descriptor `SetMany` writes is the one placed last under the map key of its
item. -/
theorem manyDescriptors_last (f : File) (items : List Item) (hfit : setManyFits items) :
    ∀ d ∈ manyDescriptors f items, ∃ p c q, sortedConfigs items = p ++ c :: q ∧
      (∀ x ∈ q, x.position ≠ c.position) ∧
      d = { start := cFirstSize + totalSize p, sizeKey := c.sizeKey, sumKey := c.sumKey,
            sumMd5 := c.sumMd5, sizeData := c.sizeData } := by
  intro d hd
  rw [(setMany_index f items hfit).2.2.1] at hd
  obtain ⟨it, hit, rfl⟩ := List.mem_map.1 hd
  have hm : it.position ∈ (manyConfigs 0 items).map block.position := by
    rw [manyConfigs_positions]
    exact List.mem_map_of_mem _ hit
  obtain ⟨c0, hc0, hc0p⟩ := List.mem_map.1 hm
  obtain ⟨p, c, q, e, hc, hq⟩ := exists_last_of_exists (fun x => x.position = it.position)
    (sortedConfigs items) ⟨c0, (sortedConfigs_perm items).mem_iff.2 hc0, hc0p⟩
  refine ⟨p, c, q, e, fun x hx => by rw [hc]; exact hq x hx, ?_⟩
  rw [e, lastPlaced_split cFirstSize it.position c q hc hq p 0 emptyBlock, Nat.add_zero]

/-- The descriptors `SetMany` writes have `uint` fields, so the scanner reads them back
from the index. -/
theorem manyDescriptors_scan (f : File) (items : List Item) (hfit : setManyFits items) :
    scanBlocks (getListConfig (Bucket.SetMany f items)).2 = manyDescriptors f items := by
  have hperm := sortedConfigs_perm items
  have htot : totalSize (sortedConfigs items) =
      (items.map (fun it => it.Key.length + it.Data.length)).sum := by
    rw [← manyConfigs_totalSize items 0]
    exact (hperm.map _).sum_eq
  have hu := uintSize_gt
  have hfit1 := hfit
  unfold setManyFits at hfit1
  rw [(setMany_index f items hfit).2.2.2.2]
  apply scanBlocks_encodeBlocks
  intro d hd
  obtain ⟨p, c, q, e, _, rfl⟩ := manyDescriptors_last f items hfit d hd
  have hc : c ∈ sortedConfigs items := by rw [e]; simp
  have hcfgc : c = manyConfig c.start (itemAt items c.start) :=
    manyConfigs_configOf items [] c (hperm.mem_iff.1 hc)
  have hsz : totalSize p + (c.sizeKey + c.sizeData) ≤ totalSize (sortedConfigs items) := by
    rw [e, totalSize_append, totalSize_cons]
    omega
  have h3 : c.sumKey = sumBytes (itemAt items c.start).Key := congrArg block.sumKey hcfgc
  have h4 : c.sumMd5 = sumBytes (md5 (itemAt items c.start).Key) :=
    congrArg block.sumMd5 hcfgc
  refine ⟨?_, ?_, ?_, ?_, ?_⟩
  · show cFirstSize + totalSize p < uintSize
    omega
  · show c.sizeKey < uintSize
    omega
  · show c.sumKey < uintSize
    rw [h3]; exact sumBytes_lt _
  · show c.sumMd5 < uintSize
    rw [h4]; exact sumBytes_lt _
  · show c.sizeData < uintSize
    omega

/-- C26, as stated, fails when a third item shares the map key: in `SetMany` of `k -> A`,
`k -> B`, `k -> C` on a fresh file the payloads are written at 128, 130 and 132, and all
three descriptors carry the start offset 132; the descriptors of the first two items
carry the offset of neither of their two payloads. -/
theorem setMany_third_item_wins :
    (manyPlan [] [{ Key := [107], Data := [65] }, { Key := [107], Data := [66] },
        { Key := [107], Data := [67] }]).listWriteData =
      [{ start := 128, key := [107], data := [65] },
       { start := 130, key := [107], data := [66] },
       { start := 132, key := [107], data := [67] }] ∧
      scanBlocks (getListConfig fileThrice).2 =
        [{ start := 132, sizeKey := 1, sumKey := 107, sumMd5 := 2208, sizeData := 1 },
         { start := 132, sizeKey := 1, sumKey := 107, sumMd5 := 2208, sizeData := 1 },
         { start := 132, sizeKey := 1, sumKey := 107, sumMd5 := 2208, sizeData := 1 }] := by
  decide

/-- C26, amended. In `SetMany` of at most twelve items (the inputs on which `sort.Slice`
is the stable insertion sort, so that `sortedConfigs` is the planning order of the
program), with non-empty keys and writes below `2 ^ 63`, let two items of the input have
equal `sizeKey`, `sumKey`, `sumMd5` and `sizeData`, let `a` be the one planned first and
`b` the other, and let no item planned after `b` share their map key. Then the payload of `a` is written at `128 + totalSize pre` and that of `b` later at
the higher offset `128 + totalSize (pre ++ a :: mid)`; the two descriptors written to the
index, at the input positions of `a` and of `b`, are the same descriptor, whose start
offset is that of the payload of `b`, the one placed last under the map key; and no
descriptor of the index carries the start offset of the payload of `a`. -/
theorem setMany_same_map_key (f : File) (items : List Item) (pre mid post : List block)
    (a b : block) (_hlen : items.length ≤ 12) (hk : ∀ it ∈ items, it.Key ≠ [])
    (hfit : setManyFits items)
    (hcs : sortedConfigs items = (pre ++ a :: mid) ++ b :: post)
    (hab : a.sizeKey = b.sizeKey ∧ a.sumKey = b.sumKey ∧ a.sumMd5 = b.sumMd5 ∧
      a.sizeData = b.sizeData)
    (hlast : ∀ c ∈ post, c.position ≠ b.position) :
    (manyPlan f items).listWriteData[pre.length]? =
        some { start := cFirstSize + totalSize pre, key := (itemAt items a.start).Key,
               data := (itemAt items a.start).Data } ∧
      (manyPlan f items).listWriteData[(pre ++ a :: mid).length]? =
        some { start := cFirstSize + totalSize (pre ++ a :: mid),
               key := (itemAt items b.start).Key, data := (itemAt items b.start).Data } ∧
      cFirstSize + totalSize pre < cFirstSize + totalSize (pre ++ a :: mid) ∧
      (getListConfig (Bucket.SetMany f items)).2 = encodeBlocks (manyDescriptors f items) ∧
      scanBlocks (getListConfig (Bucket.SetMany f items)).2 = manyDescriptors f items ∧
      (manyDescriptors f items)[a.start]? =
        some { start := cFirstSize + totalSize (pre ++ a :: mid), sizeKey := b.sizeKey,
               sumKey := b.sumKey, sumMd5 := b.sumMd5, sizeData := b.sizeData } ∧
      (manyDescriptors f items)[b.start]? =
        some { start := cFirstSize + totalSize (pre ++ a :: mid), sizeKey := b.sizeKey,
               sumKey := b.sumKey, sumMd5 := b.sumMd5, sizeData := b.sizeData } ∧
      ∀ d ∈ manyDescriptors f items, d.start ≠ cFirstSize + totalSize pre := by
  obtain ⟨_, hW, hD, _, hcfg⟩ := setMany_index f items hfit
  have hperm := sortedConfigs_perm items
  have hposab : a.position = b.position := by
    unfold block.position
    rw [hab.1, hab.2.1, hab.2.2.1, hab.2.2.2]
  have hpos : ∀ c ∈ sortedConfigs items, 0 < c.sizeKey + c.sizeData := by
    intro c hc
    have hc1 := hperm.mem_iff.1 hc
    have hcfgc : c = manyConfig c.start (itemAt items c.start) :=
      manyConfigs_configOf items [] c hc1
    have hall : (manyConfigs 0 items).map (fun c => itemAt items c.start) = items :=
      manyConfigs_items items []
    have hit : itemAt items c.start ∈ items := by
      have := List.mem_map_of_mem (fun c => itemAt items c.start) hc1
      rwa [hall] at this
    have h3 : c.sizeKey = (itemAt items c.start).Key.length := congrArg block.sizeKey hcfgc
    have := List.length_pos.2 (hk _ hit)
    omega
  have ham : a ∈ sortedConfigs items := by rw [hcs]; simp
  have hbm : b ∈ sortedConfigs items := by rw [hcs]; simp
  have hslot : ∀ c ∈ sortedConfigs items, c.position = b.position →
      (manyDescriptors f items)[c.start]? =
        some { start := cFirstSize + totalSize (pre ++ a :: mid), sizeKey := b.sizeKey,
               sumKey := b.sumKey, sumMd5 := b.sumMd5, sizeData := b.sizeData } := by
    intro c hc hcp
    have hg := (manyConfigs_getElem items 0 c (hperm.mem_iff.1 hc)).1
    rw [Nat.sub_zero] at hg
    rw [hD, ← manyConfigs_map_position
      (fun k => lastPlaced cFirstSize k (sortedConfigs items) 0 emptyBlock) items 0,
      List.getElem?_map, hg, Option.map_some', hcp, hcs,
      lastPlaced_split cFirstSize b.position b post rfl hlast (pre ++ a :: mid) 0 emptyBlock,
      Nat.add_zero]
  refine ⟨?_, ?_, ?_, by rw [hcfg], manyDescriptors_scan f items hfit, hslot a ham hposab,
    hslot b hbm rfl, ?_⟩
  · rw [hW, hcs, List.append_assoc, placedWrites_append,
      List.getElem?_append_right (by rw [placedWrites_length]), placedWrites_length,
      Nat.sub_self, List.cons_append, placedWrites, List.getElem?_cons_zero, Nat.zero_add]
  · rw [hW, hcs, placedWrites_append,
      List.getElem?_append_right (by rw [placedWrites_length]), placedWrites_length,
      Nat.sub_self, placedWrites, List.getElem?_cons_zero, Nat.zero_add]
  · have := hpos a ham
    rw [totalSize_append, totalSize_cons]
    omega
  · intro d hd hst
    obtain ⟨p, c, q, e, hq, rfl⟩ := manyDescriptors_last f items hfit d hd
    have hpp : p = pre := by
      apply prefix_eq_of_totalSize hpos p pre (c :: q) (a :: mid ++ b :: post) e.symm
        (by rw [hcs]; simp)
      simp only at hst
      omega
    subst hpp
    rw [hcs, List.append_assoc, List.cons_append] at e
    have e2 := List.append_cancel_left e
    obtain ⟨e3, e4⟩ := List.cons.inj e2
    have hbq : b ∈ q := by rw [← e4]; simp
    exact hq b hbq (by rw [← e3]; exact hposab.symm)

/-! ## Concrete instances, continued -/

theorem getPerfectSpace_choice_witness :
    Layout 200 [{ start := 138, sizeKey := 1, sumKey := 0, sumMd5 := 0, sizeData := 1 },
        { start := 145, sizeKey := 5, sumKey := 0, sumMd5 := 0, sizeData := 46 }] ∧
      cFirstSize ≤ 200 ∧ 200 < uintSize ∧
      (((∀ g ∈ getListSpace 200
            [{ start := 138, sizeKey := 1, sumKey := 0, sumMd5 := 0, sizeData := 1 },
             { start := 145, sizeKey := 5, sumKey := 0, sumMd5 := 0, sizeData := 46 }],
          ¬ (g.sizeData ≥ 3 ∨ g.sumKey = 1)) ∧
          (getPerfectSpace (getListSpace 200
            [{ start := 138, sizeKey := 1, sumKey := 0, sumMd5 := 0, sizeData := 1 },
             { start := 145, sizeKey := 5, sumKey := 0, sumMd5 := 0, sizeData := 46 }])
            200 3).2 = 200) ∨
        ∃ pre g post, getListSpace 200
            [{ start := 138, sizeKey := 1, sumKey := 0, sumMd5 := 0, sizeData := 1 },
             { start := 145, sizeKey := 5, sumKey := 0, sumMd5 := 0, sizeData := 46 }] =
            pre ++ g :: post ∧
          (g.sizeData ≥ 3 ∨ g.sumKey = 1) ∧
          (getPerfectSpace (getListSpace 200
            [{ start := 138, sizeKey := 1, sumKey := 0, sumMd5 := 0, sizeData := 1 },
             { start := 145, sizeKey := 5, sumKey := 0, sumMd5 := 0, sizeData := 46 }])
            200 3).2 = g.start ∧
          ∀ s ∈ post, (s.sizeData ≥ 3 ∨ s.sumKey = 1) →
            s.sizeData ≤ g.sizeData ∧ (s.sumKey = 0 → s.sizeData = g.sizeData)) :=
  ⟨⟨by decide, by decide⟩, by decide, by decide,
    getPerfectSpace_choice 200 3 _ ⟨by decide, by decide⟩ (by decide) (by decide)⟩

theorem fileZeroKey_inv :
    BucketInv fileZeroKey
      [{ start := 128, sizeKey := 2, sumKey := 0, sumMd5 := 2137, sizeData := 1 }] :=
  ⟨by decide, by decide, by decide, by decide, by decide, by decide⟩

theorem deleteTo_zero_key_noop_witness :
    BucketInv fileZeroKey
        [{ start := 128, sizeKey := 2, sumKey := 0, sumMd5 := 2137, sizeData := 1 }] ∧
      storedKey fileZeroKey
        { start := 128, sizeKey := 2, sumKey := 0, sumMd5 := 2137, sizeData := 1 } = [0, 0] ∧
      Bucket.DeleteTo fileZeroKey [0, 0] true = fileZeroKey ∧
      Bucket.DeleteTo fileZeroKey [0, 0] false = fileZeroKey ∧
      Bucket.Get (Bucket.DeleteTo fileZeroKey [0, 0] true) [0, 0] = ([0, 0], [7]) :=
  ⟨fileZeroKey_inv, by decide,
    (deleteTo_zero_key_noop fileZeroKey _ _ [0, 0] true fileZeroKey_inv
      (List.mem_singleton_self _) (by decide) (by decide) (by decide)).2.1,
    (deleteTo_zero_key_noop fileZeroKey _ _ [0, 0] false fileZeroKey_inv
      (List.mem_singleton_self _) (by decide) (by decide) (by decide)).2.1,
    by decide⟩

theorem setMany_same_map_key_witness :
    [({ Key := [107], Data := [65] } : Item), { Key := [107], Data := [66] },
        { Key := [107], Data := [67] }].length ≤ 12 ∧
    sortedConfigs [{ Key := [107], Data := [65] }, { Key := [107], Data := [66] },
        { Key := [107], Data := [67] }] =
      ([] ++ manyConfig 0 { Key := [107], Data := [65] } ::
        [manyConfig 1 { Key := [107], Data := [66] }]) ++
        manyConfig 2 { Key := [107], Data := [67] } :: [] ∧
      (manyDescriptors [] [{ Key := [107], Data := [65] }, { Key := [107], Data := [66] },
        { Key := [107], Data := [67] }])[0]? =
        some { start := 132, sizeKey := 1, sumKey := 107, sumMd5 := 2208, sizeData := 1 } ∧
      ∀ d ∈ manyDescriptors [] [{ Key := [107], Data := [65] }, { Key := [107], Data := [66] },
        { Key := [107], Data := [67] }], d.start ≠ 128 :=
  ⟨by decide, by decide,
    (setMany_same_map_key []
      [{ Key := [107], Data := [65] }, { Key := [107], Data := [66] },
        { Key := [107], Data := [67] }]
      [] [manyConfig 1 { Key := [107], Data := [66] }] []
      (manyConfig 0 { Key := [107], Data := [65] })
      (manyConfig 2 { Key := [107], Data := [67] })
      (by decide) (by decide) (by decide) (by decide) (by decide) (by decide)).2.2.2.2.2.1,
    (setMany_same_map_key []
      [{ Key := [107], Data := [65] }, { Key := [107], Data := [66] },
        { Key := [107], Data := [67] }]
      [] [manyConfig 1 { Key := [107], Data := [66] }] []
      (manyConfig 0 { Key := [107], Data := [65] })
      (manyConfig 2 { Key := [107], Data := [67] })
      (by decide) (by decide) (by decide) (by decide) (by decide) (by decide)).2.2.2.2.2.2.2⟩

end BlockBucket
